import Mathlib

/-!
Verification of the thermodiff differentiation/simplification pipeline.

This file embeds the core of the `thermodiff` repository
(`thermodiff/diffplz.py`, `thermodiff/diffclass.py`,
`thermodiff/core/kronecker_handling.py`, `thermodiff/core/easy_sums.py`,
`thermodiff/__init__.py`) as executable Lean definitions and proves, or
refutes, the specification claims about it.

The repository delegates all symbolic algebra to an external engine (sympy),
which the specification treats as a black-box oracle.  The engine is modelled
here by an expression tree `Ex` together with the evaluating ("smart")
constructors the engine applies on every node construction and rebuild
(`mkAdd`, `mkMul`, `mkDelta`, `mkPiecewise`, ...), a structural containment
test `hasV` (the engine's `has`), a substitution `subsK` (the engine's
`subs`, which checks the node against the key first and otherwise rebuilds
the node from substituted children with re-evaluation), forced evaluation
`doit` (which collapses a summation of a Kronecker delta over the component
range into a guarded piecewise, as described by the specification), and a
derivative `diffBy` (the engine's `diff`, with the indexed mole-number rule
`d n[a] / d n[b] = KroneckerDelta(a, b)`).

Piecewise expressions are represented as chains of `pw` cells ending in
`pwNil`; one sympy `Piecewise(...)` node corresponds to one whole chain.
Argument lists of applied functions are likewise `argsCons`/`argsNil` chains.
-/

/-- Symbolic expression trees of the algebra engine, as used by thermodiff:
numbers, plain symbols (`T`, `V`, `P`, `N_c`, ...), index symbols
(`i`, `j`, `k`, `l`, `m`), the mole-number base `n` and its entries `n[a]`,
arithmetic, applied functions and unevaluated derivatives, Kronecker deltas,
summations, piecewise chains, and Boolean conditions. -/
inductive Ex where
  | num (v : Int)
  | sym (name : String)
  | idx (name : String)
  | nbase
  | nOf (a : Ex)
  | add (a b : Ex)
  | mul (a b : Ex)
  | pow (a b : Ex)
  | func (name : String) (args : Ex)
  | argsCons (a rest : Ex)
  | argsNil
  | deriv (a v : Ex)
  | delta (a b : Ex)
  | sum (body : Ex) (ix : String) (lo hi : Ex)
  | pw (val cond rest : Ex)
  | pwNil
  | ctrue
  | cfalse
  | ceq (a b : Ex)
  | cne (a b : Ex)
  | cge (a b : Ex)
  | cand (a b : Ex)
deriving DecidableEq, Repr

/-- The number-of-components symbol `nc = sp.symbols("N_c", integer=True)`
from `thermodiff/thermovars.py`. -/
def ncE : Ex := .sym "N_c"

/-- Temperature symbol `T` from `thermodiff/thermovars.py`. -/
def symT : Ex := .sym "T"

/-- Volume symbol `V` from `thermodiff/thermovars.py`. -/
def symV : Ex := .sym "V"

/-- Pressure symbol `P` from `thermodiff/thermovars.py`. -/
def symP : Ex := .sym "P"

/-- Whether a node is a Kronecker delta node (the engine's
`KroneckerDelta(a, b)` when it did not auto-evaluate to a number). -/
def Ex.isDelta : Ex → Bool
  | .delta _ _ => true
  | _ => false

/-- The engine's `is_Piecewise` attribute: whether the node is a piecewise
expression. -/
def Ex.isPiecewise : Ex → Bool
  | .pw _ _ _ => true
  | .pwNil => true
  | _ => false

/-- Addition with the engine's auto-evaluation: numeric folding and
dropping of zero summands. -/
def mkAdd : Ex → Ex → Ex
  | .num a, .num b => .num (a + b)
  | .num 0, b => b
  | a, .num 0 => a
  | a, b => .add a b

/-- Multiplication with the engine's auto-evaluation: numeric folding,
annihilation by zero and dropping of unit factors. -/
def mkMul : Ex → Ex → Ex
  | .num a, .num b => .num (a * b)
  | .num 0, _ => .num 0
  | _, .num 0 => .num 0
  | .num 1, b => b
  | a, .num 1 => a
  | a, b => .mul a b

/-- Powers with the engine's auto-evaluation on the cases that occur here:
`a^1 = a`, `a^0 = 1`, `1^b = 1` and nonnegative numeric powers. -/
def mkPow : Ex → Ex → Ex
  | a, .num 1 => a
  | _, .num 0 => .num 1
  | .num 1, _ => .num 1
  | .num a, .num b => if 0 ≤ b then .num (a ^ b.toNat) else .pow (.num a) (.num b)
  | a, b => .pow a b

/-- Division `a / b`; the engine represents it as `a * b^(-1)` and cancels
an identical numerator and denominator to `1` (so `T / T = 1`). -/
def mkDiv (a b : Ex) : Ex :=
  if a = b then .num 1 else mkMul a (mkPow b (.num (-1)))

/-- Lexicographic comparison of character lists by code point, used for the
engine's canonical sorting of delta arguments. -/
def charListLt : List Char → List Char → Bool
  | [], [] => false
  | [], _ :: _ => true
  | _ :: _, [] => false
  | c :: cs, d :: ds =>
      if c.toNat < d.toNat then true
      else if d.toNat < c.toNat then false
      else charListLt cs ds

/-- Lexicographic comparison of strings by code point. -/
def strLt (a b : String) : Bool := charListLt a.data b.data

/-- Kronecker delta with the engine's auto-evaluation: `δ(a, a) = 1`,
`δ` of two distinct numbers is `0`, and index arguments are stored in
canonical (sorted) order. -/
def mkDelta (a b : Ex) : Ex :=
  if a = b then .num 1
  else match a, b with
    | .num _, .num _ => .num 0
    | .idx x, .idx y => if strLt y x then .delta (.idx y) (.idx x) else .delta (.idx x) (.idx y)
    | _, _ => .delta a b

/-- Equality condition with the engine's auto-evaluation. -/
def mkEq (a b : Ex) : Ex :=
  if a = b then .ctrue
  else match a, b with
    | .num _, .num _ => .cfalse
    | _, _ => .ceq a b

/-- Inequality (`Ne`) condition with the engine's auto-evaluation. -/
def mkNe (a b : Ex) : Ex :=
  if a = b then .cfalse
  else match a, b with
    | .num _, .num _ => .ctrue
    | _, _ => .cne a b

/-- Greater-or-equal condition with the engine's auto-evaluation. -/
def mkGe (a b : Ex) : Ex :=
  if a = b then .ctrue
  else match a, b with
    | .num x, .num y => if y ≤ x then .ctrue else .cfalse
    | _, _ => .cge a b

/-- Conjunction with the engine's auto-evaluation: `true` is dropped and
`false` annihilates. -/
def mkAnd : Ex → Ex → Ex
  | .ctrue, b => b
  | .cfalse, _ => .cfalse
  | a, .ctrue => a
  | _, .cfalse => .cfalse
  | a, b => .cand a b

/-- Normalisation pass of the engine's `Piecewise` constructor over a branch
chain: branches with a literally false condition are dropped, and the chain
is truncated just after the first branch with a literally true condition. -/
def normChain : Ex → Ex
  | .pw v c r =>
      if c = .cfalse then normChain r
      else if c = .ctrue then .pw v .ctrue .pwNil
      else .pw v c (normChain r)
  | _ => .pwNil

/-- Final collapse of the engine's `Piecewise` constructor: a single branch
with a true condition is the branch value itself; an empty chain is `0`
(that situation is never produced by the embedded code). -/
def finPW : Ex → Ex
  | .pwNil => .num 0
  | .pw v .ctrue .pwNil => v
  | x => x

/-- Branch chain from a list of (value, condition) pairs. -/
def chainOfList : List (Ex × Ex) → Ex
  | [] => .pwNil
  | (v, c) :: rest => .pw v c (chainOfList rest)

/-- The engine's `Piecewise(*pairs)` constructor with its auto-evaluation. -/
def mkPiecewise (l : List (Ex × Ex)) : Ex :=
  finPW (normChain (chainOfList l))

/-- The `args` of a piecewise expression, as (value, condition) pairs. -/
def toBranches : Ex → List (Ex × Ex)
  | .pw v c r => (v, c) :: toBranches r
  | _ => []

/-- Argument chain from a list of expressions. -/
def argsOfList : List Ex → Ex
  | [] => .argsNil
  | a :: rest => .argsCons a (argsOfList rest)

mutual

/-- The engine's structural containment test `e.has(pat)`: does `pat` occur
as a subexpression of `e`?  Chain cells (`pw`/`args` tails) are bookkeeping
of a single engine node and are not themselves subexpressions; their
components are. -/
def hasV (pat e : Ex) : Bool :=
  (e = pat) ||
  (match e with
    | .nOf a => hasV pat a
    | .add a b => hasV pat a || hasV pat b
    | .mul a b => hasV pat a || hasV pat b
    | .pow a b => hasV pat a || hasV pat b
    | .func _ args => hasC pat args
    | .deriv a v => hasV pat a || hasV pat v
    | .delta a b => hasV pat a || hasV pat b
    | .sum body _ lo hi => hasV pat body || hasV pat lo || hasV pat hi
    | .pw v c r => hasV pat v || hasV pat c || hasC pat r
    | .ceq a b => hasV pat a || hasV pat b
    | .cne a b => hasV pat a || hasV pat b
    | .cge a b => hasV pat a || hasV pat b
    | .cand a b => hasV pat a || hasV pat b
    | _ => false)

/-- Containment in a `pw`/`args` chain tail (components only). -/
def hasC (pat e : Ex) : Bool :=
  match e with
  | .pw v c r => hasV pat v || hasV pat c || hasC pat r
  | .argsCons a r => hasV pat a || hasC pat r
  | _ => false

end

mutual

/-- The engine's substitution `e.subs(key, val)`: the node itself is compared
against the key first; otherwise the node is rebuilt from substituted
children through the evaluating constructors (so a piecewise whose condition
becomes literally true collapses, a delta whose indices become equal
evaluates to `1`, and so on). -/
def subsK (key val e : Ex) : Ex :=
  if e = key then val
  else match e with
    | .nOf a => .nOf (subsK key val a)
    | .add a b => mkAdd (subsK key val a) (subsK key val b)
    | .mul a b => mkMul (subsK key val a) (subsK key val b)
    | .pow a b => mkPow (subsK key val a) (subsK key val b)
    | .func nm args => .func nm (subsC key val args)
    | .deriv a v => .deriv (subsK key val a) (subsK key val v)
    | .delta a b => mkDelta (subsK key val a) (subsK key val b)
    | .sum body ix lo hi => .sum (subsK key val body) ix (subsK key val lo) (subsK key val hi)
    | .pw v c r => finPW (normChain (.pw (subsK key val v) (subsK key val c) (subsC key val r)))
    | .ceq a b => mkEq (subsK key val a) (subsK key val b)
    | .cne a b => mkNe (subsK key val a) (subsK key val b)
    | .cge a b => mkGe (subsK key val a) (subsK key val b)
    | .cand a b => mkAnd (subsK key val a) (subsK key val b)
    | x => x

/-- Substitution in a `pw`/`args` chain tail. -/
def subsC (key val e : Ex) : Ex :=
  match e with
  | .pw v c r => .pw (subsK key val v) (subsK key val c) (subsC key val r)
  | .argsCons a r => .argsCons (subsK key val a) (subsC key val r)
  | x => x

end

/-- Result of the engine's delta summation: summing `KroneckerDelta(a, x)`
for `x` from `1` to `N_c` gives `1` guarded by `a ≥ 1 ∧ N_c ≥ a`, with an
unconditional `0` default (the boundary conditions written in the form that
`handle_sum_kronecker` substitutes by `True`). -/
def deltaSumRes (a : String) : Ex :=
  .pw (.num 1) (.cand (.cge (.idx a) (.num 1)) (.cge ncE (.idx a)))
    (.pw (.num 0) .ctrue .pwNil)

/-- One step of the engine's summation evaluation on a single summand: a
Kronecker delta between the bound index and another index symbol, summed over
the component range `1 .. N_c`, collapses by delta summation; any other
summand leaves the summation pending. -/
def sumOne (v : Ex) (ix : String) (lo hi : Ex) : Ex :=
  if lo = .num 1 ∧ hi = ncE then
    match v with
    | .delta (.idx a) (.idx x) =>
        if x = ix ∧ a ≠ ix then deltaSumRes a
        else if a = ix ∧ x ≠ ix then deltaSumRes x
        else .sum v ix lo hi
    | _ => .sum v ix lo hi
  else .sum v ix lo hi

/-- Whether no condition of a piecewise cell chain mentions the bound index.
The engine folds a summation over a piecewise body exactly in that case. -/
def chainCondsFree (ix : String) : Ex → Bool
  | .pw _ c r => !(hasV (.idx ix) c) && chainCondsFree ix r
  | _ => true

/-- Evaluation of one branch summation inside the engine's piecewise fold: a
zero summand sums to zero, a Kronecker delta between the bound index and
another index symbol over the component range collapses by delta summation,
and any other summand fails to evaluate (`None`), which makes the engine
abandon the whole fold and leave the summation pending. -/
def sumOneOpt (v : Ex) (ix : String) (lo hi : Ex) : Option Ex :=
  match v with
  | .num 0 => some (.num 0)
  | .delta (.idx a) (.idx x) =>
      if lo = .num 1 ∧ hi = ncE then
        if x = ix ∧ a ≠ ix then some (deltaSumRes a)
        else if a = ix ∧ x ≠ ix then some (deltaSumRes x)
        else none
      else none
  | _ => none

/-- The engine's fold of a summation over a piecewise body whose conditions
do not mention the bound index: every branch value is summed separately and
the branch conditions are kept; if any branch summation fails to evaluate,
the fold is abandoned. -/
def sumBranchesOpt (ix : String) (lo hi : Ex) : Ex → Option Ex
  | .pw v c r =>
      match sumOneOpt v ix lo hi, sumBranchesOpt ix lo hi r with
      | some v2, some r2 => some (.pw v2 c r2)
      | _, _ => none
  | .pwNil => some .pwNil
  | _ => none

mutual

/-- The engine's forced evaluation `e.doit()`: nodes are rebuilt bottom-up
through the evaluating constructors; a summation over a piecewise body none
of whose conditions mentions the bound index is folded into a piecewise of
branch summations (abandoned when a branch summation cannot be evaluated,
leaving the summation pending); and a pending summation over the component range
`1 .. N_c` whose body is a Kronecker delta between the bound index and
another index symbol is collapsed by delta summation.  Other summations (and
unevaluated derivative nodes, which the repository's lazy functions produce
on purpose) are left in place. -/
def doit (e : Ex) : Ex :=
  match e with
  | .nOf a => .nOf (doit a)
  | .add a b => mkAdd (doit a) (doit b)
  | .mul a b => mkMul (doit a) (doit b)
  | .pow a b => mkPow (doit a) (doit b)
  | .func nm args => .func nm (doitC args)
  | .deriv a v => .deriv (doit a) (doit v)
  | .delta a b => mkDelta (doit a) (doit b)
  | .sum body ix lo hi =>
      let b2 := doit body
      match b2 with
      | .pw v c r =>
          if chainCondsFree ix (.pw v c r) then
            match sumBranchesOpt ix lo hi (.pw v c r) with
            | some ch => finPW (normChain ch)
            | none => .sum b2 ix lo hi
          else .sum b2 ix lo hi
      | _ => sumOne b2 ix lo hi
  | .pw v c r => finPW (normChain (.pw (doit v) (doit c) (doitC r)))
  | .ceq a b => mkEq (doit a) (doit b)
  | .cne a b => mkNe (doit a) (doit b)
  | .cge a b => mkGe (doit a) (doit b)
  | .cand a b => mkAnd (doit a) (doit b)
  | x => x

/-- Forced evaluation in a `pw`/`args` chain tail. -/
def doitC (e : Ex) : Ex :=
  match e with
  | .pw v c r => .pw (doit v) (doit c) (doitC r)
  | .argsCons a r => .argsCons (doit a) (doitC r)
  | x => x

end

mutual

/-- The engine's derivative `sp.diff(e, v)` with respect to a plain symbol or
a mole-number entry `n[index]`: linear over sums, product rule, power rule,
`d n[a] / d n[b] = KroneckerDelta(a, b)`, derivatives slide under summations
and into piecewise branch values, and applied functions or unevaluated
derivative nodes that contain the variable become unevaluated derivative
nodes (the repository's lazy-function behaviour). -/
def diffBy (e v : Ex) : Ex :=
  match e with
  | .num _ => .num 0
  | .sym t => if v = .sym t then .num 1 else .num 0
  | .idx t => if v = .idx t then .num 1 else .num 0
  | .nbase => .num 0
  | .nOf a =>
      match v with
      | .nOf b => mkDelta b a
      | _ => .num 0
  | .add a b => mkAdd (diffBy a v) (diffBy b v)
  | .mul a b => mkAdd (mkMul (diffBy a v) b) (mkMul a (diffBy b v))
  | .pow a b =>
      mkAdd (mkMul (mkMul b (mkPow a (mkAdd b (.num (-1))))) (diffBy a v))
        (mkMul (mkMul (.func "log" (.argsCons a .argsNil)) (mkPow a b)) (diffBy b v))
  | .func nm args => if hasV v (.func nm args) then .deriv (.func nm args) v else .num 0
  | .deriv a w => if hasV v a then .deriv (.deriv a w) v else .num 0
  | .delta _ _ => .num 0
  | .sum body ix lo hi => .sum (diffBy body v) ix lo hi
  | .pw bv c r => finPW (normChain (.pw (diffBy bv v) c (diffC r v)))
  | _ => .num 0

/-- Derivative in a piecewise chain tail: branch values are differentiated,
conditions are kept. -/
def diffC (e v : Ex) : Ex :=
  match e with
  | .pw bv c r => .pw (diffBy bv v) c (diffC r v)
  | x => x

end

/-! ## The thermodiff core (`kronecker_handling.py`, `easy_sums.py`) -/

/-- The boundary condition `idx >= 1` used as a substitution key in
`handle_sum_kronecker`. -/
def bcLow (s : String) : Ex := .cge (.idx s) (.num 1)

/-- The boundary condition `nc >= idx` used as a substitution key in
`handle_sum_kronecker`. -/
def bcHigh (s : String) : Ex := .cge ncE (.idx s)

/-- `handle_sum_kronecker(expr, idx)` from
`thermodiff/core/kronecker_handling.py`:
`expr.doit().subs({idx >= 1: True, nc >= idx: True})`. -/
def handle_sum_kronecker (e : Ex) (s : String) : Ex :=
  subsK (bcHigh s) .ctrue (subsK (bcLow s) .ctrue (doit e))

/-- The condition `sp.Eq(i, k)` built in `handle_free_kronecker` from the
two arguments of the (canonically ordered) delta node. -/
def condOf : Ex → Ex
  | .delta a b => .ceq a b
  | _ => .ctrue

/-- `handle_free_kronecker(expr, kdx, idx)` from
`thermodiff/core/kronecker_handling.py`: if `expr` contains
`KroneckerDelta(idx, kdx)`, return the two-branch piecewise
`Piecewise((expr.subs(kdx, idx), Eq(i, k)), (expr.subs(delta, 0), True))`
where `i, k = delta.args`; otherwise return `expr` unchanged.
When `kdx = idx` the constructed delta auto-evaluates to `1` and is not a
delta node; the model then returns `expr` (the source would unpack
`delta.args` and is never called this way by the pipeline). -/
def handle_free_kronecker (e : Ex) (kdxN idxN : String) : Ex :=
  let d := mkDelta (.idx idxN) (.idx kdxN)
  if d.isDelta ∧ hasV d e then
    mkPiecewise
      [(subsK (.idx kdxN) (.idx idxN) e, condOf d),
       (subsK d (.num 0) e, .ctrue)]
  else e

/-- `sum_components(expr, idx)` from `thermodiff/core/easy_sums.py`:
`sp.Sum(expr, (idx, 1, nc))`. -/
def sum_components (e : Ex) (ix : String) : Ex :=
  .sum e ix (.num 1) ncE

/-- `sum_custom(expr, idx, start, end)` from `thermodiff/core/easy_sums.py`:
`sp.Sum(expr, (idx, start, end))`. -/
def sum_custom (e : Ex) (ix : String) (lo hi : Ex) : Ex :=
  .sum e ix lo hi

/-! ## The DiffPlz orchestrator (`thermodiff/diffplz.py`) -/

/-- `DiffPlz.diff_ni(expression, index)`: differentiate with respect to
`n[index]`, clean summation deltas with `handle_sum_kronecker`, then apply
`handle_free_kronecker` for every index of `self.indexes` in order. -/
def diff_ni (idxs : List String) (e : Ex) (s : String) : Ex :=
  let raw := diffBy e (.nOf (.idx s))
  let noSumKron := handle_sum_kronecker raw s
  idxs.foldl (fun acc kdx => handle_free_kronecker acc kdx s) noSumKron

/-- The Python comparison `cond is True` as it behaves inside
`DiffPlz.diff_dnidnj`: piecewise conditions are the engine's Boolean-true
singleton object, never the host language's `True`, so this identity test
is always false. -/
def pyIsTrue (_ : Ex) : Bool := false

/-- The per-branch condition combination of `DiffPlz.diff_dnidnj`
(diffplz.py lines 240-245), written exactly as the source's three cases with
the `is True` comparisons. -/
def combine_plz (cond dcond : Ex) (s : String) : Ex :=
  if pyIsTrue dcond ∧ ¬ pyIsTrue cond then mkAnd cond (mkNe (.idx "i") (.idx s))
  else if ¬ pyIsTrue dcond ∧ pyIsTrue cond then mkAnd dcond (mkNe (.idx "i") (.idx s))
  else mkAnd cond dcond

/-- The re-differentiation applied to each branch of the piecewise inside
`DiffPlz.diff_dnidnj` (and identically in `DiffClass.diff_dnidnj`): diff with
respect to `n[index]`, `handle_sum_kronecker`, the `handle_free_kronecker`
loop over `self.indexes`, and one more `handle_free_kronecker(_, index, i)`
for the new `delta(j, i)` deltas. -/
def rediff (idxs : List String) (e : Ex) (s : String) : Ex :=
  let raw := diffBy e (.nOf (.idx s))
  let noSumKron := handle_sum_kronecker raw s
  let looped := idxs.foldl (fun acc kdx => handle_free_kronecker acc kdx s) noSumKron
  handle_free_kronecker looped s "i"

/-- Branch expansion of `DiffPlz.diff_dnidnj` over the outer piecewise
branches, with `combine_plz` as the condition combiner. -/
def pieces_plz (idxs : List String) (s : String) : List (Ex × Ex) → List (Ex × Ex)
  | [] => []
  | (ev, c) :: rest =>
      let r := rediff idxs ev s
      (if r.isPiecewise then
        (toBranches r).map (fun dc => (dc.1, combine_plz c dc.2 s))
      else [(r, c)]) ++ pieces_plz idxs s rest

/-- `DiffPlz.diff_dnidnj(expression, index)`: delegate to `diff_ni` when the
first derivative is not piecewise, and otherwise re-differentiate every
branch and assemble the combined piecewise. -/
def diff_dnidnj (idxs : List String) (e : Ex) (s : String) : Ex :=
  if e.isPiecewise = false then diff_ni idxs e s
  else mkPiecewise (pieces_plz idxs s (toBranches e))

/-! ## The minimal DiffClass variant (`thermodiff/diffclass.py`) -/

/-- The comparison `cond == True` as it behaves in `DiffClass.diff_dnidnj`:
the engine's structural equality against the sympified `True`, i.e. the
condition is the Boolean-true object. -/
def pyEqTrue (c : Ex) : Bool := c = .ctrue

/-- The per-branch condition combination of `DiffClass.diff_dnidnj`
(diffclass.py lines 141-146), which uses `==`/`!=` against `True`. -/
def combine_class (cond dcond : Ex) (s : String) : Ex :=
  if pyEqTrue dcond ∧ ¬ pyEqTrue cond then mkAnd cond (mkNe (.idx "i") (.idx s))
  else if ¬ pyEqTrue dcond ∧ pyEqTrue cond then mkAnd dcond (mkNe (.idx "i") (.idx s))
  else mkAnd cond dcond

/-- `DiffClass.diff_ni(expression, index)`: the body is guarded by
`if not expression.is_Piecewise:` with no else branch, so a piecewise input
falls through and the method returns `None` — modelled as `Option Ex`. -/
def diffclass_diff_ni (idxs : List String) (e : Ex) (s : String) : Option Ex :=
  if e.isPiecewise = false then
    some (idxs.foldl (fun acc kdx => handle_free_kronecker acc kdx s)
      (handle_sum_kronecker (diffBy e (.nOf (.idx s))) s))
  else none

/-- Branch expansion of `DiffClass.diff_dnidnj` with `combine_class`. -/
def pieces_class (idxs : List String) (s : String) : List (Ex × Ex) → List (Ex × Ex)
  | [] => []
  | (ev, c) :: rest =>
      let r := rediff idxs ev s
      (if r.isPiecewise then
        (toBranches r).map (fun dc => (dc.1, combine_class c dc.2 s))
      else [(r, c)]) ++ pieces_class idxs s rest

/-- `DiffClass.diff_dnidnj(expression, index)`. -/
def diffclass_diff_dnidnj (idxs : List String) (e : Ex) (s : String) : Option Ex :=
  if e.isPiecewise = false then diffclass_diff_ni idxs e s
  else some (mkPiecewise (pieces_class idxs s (toBranches e)))

/-! ## The DiffPlz derivative bundle and `clean_plz` (`thermodiff/diffplz.py`) -/

/-- Whether the expression contains the mole-number base `n` (the engine's
`expr.has(n)` is true both for the bare base and for any indexed entry
`n[a]`, since an `Indexed` node contains its `IndexedBase`). -/
def containsN : Ex → Bool
  | .nbase => true
  | .nOf _ => true
  | .add a b => containsN a || containsN b
  | .mul a b => containsN a || containsN b
  | .pow a b => containsN a || containsN b
  | .func _ args => containsN args
  | .argsCons a r => containsN a || containsN r
  | .deriv a v => containsN a || containsN v
  | .delta a b => containsN a || containsN b
  | .sum body _ lo hi => containsN body || containsN lo || containsN hi
  | .pw v c r => containsN v || containsN c || containsN r
  | .ceq a b => containsN a || containsN b
  | .cne a b => containsN a || containsN b
  | .cge a b => containsN a || containsN b
  | .cand a b => containsN a || containsN b
  | _ => false

/-- `DiffPlz._detect_arguments`: collect, in source order, `n`, `V`, `P`,
`T` if the expression contains them. -/
def detect_arguments (e : Ex) : List Ex :=
  (if containsN e then [Ex.nbase] else []) ++
  (if hasV symV e then [symV] else []) ++
  (if hasV symP e then [symP] else []) ++
  (if hasV symT e then [symT] else [])

/-- The derivative bundle stored on a `DiffPlz` instance: the constructor
arguments and every derivative attribute computed in `DiffPlz.__init__`
(the `internal_functions` list is only used by the LaTeX printer and is
omitted). -/
structure Bundle where
  name : String
  expression : Ex
  indexes : List String
  dt : Ex
  dt2 : Ex
  dv : Ex
  dv2 : Ex
  dp : Ex
  dp2 : Ex
  dni : Ex
  dnidnj : Ex
  dtdv : Ex
  dtdp : Ex
  dtdni : Ex
  dvdni : Ex
  dvdp : Ex
  dpdni : Ex
  arguments : List Ex
deriving DecidableEq, Repr

/-- `DiffPlz.__init__(expression, internal_functions, indexes, name)`:
compute all first, second and cross derivatives in the source's order. -/
def mk_diffplz (expression : Ex) (idxs : List String) (name : String) : Bundle :=
  let dt := diffBy expression symT
  let dt2 := diffBy dt symT
  let dv := diffBy expression symV
  let dv2 := diffBy dv symV
  let dp := diffBy expression symP
  let dp2 := diffBy dp symP
  let dni := diff_ni idxs expression "i"
  let dnidnj := diff_dnidnj idxs dni "j"
  { name := name
    expression := expression
    indexes := idxs
    dt := dt
    dt2 := dt2
    dv := dv
    dv2 := dv2
    dp := dp
    dp2 := dp2
    dni := dni
    dnidnj := dnidnj
    dtdv := diffBy dt symV
    dtdp := diffBy dt symP
    dtdni := diff_ni idxs dt "i"
    dvdni := diff_ni idxs dv "i"
    dvdp := diffBy dv symP
    dpdni := diff_ni idxs dp "i"
    arguments := detect_arguments expression }

/-- `DiffPlz.clean_plz`, transcribed line by line: `sym` is
`Function(name)(*arguments)`; the local variables `dt`, `dp`, `dv`, `dni`
are shallow copies taken before the corresponding attribute is rewritten;
each `if X.has(A): X = X.subs(A, B)` step is applied sequentially to the
running value of the attribute, and the second-derivative steps guard on
`self.dt != 0` (etc.) against the already-updated first derivatives while
testing containment of the pre-update copies, exactly as the source does. -/
def clean_plz (b : Bundle) : Bundle :=
  let symF := Ex.func b.name (argsOfList b.arguments)
  -- first diffs
  let dt0 := b.dt
  let dtsym := Ex.deriv symF symT
  let dtA := if hasV b.expression b.dt then subsK b.expression symF b.dt else b.dt
  let dtB := if hasV (mkDiv b.expression symT) dtA then
      subsK (mkDiv b.expression symT) (mkDiv symF symT) dtA else dtA
  let dp0 := b.dp
  let dpsym := Ex.deriv symF symP
  let dpA := if hasV b.expression b.dp then subsK b.expression symF b.dp else b.dp
  let dv0 := b.dv
  let dvsym := Ex.deriv symF symV
  let dvA := if hasV b.expression b.dv then subsK b.expression symF b.dv else b.dv
  let dni0 := b.dni
  let dnisym := Ex.deriv symF (.nOf (.idx "i"))
  let dniA := if hasV b.expression b.dni then subsK b.expression symF b.dni else b.dni
  -- dT2
  let dt2A := if hasV b.expression b.dt2 then subsK b.expression symF b.dt2 else b.dt2
  let dt2B := if hasV (mkDiv b.expression symT) dt2A then
      subsK (mkDiv b.expression symT) (mkDiv symF symT) dt2A else dt2A
  let dt2C := if hasV dtB dt2B ∧ dtB ≠ .num 0 then subsK dtB dtsym dt2B else dt2B
  let dt2D := if hasV (mkDiv dtB symT) dt2C ∧ dtB ≠ .num 0 then
      subsK (mkDiv dtB symT) (mkDiv dtsym symT) dt2C else dt2C
  -- dV2
  let dv2A := if hasV b.expression b.dv2 then subsK b.expression symF b.dv2 else b.dv2
  let dv2B := if hasV dv0 dv2A ∧ dvA ≠ .num 0 then subsK dvA dvsym dv2A else dv2A
  -- dP2
  let dp2A := if hasV b.expression b.dp2 then subsK b.expression symF b.dp2 else b.dp2
  let dp2B := if hasV dp0 dp2A ∧ dpA ≠ .num 0 then subsK dpA dpsym dp2A else dp2A
  -- dnidnj
  let dnnA := if hasV b.expression b.dnidnj then subsK b.expression symF b.dnidnj else b.dnidnj
  let dnnB := if hasV dni0 dnnA ∧ dniA ≠ .num 0 then subsK dniA dnisym dnnA else dnnA
  -- dtdv
  let dtdvA := if hasV b.expression b.dtdv then subsK b.expression symF b.dtdv else b.dtdv
  let dtdvB := if hasV dt0 dtdvA ∧ dtB ≠ .num 0 then subsK dtB dtsym dtdvA else dtdvA
  let dtdvC := if hasV dv0 dtdvB ∧ dvA ≠ .num 0 then subsK dvA dvsym dtdvB else dtdvB
  let dtdvD := if hasV (mkDiv dt0 symT) dtdvC ∧ dtB ≠ .num 0 then
      subsK (mkDiv dtB symT) (mkDiv dtsym symT) dtdvC else dtdvC
  let dtdvE := if hasV (mkDiv dv0 symT) dtdvD ∧ dvA ≠ .num 0 then
      subsK (mkDiv dvA symT) (mkDiv dvsym symT) dtdvD else dtdvD
  -- dtdp
  let dtdpA := if hasV b.expression b.dtdp then subsK b.expression symF b.dtdp else b.dtdp
  let dtdpB := if hasV dt0 dtdpA ∧ dtB ≠ .num 0 then subsK dtB dtsym dtdpA else dtdpA
  let dtdpC := if hasV dp0 dtdpB ∧ dpA ≠ .num 0 then subsK dpA dpsym dtdpB else dtdpB
  let dtdpD := if hasV (mkDiv dt0 symT) dtdpC ∧ dtB ≠ .num 0 then
      subsK (mkDiv dtB symT) (mkDiv dtsym symT) dtdpC else dtdpC
  let dtdpE := if hasV (mkDiv dp0 symT) dtdpD ∧ dpA ≠ .num 0 then
      subsK (mkDiv dpA symT) (mkDiv dpsym symT) dtdpD else dtdpD
  -- dtdni
  let dtdniA := if hasV b.expression b.dtdni then subsK b.expression symF b.dtdni else b.dtdni
  let dtdniB := if hasV dt0 dtdniA ∧ dtB ≠ .num 0 then subsK dtB dtsym dtdniA else dtdniA
  let dtdniC := if hasV dni0 dtdniB ∧ dniA ≠ .num 0 then subsK dniA dnisym dtdniB else dtdniB
  let dtdniD := if hasV (mkDiv dt0 symT) dtdniC ∧ dtB ≠ .num 0 then
      subsK (mkDiv dtB symT) (mkDiv dtsym symT) dtdniC else dtdniC
  let dtdniE := if hasV (mkDiv dni0 symT) dtdniD ∧ dniA ≠ .num 0 then
      subsK (mkDiv dniA symT) (mkDiv dnisym symT) dtdniD else dtdniD
  -- dvdni
  let dvdniA := if hasV b.expression b.dvdni then subsK b.expression symF b.dvdni else b.dvdni
  let dvdniB := if hasV dv0 dvdniA ∧ dvA ≠ .num 0 then subsK dvA dvsym dvdniA else dvdniA
  let dvdniC := if hasV dni0 dvdniB ∧ dniA ≠ .num 0 then subsK dniA dnisym dvdniB else dvdniB
  -- dvdp
  let dvdpA := if hasV b.expression b.dvdp then subsK b.expression symF b.dvdp else b.dvdp
  let dvdpB := if hasV dv0 dvdpA ∧ dvA ≠ .num 0 then subsK dvA dvsym dvdpA else dvdpA
  let dvdpC := if hasV dp0 dvdpB ∧ dpA ≠ .num 0 then subsK dpA dpsym dvdpB else dvdpB
  { b with
    dt := dtB, dp := dpA, dv := dvA, dni := dniA,
    dt2 := dt2D, dv2 := dv2B, dp2 := dp2B, dnidnj := dnnB,
    dtdv := dtdvE, dtdp := dtdpE, dtdni := dtdniE,
    dvdni := dvdniC, dvdp := dvdpC }

/-! ## The package initializer (`thermodiff/__init__.py`)

The import machinery is modelled at the level of names: a
`from M import a, b` statement succeeds exactly when every requested name is
an attribute of module `M`, and the first failing statement aborts the
package import with an ImportError naming the module and the missing name. -/

/-- The module attributes of `thermodiff/core/easy_sums.py`: its imports and
its two function definitions. -/
def easy_sums_names : List String := ["sp", "nc", "sum_components", "sum_custom"]

/-- The module attributes of `thermodiff/core/idxfunction.py`. -/
def idxfunction_names : List String := ["sp", "idx_function", "lazy_derivative"]

/-- The module attributes of `thermodiff/core/kronecker_handling.py`. -/
def kronecker_names : List String := ["sp", "nc", "handle_sum_kronecker", "handle_free_kronecker"]

/-- The module attributes of `thermodiff/diffclass.py`. -/
def diffclass_names : List String :=
  ["List", "sp", "i", "j", "k", "l", "m", "n", "T", "V",
   "handle_free_kronecker", "handle_sum_kronecker", "DiffClass"]

/-- The module attributes of `thermodiff/thermovars.py`. -/
def thermovars_names : List String :=
  ["sp", "nc", "i", "j", "k", "l", "m", "n", "T", "V", "P", "R"]

/-- The `from ... import ...` statements executed by
`thermodiff/__init__.py`, in source order: each is the attribute list of
the imported module paired with the requested names. -/
def init_imports : List (String × List String × List String) :=
  [("thermodiff.core.easy_sums", easy_sums_names, ["SumComponents", "SumCustom"]),
   ("thermodiff.core.idxfunction", idxfunction_names, ["IdxFunction"]),
   ("thermodiff.core.kronecker_handling", kronecker_names,
     ["handle_free_kronecker", "handle_sum_kronecker"]),
   ("thermodiff.diffclass", diffclass_names, ["DiffClass"]),
   ("thermodiff.thermovars", thermovars_names,
     ["i", "j", "k", "l", "m", "n", "nc", "R", "T", "V"])]

/-- Execute one `from M import names` statement: error on the first name
that is not an attribute of the module. -/
def runFromImport (modName : String) (avail req : List String) :
    Except (String × String) Unit :=
  match req.find? (fun nm => ¬ avail.contains nm) with
  | some missing => .error (modName, missing)
  | none => .ok ()

/-- Importing the top-level `thermodiff` package: run the initializer's
statements in order, stopping at the first ImportError. -/
def import_thermodiff : Except (String × String) Unit :=
  init_imports.foldlM (fun _ st => runFromImport st.1 st.2.1 st.2.2) ()

/-! ## Structural predicates

`canonV` characterises expressions in the engine's evaluated form: every
node is exactly what the corresponding evaluating constructor would have
produced from its (evaluated) children.  This is the form in which the
engine keeps all expressions; trees outside this fragment are artifacts of
the embedding.  `pwOK` is the piecewise invariant of the specification's
data model: every piecewise node is a nonempty branch sequence in which
exactly one branch — the terminal one — carries the literally true
condition, and no branch carries the literally false one.  `noIdx`,
`sumFree` and `pwFree` are plain subterm exclusions. -/

/-- Whether a node is a numeric literal. -/
def Ex.isNum : Ex → Bool
  | .num _ => true
  | _ => false

mutual

/-- The expression is in the engine's evaluated (canonical) form. -/
def canonV : Ex → Bool
  | .num _ => true
  | .sym _ => true
  | .idx _ => true
  | .nbase => true
  | .ctrue => true
  | .cfalse => true
  | .argsNil => false
  | .argsCons _ _ => false
  | .pwNil => false
  | .nOf a => canonV a
  | .add a b =>
      canonV a && canonV b && !(a.isNum && b.isNum) && !(a == .num 0) && !(b == .num 0)
  | .mul a b =>
      canonV a && canonV b && !(a.isNum && b.isNum) && !(a == .num 0) && !(b == .num 0) &&
        !(a == .num 1) && !(b == .num 1)
  | .pow a b =>
      canonV a && canonV b && !(b == .num 1) && !(b == .num 0) && !(a == .num 1) &&
        (match a, b with
          | .num _, .num e => decide (e < 0)
          | _, _ => true)
  | .func _ args => canonA args
  | .deriv a v => canonV a && canonV v
  | .delta a b =>
      canonV a && canonV b && !(a == b) && !(a.isNum && b.isNum) &&
        (match a, b with
          | .idx x, .idx y => !(strLt y x)
          | _, _ => true)
  | .sum body _ lo hi => canonV body && canonV lo && canonV hi
  | .pw v c r =>
      canonV v && canonV c && !(c == .ctrue) && !(c == .cfalse) && canonC r
  | .ceq a b => canonV a && canonV b && !(a == b) && !(a.isNum && b.isNum)
  | .cne a b => canonV a && canonV b && !(a == b) && !(a.isNum && b.isNum)
  | .cge a b => canonV a && canonV b && !(a == b) && !(a.isNum && b.isNum)
  | .cand a b =>
      canonV a && canonV b && !(a == .ctrue) && !(a == .cfalse) &&
        !(b == .ctrue) && !(b == .cfalse)

/-- Canonical form for a piecewise chain tail: no false condition, a true
condition only on the last cell, and the chain properly terminated. -/
def canonC : Ex → Bool
  | .pwNil => true
  | .pw v c r =>
      canonV v && canonV c && !(c == .cfalse) &&
        (if c == .ctrue then r == .pwNil else canonC r)
  | _ => false

/-- Canonical form for an argument chain. -/
def canonA : Ex → Bool
  | .argsNil => true
  | .argsCons a r => canonV a && canonA r
  | _ => false

end

/-- Local form of the piecewise invariant at one cell: the last cell of a
chain carries the literally true condition, every earlier cell carries a
condition that is neither literally true nor literally false. -/
def cellOK (c r : Ex) : Bool :=
  if r == .pwNil then c == .ctrue else (!(c == .ctrue) && !(c == .cfalse))

mutual

/-- The piecewise invariant of the specification's data model, for every
piecewise subexpression: an ordered branch sequence in which exactly one
branch, the terminal one, carries the unconditional (literally true)
condition, and no branch carries a literally false condition. -/
def pwOK : Ex → Bool
  | .nOf a => pwOK a
  | .add a b => pwOK a && pwOK b
  | .mul a b => pwOK a && pwOK b
  | .pow a b => pwOK a && pwOK b
  | .func _ args => pwOKC args
  | .deriv a v => pwOK a && pwOK v
  | .delta a b => pwOK a && pwOK b
  | .sum body _ lo hi => pwOK body && pwOK lo && pwOK hi
  | .pw v c r => pwOK v && pwOK c && cellOK c r && pwOKC r
  | .pwNil => false
  | .argsCons _ _ => false
  | .ceq a b => pwOK a && pwOK b
  | .cne a b => pwOK a && pwOK b
  | .cge a b => pwOK a && pwOK b
  | .cand a b => pwOK a && pwOK b
  | _ => true

/-- The piecewise invariant along a `pw`/`args` chain tail. -/
def pwOKC : Ex → Bool
  | .pwNil => true
  | .argsNil => true
  | .pw v c r => pwOK v && pwOK c && cellOK c r && pwOKC r
  | .argsCons a r => pwOK a && pwOKC r
  | _ => false

end

/-- The expression contains no index symbol at all (hence nothing in it can
depend on a component index). -/
def noIdx : Ex → Bool
  | .idx _ => false
  | .nOf a => noIdx a
  | .add a b => noIdx a && noIdx b
  | .mul a b => noIdx a && noIdx b
  | .pow a b => noIdx a && noIdx b
  | .func _ args => noIdx args
  | .argsCons a r => noIdx a && noIdx r
  | .deriv a v => noIdx a && noIdx v
  | .delta a b => noIdx a && noIdx b
  | .sum body _ lo hi => noIdx body && noIdx lo && noIdx hi
  | .pw v c r => noIdx v && noIdx c && noIdx r
  | .ceq a b => noIdx a && noIdx b
  | .cne a b => noIdx a && noIdx b
  | .cge a b => noIdx a && noIdx b
  | .cand a b => noIdx a && noIdx b
  | _ => true

/-- The expression contains no pending summation node. -/
def sumFree : Ex → Bool
  | .sum _ _ _ _ => false
  | .nOf a => sumFree a
  | .add a b => sumFree a && sumFree b
  | .mul a b => sumFree a && sumFree b
  | .pow a b => sumFree a && sumFree b
  | .func _ args => sumFree args
  | .argsCons a r => sumFree a && sumFree r
  | .deriv a v => sumFree a && sumFree v
  | .delta a b => sumFree a && sumFree b
  | .pw v c r => sumFree v && sumFree c && sumFree r
  | .ceq a b => sumFree a && sumFree b
  | .cne a b => sumFree a && sumFree b
  | .cge a b => sumFree a && sumFree b
  | .cand a b => sumFree a && sumFree b
  | _ => true

/-- The expression contains no piecewise subexpression. -/
def pwFree : Ex → Bool
  | .pw _ _ _ => false
  | .pwNil => false
  | .nOf a => pwFree a
  | .add a b => pwFree a && pwFree b
  | .mul a b => pwFree a && pwFree b
  | .pow a b => pwFree a && pwFree b
  | .func _ args => pwFree args
  | .argsCons a r => pwFree a && pwFree r
  | .deriv a v => pwFree a && pwFree v
  | .delta a b => pwFree a && pwFree b
  | .sum body _ lo hi => pwFree body && pwFree lo && pwFree hi
  | .ceq a b => pwFree a && pwFree b
  | .cne a b => pwFree a && pwFree b
  | .cge a b => pwFree a && pwFree b
  | .cand a b => pwFree a && pwFree b
  | _ => true

/-- Keys whose occurrence the mole-number pipeline has to track: Kronecker
deltas between two index symbols (targeted by `handle_free_kronecker`) and
boundary conditions of the form `idx >= 1` or `nc >= idx` (targeted by
`handle_sum_kronecker`). -/
def isBadKey : Ex → Bool
  | .delta (.idx _) (.idx _) => true
  | .cge (.idx _) (.num 1) => true
  | .cge a (.idx _) => a == ncE
  | _ => false


/-- Bundle of facts propagated through the mole-number derivative on
index-free input: the result is canonical, stable under forced evaluation,
free of pipeline keys, and is not a delta between two index symbols. -/
def GR (x : Ex) : Prop :=
  canonV x = true ∧ doit x = x ∧ (∀ p, isBadKey p = true → hasV p x = false) ∧
  (∀ a b, x ≠ .delta (.idx a) (.idx b))

/-- Pre-normalisation soundness of a raw piecewise cell chain: every cell
value and every cell condition is canonical and satisfies the piecewise
invariant (the chain-level shape conditions are what `normChain` restores). -/
def cellsGood : Ex → Bool
  | .pw v c r => canonV v && pwOK v && canonV c && pwOK c && cellsGood r
  | .pwNil => true
  | _ => false

/-- Whether a cell chain contains a cell with the literally true condition
(everything after the first such cell is dropped by `normChain`). -/
def hasTrueCell : Ex → Bool
  | .pw _ c r => (c == Ex.ctrue) || hasTrueCell r
  | _ => false

/-! ## Helper lemmas about the evaluating constructors -/

theorem mkAdd_eq_add {a b : Ex} (hn : (a.isNum && b.isNum) = false)
    (ha : a ≠ .num 0) (hb : b ≠ .num 0) : mkAdd a b = .add a b := by
  unfold mkAdd
  split <;> simp_all [Ex.isNum]

theorem mkMul_eq_mul {a b : Ex} (hn : (a.isNum && b.isNum) = false)
    (ha0 : a ≠ .num 0) (hb0 : b ≠ .num 0) (ha1 : a ≠ .num 1) (hb1 : b ≠ .num 1) :
    mkMul a b = .mul a b := by
  unfold mkMul
  split <;> simp_all [Ex.isNum]

theorem mkPow_eq_pow {a b : Ex} (hb1 : b ≠ .num 1) (hb0 : b ≠ .num 0) (ha1 : a ≠ .num 1)
    (hnn : ∀ x e, a = .num x → b = .num e → e < 0) :
    mkPow a b = .pow a b := by
  unfold mkPow
  split
  · simp_all
  · simp_all
  · simp_all
  · rename_i x e h1 h2 h3
    have := hnn x e rfl rfl
    have h0 : ¬ (0 ≤ e) := by omega
    simp [h0]
  · rfl

theorem mkAnd_eq_cand {a b : Ex} (hat : a ≠ .ctrue) (haf : a ≠ .cfalse)
    (hbt : b ≠ .ctrue) (hbf : b ≠ .cfalse) : mkAnd a b = .cand a b := by
  unfold mkAnd
  split <;> simp_all

theorem mkEq_eq_ceq {a b : Ex} (hne : a ≠ b) (hn : (a.isNum && b.isNum) = false) :
    mkEq a b = .ceq a b := by
  unfold mkEq
  rw [if_neg hne]
  split <;> simp_all [Ex.isNum]

theorem mkNe_eq_cne {a b : Ex} (hne : a ≠ b) (hn : (a.isNum && b.isNum) = false) :
    mkNe a b = .cne a b := by
  unfold mkNe
  rw [if_neg hne]
  split <;> simp_all [Ex.isNum]

theorem mkGe_eq_cge {a b : Ex} (hne : a ≠ b) (hn : (a.isNum && b.isNum) = false) :
    mkGe a b = .cge a b := by
  unfold mkGe
  rw [if_neg hne]
  split <;> simp_all [Ex.isNum]

theorem mkDelta_eq_delta {a b : Ex} (hne : a ≠ b) (hn : (a.isNum && b.isNum) = false)
    (hsort : ∀ x y, a = .idx x → b = .idx y → strLt y x = false) :
    mkDelta a b = .delta a b := by
  unfold mkDelta
  rw [if_neg hne]
  split
  · simp_all [Ex.isNum]
  · rename_i x y
    have := hsort x y rfl rfl
    simp [this]
  · rfl

theorem normChain_canonC {r : Ex} (h : canonC r = true) : normChain r = r := by
  induction r with
  | pw v c rest _ _ ih =>
      by_cases hc : c = Ex.ctrue
      · subst hc
        simp [canonC] at h
        simp [normChain, h.2]
      · simp [canonC, hc] at h
        obtain ⟨⟨⟨-, -⟩, hcf⟩, hrest⟩ := h
        simp [normChain, hc, hcf, ih hrest]
  | pwNil => simp [normChain]
  | _ => simp [canonC] at h

theorem finPW_pw_ne_true {v c r : Ex} (hc : c ≠ Ex.ctrue) :
    finPW (Ex.pw v c r) = Ex.pw v c r := by
  unfold finPW
  split <;> simp_all

theorem bool_and_false_of_or {x y : Bool} (h : x = false ∨ y = false) : (x && y) = false := by
  cases h <;> simp_all

theorem canonV_add {a b : Ex} : canonV (.add a b) = true ↔
    (canonV a = true ∧ canonV b = true ∧ (a.isNum = false ∨ b.isNum = false) ∧
      a ≠ .num 0 ∧ b ≠ .num 0) := by
  simp [canonV, and_assoc]

theorem canonV_mul {a b : Ex} : canonV (.mul a b) = true ↔
    (canonV a = true ∧ canonV b = true ∧ (a.isNum = false ∨ b.isNum = false) ∧
      a ≠ .num 0 ∧ b ≠ .num 0 ∧ a ≠ .num 1 ∧ b ≠ .num 1) := by
  simp [canonV, and_assoc]

theorem canonV_pow {a b : Ex} : canonV (.pow a b) = true ↔
    (canonV a = true ∧ canonV b = true ∧ b ≠ .num 1 ∧ b ≠ .num 0 ∧ a ≠ .num 1 ∧
      (∀ x e, a = .num x → b = .num e → e < 0)) := by
  constructor
  · intro h
    simp [canonV, and_assoc] at h
    obtain ⟨h1, h2, h3, h4, h5, h6⟩ := h
    refine ⟨h1, h2, h3, h4, h5, ?_⟩
    intro x e hx he
    subst hx; subst he
    simpa using h6
  · intro ⟨h1, h2, h3, h4, h5, h6⟩
    simp [canonV, and_assoc, h1, h2, h3, h4, h5]
    cases a with
    | num x =>
        cases b with
        | num e => simpa using h6 x e rfl rfl
        | _ => simp
    | _ => cases b <;> simp

theorem canonV_nOf {a : Ex} : canonV (.nOf a) = true ↔ canonV a = true := by
  simp [canonV]

theorem canonV_func {nm : String} {args : Ex} :
    canonV (.func nm args) = true ↔ canonA args = true := by
  simp [canonV]

theorem canonV_deriv {a v : Ex} : canonV (.deriv a v) = true ↔
    (canonV a = true ∧ canonV v = true) := by
  simp [canonV]

theorem canonV_delta {a b : Ex} : canonV (.delta a b) = true ↔
    (canonV a = true ∧ canonV b = true ∧ a ≠ b ∧ (a.isNum = false ∨ b.isNum = false) ∧
      (∀ x y, a = .idx x → b = .idx y → strLt y x = false)) := by
  constructor
  · intro h
    simp [canonV, and_assoc] at h
    obtain ⟨h1, h2, h3, h4⟩ := h
    refine ⟨h1, h2, h3, ?_, ?_⟩
    · tauto
    · intro x y hx hy
      subst hx; subst hy
      simpa using h4.2
  · intro ⟨h1, h2, h3, h4, h5⟩
    simp [canonV, and_assoc, h1, h2, h3]
    constructor
    · tauto
    · cases a with
      | idx x =>
          cases b with
          | idx y => simpa using h5 x y rfl rfl
          | _ => simp
      | _ => cases b <;> simp

theorem canonV_sum {body : Ex} {ix : String} {lo hi : Ex} :
    canonV (.sum body ix lo hi) = true ↔
    (canonV body = true ∧ canonV lo = true ∧ canonV hi = true) := by
  simp [canonV, and_assoc]

theorem canonV_pw {v c r : Ex} : canonV (.pw v c r) = true ↔
    (canonV v = true ∧ canonV c = true ∧ c ≠ .ctrue ∧ c ≠ .cfalse ∧ canonC r = true) := by
  simp [canonV, and_assoc]

theorem canonV_ceq {a b : Ex} : canonV (.ceq a b) = true ↔
    (canonV a = true ∧ canonV b = true ∧ a ≠ b ∧ (a.isNum = false ∨ b.isNum = false)) := by
  simp [canonV, and_assoc]

theorem canonV_cne {a b : Ex} : canonV (.cne a b) = true ↔
    (canonV a = true ∧ canonV b = true ∧ a ≠ b ∧ (a.isNum = false ∨ b.isNum = false)) := by
  simp [canonV, and_assoc]

theorem canonV_cge {a b : Ex} : canonV (.cge a b) = true ↔
    (canonV a = true ∧ canonV b = true ∧ a ≠ b ∧ (a.isNum = false ∨ b.isNum = false)) := by
  simp [canonV, and_assoc]

theorem canonV_cand {a b : Ex} : canonV (.cand a b) = true ↔
    (canonV a = true ∧ canonV b = true ∧ a ≠ .ctrue ∧ a ≠ .cfalse ∧
      b ≠ .ctrue ∧ b ≠ .cfalse) := by
  simp [canonV, and_assoc]

theorem canonC_pw {v c r : Ex} : canonC (.pw v c r) = true ↔
    (canonV v = true ∧ canonV c = true ∧ c ≠ .cfalse ∧
      (if c = .ctrue then r = .pwNil else canonC r = true)) := by
  by_cases hc : c = Ex.ctrue
  · subst hc; simp [canonC, and_assoc]
  · simp [canonC, and_assoc, hc]

theorem canonA_argsCons {a r : Ex} : canonA (.argsCons a r) = true ↔
    (canonV a = true ∧ canonA r = true) := by
  simp [canonA]

theorem hasV_nOf {k a : Ex} : hasV k (.nOf a) = false ↔
    (Ex.nOf a ≠ k ∧ hasV k a = false) := by
  rw [hasV]; simp [and_assoc]

theorem hasV_add {k a b : Ex} : hasV k (.add a b) = false ↔
    (Ex.add a b ≠ k ∧ hasV k a = false ∧ hasV k b = false) := by
  rw [hasV]; simp [and_assoc]

theorem hasV_mul {k a b : Ex} : hasV k (.mul a b) = false ↔
    (Ex.mul a b ≠ k ∧ hasV k a = false ∧ hasV k b = false) := by
  rw [hasV]; simp [and_assoc]

theorem hasV_pow {k a b : Ex} : hasV k (.pow a b) = false ↔
    (Ex.pow a b ≠ k ∧ hasV k a = false ∧ hasV k b = false) := by
  rw [hasV]; simp [and_assoc]

theorem hasV_func {k : Ex} {nm : String} {args : Ex} : hasV k (.func nm args) = false ↔
    (Ex.func nm args ≠ k ∧ hasC k args = false) := by
  rw [hasV]; simp [and_assoc]

theorem hasV_deriv {k a v : Ex} : hasV k (.deriv a v) = false ↔
    (Ex.deriv a v ≠ k ∧ hasV k a = false ∧ hasV k v = false) := by
  rw [hasV]; simp [and_assoc]

theorem hasV_delta {k a b : Ex} : hasV k (.delta a b) = false ↔
    (Ex.delta a b ≠ k ∧ hasV k a = false ∧ hasV k b = false) := by
  rw [hasV]; simp [and_assoc]

theorem hasV_sum {k body : Ex} {ix : String} {lo hi : Ex} :
    hasV k (.sum body ix lo hi) = false ↔
    (Ex.sum body ix lo hi ≠ k ∧ hasV k body = false ∧ hasV k lo = false ∧
      hasV k hi = false) := by
  rw [hasV]; simp [and_assoc]

theorem hasV_pw {k v c r : Ex} : hasV k (.pw v c r) = false ↔
    (Ex.pw v c r ≠ k ∧ hasV k v = false ∧ hasV k c = false ∧ hasC k r = false) := by
  rw [hasV]; simp [and_assoc]

theorem hasV_ceq {k a b : Ex} : hasV k (.ceq a b) = false ↔
    (Ex.ceq a b ≠ k ∧ hasV k a = false ∧ hasV k b = false) := by
  rw [hasV]; simp [and_assoc]

theorem hasV_cne {k a b : Ex} : hasV k (.cne a b) = false ↔
    (Ex.cne a b ≠ k ∧ hasV k a = false ∧ hasV k b = false) := by
  rw [hasV]; simp [and_assoc]

theorem hasV_cge {k a b : Ex} : hasV k (.cge a b) = false ↔
    (Ex.cge a b ≠ k ∧ hasV k a = false ∧ hasV k b = false) := by
  rw [hasV]; simp [and_assoc]

theorem hasV_cand {k a b : Ex} : hasV k (.cand a b) = false ↔
    (Ex.cand a b ≠ k ∧ hasV k a = false ∧ hasV k b = false) := by
  rw [hasV]; simp [and_assoc]

theorem hasC_pw {k v c r : Ex} : hasC k (.pw v c r) = false ↔
    (hasV k v = false ∧ hasV k c = false ∧ hasC k r = false) := by
  rw [hasC]; simp [and_assoc]

theorem hasC_argsCons {k a r : Ex} : hasC k (.argsCons a r) = false ↔
    (hasV k a = false ∧ hasC k r = false) := by
  rw [hasC]; simp [and_assoc]

theorem subsK_id_all (key val : Ex) : ∀ e : Ex,
    (canonV e = true → hasV key e = false → subsK key val e = e) ∧
    (canonC e = true → hasC key e = false → subsC key val e = e) ∧
    (canonA e = true → hasC key e = false → subsC key val e = e) := by
  intro e
  induction e with
  | num v =>
      refine ⟨?_, ?_, ?_⟩
      · intro _ hh
        simp [hasV] at hh
        simp [subsK, hh]
      · intro hc _; simp [canonC] at hc
      · intro hc _; simp [canonA] at hc
  | sym s =>
      refine ⟨?_, ?_, ?_⟩
      · intro _ hh
        simp [hasV] at hh
        simp [subsK, hh]
      · intro hc _; simp [canonC] at hc
      · intro hc _; simp [canonA] at hc
  | idx s =>
      refine ⟨?_, ?_, ?_⟩
      · intro _ hh
        simp [hasV] at hh
        simp [subsK, hh]
      · intro hc _; simp [canonC] at hc
      · intro hc _; simp [canonA] at hc
  | nbase =>
      refine ⟨?_, ?_, ?_⟩
      · intro _ hh
        simp [hasV] at hh
        simp [subsK, hh]
      · intro hc _; simp [canonC] at hc
      · intro hc _; simp [canonA] at hc
  | ctrue =>
      refine ⟨?_, ?_, ?_⟩
      · intro _ hh
        simp [hasV] at hh
        simp [subsK, hh]
      · intro hc _; simp [canonC] at hc
      · intro hc _; simp [canonA] at hc
  | cfalse =>
      refine ⟨?_, ?_, ?_⟩
      · intro _ hh
        simp [hasV] at hh
        simp [subsK, hh]
      · intro hc _; simp [canonC] at hc
      · intro hc _; simp [canonA] at hc
  | argsNil =>
      refine ⟨?_, ?_, ?_⟩
      · intro hc _; simp [canonV] at hc
      · intro hc _; simp [canonC] at hc
      · intro _ _; simp [subsC]
  | pwNil =>
      refine ⟨?_, ?_, ?_⟩
      · intro hc _; simp [canonV] at hc
      · intro _ _; simp [subsC]
      · intro hc _; simp [canonA] at hc
  | argsCons a r iha ihr =>
      refine ⟨?_, ?_, ?_⟩
      · intro hc _; simp [canonV] at hc
      · intro hc _; simp [canonC] at hc
      · intro hc hh
        obtain ⟨h1, h2⟩ := canonA_argsCons.mp hc
        obtain ⟨ha, hr⟩ := hasC_argsCons.mp hh
        simp [subsC, iha.1 h1 ha, ihr.2.2 h2 hr]
  | nOf a iha =>
      refine ⟨?_, ?_, ?_⟩
      · intro hc hh
        obtain ⟨hk, ha⟩ := hasV_nOf.mp hh
        simp [subsK, hk, iha.1 (canonV_nOf.mp hc) ha]
      · intro hc _; simp [canonC] at hc
      · intro hc _; simp [canonA] at hc
  | add a b iha ihb =>
      refine ⟨?_, ?_, ?_⟩
      · intro hc hh
        obtain ⟨h1, h2, h3, h4, h5⟩ := canonV_add.mp hc
        obtain ⟨hk, ha, hb⟩ := hasV_add.mp hh
        simp [subsK, hk, iha.1 h1 ha, ihb.1 h2 hb,
          mkAdd_eq_add (bool_and_false_of_or h3) h4 h5]
      · intro hc _; simp [canonC] at hc
      · intro hc _; simp [canonA] at hc
  | mul a b iha ihb =>
      refine ⟨?_, ?_, ?_⟩
      · intro hc hh
        obtain ⟨h1, h2, h3, h4, h5, h6, h7⟩ := canonV_mul.mp hc
        obtain ⟨hk, ha, hb⟩ := hasV_mul.mp hh
        simp [subsK, hk, iha.1 h1 ha, ihb.1 h2 hb,
          mkMul_eq_mul (bool_and_false_of_or h3) h4 h5 h6 h7]
      · intro hc _; simp [canonC] at hc
      · intro hc _; simp [canonA] at hc
  | pow a b iha ihb =>
      refine ⟨?_, ?_, ?_⟩
      · intro hc hh
        obtain ⟨h1, h2, h3, h4, h5, h6⟩ := canonV_pow.mp hc
        obtain ⟨hk, ha, hb⟩ := hasV_pow.mp hh
        simp [subsK, hk, iha.1 h1 ha, ihb.1 h2 hb, mkPow_eq_pow h3 h4 h5 h6]
      · intro hc _; simp [canonC] at hc
      · intro hc _; simp [canonA] at hc
  | func nm args ihargs =>
      refine ⟨?_, ?_, ?_⟩
      · intro hc hh
        obtain ⟨hk, ha⟩ := hasV_func.mp hh
        simp [subsK, hk, ihargs.2.2 (canonV_func.mp hc) ha]
      · intro hc _; simp [canonC] at hc
      · intro hc _; simp [canonA] at hc
  | deriv a v iha ihv =>
      refine ⟨?_, ?_, ?_⟩
      · intro hc hh
        obtain ⟨h1, h2⟩ := canonV_deriv.mp hc
        obtain ⟨hk, ha, hv⟩ := hasV_deriv.mp hh
        simp [subsK, hk, iha.1 h1 ha, ihv.1 h2 hv]
      · intro hc _; simp [canonC] at hc
      · intro hc _; simp [canonA] at hc
  | delta a b iha ihb =>
      refine ⟨?_, ?_, ?_⟩
      · intro hc hh
        obtain ⟨h1, h2, h3, h4, h5⟩ := canonV_delta.mp hc
        obtain ⟨hk, ha, hb⟩ := hasV_delta.mp hh
        simp [subsK, hk, iha.1 h1 ha, ihb.1 h2 hb,
          mkDelta_eq_delta h3 (bool_and_false_of_or h4) h5]
      · intro hc _; simp [canonC] at hc
      · intro hc _; simp [canonA] at hc
  | sum body ix lo hi ihb ihl ihh =>
      refine ⟨?_, ?_, ?_⟩
      · intro hc hh
        obtain ⟨h1, h2, h3⟩ := canonV_sum.mp hc
        obtain ⟨hk, hb, hl, hhi⟩ := hasV_sum.mp hh
        simp [subsK, hk, ihb.1 h1 hb, ihl.1 h2 hl, ihh.1 h3 hhi]
      · intro hc _; simp [canonC] at hc
      · intro hc _; simp [canonA] at hc
  | ceq a b iha ihb =>
      refine ⟨?_, ?_, ?_⟩
      · intro hc hh
        obtain ⟨h1, h2, h3, h4⟩ := canonV_ceq.mp hc
        obtain ⟨hk, ha, hb⟩ := hasV_ceq.mp hh
        simp [subsK, hk, iha.1 h1 ha, ihb.1 h2 hb,
          mkEq_eq_ceq h3 (bool_and_false_of_or h4)]
      · intro hc _; simp [canonC] at hc
      · intro hc _; simp [canonA] at hc
  | cne a b iha ihb =>
      refine ⟨?_, ?_, ?_⟩
      · intro hc hh
        obtain ⟨h1, h2, h3, h4⟩ := canonV_cne.mp hc
        obtain ⟨hk, ha, hb⟩ := hasV_cne.mp hh
        simp [subsK, hk, iha.1 h1 ha, ihb.1 h2 hb,
          mkNe_eq_cne h3 (bool_and_false_of_or h4)]
      · intro hc _; simp [canonC] at hc
      · intro hc _; simp [canonA] at hc
  | cge a b iha ihb =>
      refine ⟨?_, ?_, ?_⟩
      · intro hc hh
        obtain ⟨h1, h2, h3, h4⟩ := canonV_cge.mp hc
        obtain ⟨hk, ha, hb⟩ := hasV_cge.mp hh
        simp [subsK, hk, iha.1 h1 ha, ihb.1 h2 hb,
          mkGe_eq_cge h3 (bool_and_false_of_or h4)]
      · intro hc _; simp [canonC] at hc
      · intro hc _; simp [canonA] at hc
  | cand a b iha ihb =>
      refine ⟨?_, ?_, ?_⟩
      · intro hc hh
        obtain ⟨h1, h2, h3, h4, h5, h6⟩ := canonV_cand.mp hc
        obtain ⟨hk, ha, hb⟩ := hasV_cand.mp hh
        simp [subsK, hk, iha.1 h1 ha, ihb.1 h2 hb, mkAnd_eq_cand h3 h4 h5 h6]
      · intro hc _; simp [canonC] at hc
      · intro hc _; simp [canonA] at hc
  | pw v c r ihv ihc ihr =>
      refine ⟨?_, ?_, ?_⟩
      · intro hc hh
        obtain ⟨h1, h2, h3, h4, h5⟩ := canonV_pw.mp hc
        obtain ⟨hk, hhv, hhc, hhr⟩ := hasV_pw.mp hh
        have e1 := ihv.1 h1 hhv
        have e2 := ihc.1 h2 hhc
        have e3 := ihr.2.1 h5 hhr
        simp only [subsK, if_neg hk, e1, e2, e3]
        rw [normChain]
        simp only [if_neg h4, if_neg h3]
        rw [normChain_canonC h5, finPW_pw_ne_true h3]
      · intro hcc hh
        obtain ⟨h1, h2, h3, h4⟩ := canonC_pw.mp hcc
        obtain ⟨hhv, hhc, hhr⟩ := hasC_pw.mp hh
        by_cases hct : c = Ex.ctrue
        · subst hct
          simp only [if_pos rfl] at h4
          subst h4
          have hck : Ex.ctrue ≠ key := by simpa [hasV] using hhc
          simp [subsC, subsK, hck, ihv.1 h1 hhv]
        · simp only [if_neg hct] at h4
          simp [subsC, ihv.1 h1 hhv, ihc.1 h2 hhc, ihr.2.1 h4 hhr]
      · intro hc _; simp [canonA] at hc

theorem doit_id_all : ∀ e : Ex,
    (canonV e = true → ((noIdx e && pwFree e) = true ∨ sumFree e = true) → doit e = e) ∧
    (canonC e = true → ((noIdx e && pwFree e) = true ∨ sumFree e = true) → doitC e = e) ∧
    (canonA e = true → ((noIdx e && pwFree e) = true ∨ sumFree e = true) → doitC e = e) := by
  intro e
  induction e with
  | num v => exact ⟨fun _ _ => by simp [doit], fun hc _ => by simp [canonC] at hc,
      fun hc _ => by simp [canonA] at hc⟩
  | sym s => exact ⟨fun _ _ => by simp [doit], fun hc _ => by simp [canonC] at hc,
      fun hc _ => by simp [canonA] at hc⟩
  | idx s => exact ⟨fun _ _ => by simp [doit], fun hc _ => by simp [canonC] at hc,
      fun hc _ => by simp [canonA] at hc⟩
  | nbase => exact ⟨fun _ _ => by simp [doit], fun hc _ => by simp [canonC] at hc,
      fun hc _ => by simp [canonA] at hc⟩
  | ctrue => exact ⟨fun _ _ => by simp [doit], fun hc _ => by simp [canonC] at hc,
      fun hc _ => by simp [canonA] at hc⟩
  | cfalse => exact ⟨fun _ _ => by simp [doit], fun hc _ => by simp [canonC] at hc,
      fun hc _ => by simp [canonA] at hc⟩
  | argsNil => exact ⟨fun hc _ => by simp [canonV] at hc, fun hc _ => by simp [canonC] at hc,
      fun _ _ => by simp [doitC]⟩
  | pwNil => exact ⟨fun hc _ => by simp [canonV] at hc, fun _ _ => by simp [doitC],
      fun hc _ => by simp [canonA] at hc⟩
  | argsCons a r iha ihr =>
      refine ⟨fun hc _ => by simp [canonV] at hc, fun hc _ => by simp [canonC] at hc, ?_⟩
      intro hc hns
      obtain ⟨h1, h2⟩ := canonA_argsCons.mp hc
      have hnsa : (noIdx a && pwFree a) = true ∨ sumFree a = true := by
        rcases hns with h | h
        · simp [noIdx, pwFree] at h
          exact Or.inl (by simp [h.1.1, h.2.1])
        · simp [sumFree] at h; exact Or.inr h.1
      have hnsr : (noIdx r && pwFree r) = true ∨ sumFree r = true := by
        rcases hns with h | h
        · simp [noIdx, pwFree] at h
          exact Or.inl (by simp [h.1.2, h.2.2])
        · simp [sumFree] at h; exact Or.inr h.2
      simp [doitC, iha.1 h1 hnsa, ihr.2.2 h2 hnsr]
  | nOf a iha =>
      refine ⟨?_, fun hc _ => by simp [canonC] at hc, fun hc _ => by simp [canonA] at hc⟩
      intro hc hns
      have hnsa : (noIdx a && pwFree a) = true ∨ sumFree a = true := by
        rcases hns with h | h
        · simp [noIdx, pwFree] at h
          exact Or.inl (by simp [h.1, h.2])
        · simp [sumFree] at h; exact Or.inr h
      simp [doit, iha.1 (canonV_nOf.mp hc) hnsa]
  | add a b iha ihb =>
      refine ⟨?_, fun hc _ => by simp [canonC] at hc, fun hc _ => by simp [canonA] at hc⟩
      intro hc hns
      obtain ⟨h1, h2, h3, h4, h5⟩ := canonV_add.mp hc
      have hnsa : (noIdx a && pwFree a) = true ∨ sumFree a = true := by
        rcases hns with h | h
        · simp [noIdx, pwFree] at h
          exact Or.inl (by simp [h.1.1, h.2.1])
        · simp [sumFree] at h; exact Or.inr h.1
      have hnsb : (noIdx b && pwFree b) = true ∨ sumFree b = true := by
        rcases hns with h | h
        · simp [noIdx, pwFree] at h
          exact Or.inl (by simp [h.1.2, h.2.2])
        · simp [sumFree] at h; exact Or.inr h.2
      simp [doit, iha.1 h1 hnsa, ihb.1 h2 hnsb,
        mkAdd_eq_add (bool_and_false_of_or h3) h4 h5]
  | mul a b iha ihb =>
      refine ⟨?_, fun hc _ => by simp [canonC] at hc, fun hc _ => by simp [canonA] at hc⟩
      intro hc hns
      obtain ⟨h1, h2, h3, h4, h5, h6, h7⟩ := canonV_mul.mp hc
      have hnsa : (noIdx a && pwFree a) = true ∨ sumFree a = true := by
        rcases hns with h | h
        · simp [noIdx, pwFree] at h
          exact Or.inl (by simp [h.1.1, h.2.1])
        · simp [sumFree] at h; exact Or.inr h.1
      have hnsb : (noIdx b && pwFree b) = true ∨ sumFree b = true := by
        rcases hns with h | h
        · simp [noIdx, pwFree] at h
          exact Or.inl (by simp [h.1.2, h.2.2])
        · simp [sumFree] at h; exact Or.inr h.2
      simp [doit, iha.1 h1 hnsa, ihb.1 h2 hnsb,
        mkMul_eq_mul (bool_and_false_of_or h3) h4 h5 h6 h7]
  | pow a b iha ihb =>
      refine ⟨?_, fun hc _ => by simp [canonC] at hc, fun hc _ => by simp [canonA] at hc⟩
      intro hc hns
      obtain ⟨h1, h2, h3, h4, h5, h6⟩ := canonV_pow.mp hc
      have hnsa : (noIdx a && pwFree a) = true ∨ sumFree a = true := by
        rcases hns with h | h
        · simp [noIdx, pwFree] at h
          exact Or.inl (by simp [h.1.1, h.2.1])
        · simp [sumFree] at h; exact Or.inr h.1
      have hnsb : (noIdx b && pwFree b) = true ∨ sumFree b = true := by
        rcases hns with h | h
        · simp [noIdx, pwFree] at h
          exact Or.inl (by simp [h.1.2, h.2.2])
        · simp [sumFree] at h; exact Or.inr h.2
      simp [doit, iha.1 h1 hnsa, ihb.1 h2 hnsb, mkPow_eq_pow h3 h4 h5 h6]
  | func nm args ihargs =>
      refine ⟨?_, fun hc _ => by simp [canonC] at hc, fun hc _ => by simp [canonA] at hc⟩
      intro hc hns
      have hnsa : (noIdx args && pwFree args) = true ∨ sumFree args = true := by
        rcases hns with h | h
        · simp [noIdx, pwFree] at h
          exact Or.inl (by simp [h.1, h.2])
        · simp [sumFree] at h; exact Or.inr h
      simp [doit, ihargs.2.2 (canonV_func.mp hc) hnsa]
  | deriv a v iha ihv =>
      refine ⟨?_, fun hc _ => by simp [canonC] at hc, fun hc _ => by simp [canonA] at hc⟩
      intro hc hns
      obtain ⟨h1, h2⟩ := canonV_deriv.mp hc
      have hnsa : (noIdx a && pwFree a) = true ∨ sumFree a = true := by
        rcases hns with h | h
        · simp [noIdx, pwFree] at h
          exact Or.inl (by simp [h.1.1, h.2.1])
        · simp [sumFree] at h; exact Or.inr h.1
      have hnsv : (noIdx v && pwFree v) = true ∨ sumFree v = true := by
        rcases hns with h | h
        · simp [noIdx, pwFree] at h
          exact Or.inl (by simp [h.1.2, h.2.2])
        · simp [sumFree] at h; exact Or.inr h.2
      simp [doit, iha.1 h1 hnsa, ihv.1 h2 hnsv]
  | delta a b iha ihb =>
      refine ⟨?_, fun hc _ => by simp [canonC] at hc, fun hc _ => by simp [canonA] at hc⟩
      intro hc hns
      obtain ⟨h1, h2, h3, h4, h5⟩ := canonV_delta.mp hc
      have hnsa : (noIdx a && pwFree a) = true ∨ sumFree a = true := by
        rcases hns with h | h
        · simp [noIdx, pwFree] at h
          exact Or.inl (by simp [h.1.1, h.2.1])
        · simp [sumFree] at h; exact Or.inr h.1
      have hnsb : (noIdx b && pwFree b) = true ∨ sumFree b = true := by
        rcases hns with h | h
        · simp [noIdx, pwFree] at h
          exact Or.inl (by simp [h.1.2, h.2.2])
        · simp [sumFree] at h; exact Or.inr h.2
      simp [doit, iha.1 h1 hnsa, ihb.1 h2 hnsb,
        mkDelta_eq_delta h3 (bool_and_false_of_or h4) h5]
  | sum body ix lo hi ihb ihl ihh =>
      refine ⟨?_, fun hc _ => by simp [canonC] at hc, fun hc _ => by simp [canonA] at hc⟩
      intro hc hns
      obtain ⟨h1, h2, h3⟩ := canonV_sum.mp hc
      have hni : (noIdx (Ex.sum body ix lo hi) && pwFree (Ex.sum body ix lo hi)) = true := by
        rcases hns with h | h
        · exact h
        · simp [sumFree] at h
      simp [noIdx, pwFree] at hni
      obtain ⟨⟨⟨hb, hl⟩, hh2⟩, ⟨⟨pb, pl⟩, ph⟩⟩ := hni
      have e1 : doit body = body := ihb.1 h1 (Or.inl (by simp [hb, pb]))
      rw [doit]
      simp only [e1]
      split
      · simp [pwFree] at pb
      · unfold sumOne
        split
        · split
          · simp [noIdx] at hb
          · rfl
        · rfl
  | ceq a b iha ihb =>
      refine ⟨?_, fun hc _ => by simp [canonC] at hc, fun hc _ => by simp [canonA] at hc⟩
      intro hc hns
      obtain ⟨h1, h2, h3, h4⟩ := canonV_ceq.mp hc
      have hnsa : (noIdx a && pwFree a) = true ∨ sumFree a = true := by
        rcases hns with h | h
        · simp [noIdx, pwFree] at h
          exact Or.inl (by simp [h.1.1, h.2.1])
        · simp [sumFree] at h; exact Or.inr h.1
      have hnsb : (noIdx b && pwFree b) = true ∨ sumFree b = true := by
        rcases hns with h | h
        · simp [noIdx, pwFree] at h
          exact Or.inl (by simp [h.1.2, h.2.2])
        · simp [sumFree] at h; exact Or.inr h.2
      simp [doit, iha.1 h1 hnsa, ihb.1 h2 hnsb,
        mkEq_eq_ceq h3 (bool_and_false_of_or h4)]
  | cne a b iha ihb =>
      refine ⟨?_, fun hc _ => by simp [canonC] at hc, fun hc _ => by simp [canonA] at hc⟩
      intro hc hns
      obtain ⟨h1, h2, h3, h4⟩ := canonV_cne.mp hc
      have hnsa : (noIdx a && pwFree a) = true ∨ sumFree a = true := by
        rcases hns with h | h
        · simp [noIdx, pwFree] at h
          exact Or.inl (by simp [h.1.1, h.2.1])
        · simp [sumFree] at h; exact Or.inr h.1
      have hnsb : (noIdx b && pwFree b) = true ∨ sumFree b = true := by
        rcases hns with h | h
        · simp [noIdx, pwFree] at h
          exact Or.inl (by simp [h.1.2, h.2.2])
        · simp [sumFree] at h; exact Or.inr h.2
      simp [doit, iha.1 h1 hnsa, ihb.1 h2 hnsb,
        mkNe_eq_cne h3 (bool_and_false_of_or h4)]
  | cge a b iha ihb =>
      refine ⟨?_, fun hc _ => by simp [canonC] at hc, fun hc _ => by simp [canonA] at hc⟩
      intro hc hns
      obtain ⟨h1, h2, h3, h4⟩ := canonV_cge.mp hc
      have hnsa : (noIdx a && pwFree a) = true ∨ sumFree a = true := by
        rcases hns with h | h
        · simp [noIdx, pwFree] at h
          exact Or.inl (by simp [h.1.1, h.2.1])
        · simp [sumFree] at h; exact Or.inr h.1
      have hnsb : (noIdx b && pwFree b) = true ∨ sumFree b = true := by
        rcases hns with h | h
        · simp [noIdx, pwFree] at h
          exact Or.inl (by simp [h.1.2, h.2.2])
        · simp [sumFree] at h; exact Or.inr h.2
      simp [doit, iha.1 h1 hnsa, ihb.1 h2 hnsb,
        mkGe_eq_cge h3 (bool_and_false_of_or h4)]
  | cand a b iha ihb =>
      refine ⟨?_, fun hc _ => by simp [canonC] at hc, fun hc _ => by simp [canonA] at hc⟩
      intro hc hns
      obtain ⟨h1, h2, h3, h4, h5, h6⟩ := canonV_cand.mp hc
      have hnsa : (noIdx a && pwFree a) = true ∨ sumFree a = true := by
        rcases hns with h | h
        · simp [noIdx, pwFree] at h
          exact Or.inl (by simp [h.1.1, h.2.1])
        · simp [sumFree] at h; exact Or.inr h.1
      have hnsb : (noIdx b && pwFree b) = true ∨ sumFree b = true := by
        rcases hns with h | h
        · simp [noIdx, pwFree] at h
          exact Or.inl (by simp [h.1.2, h.2.2])
        · simp [sumFree] at h; exact Or.inr h.2
      simp [doit, iha.1 h1 hnsa, ihb.1 h2 hnsb, mkAnd_eq_cand h3 h4 h5 h6]
  | pw v c r ihv ihc ihr =>
      refine ⟨?_, ?_, fun hc _ => by simp [canonA] at hc⟩
      · intro hcn hns
        obtain ⟨h1, h2, h3, h4, h5⟩ := canonV_pw.mp hcn
        have hnsv : (noIdx v && pwFree v) = true ∨ sumFree v = true := by
          rcases hns with h | h
          · simp [noIdx, pwFree] at h
          · simp [sumFree] at h; exact Or.inr h.1.1
        have hnsc : (noIdx c && pwFree c) = true ∨ sumFree c = true := by
          rcases hns with h | h
          · simp [noIdx, pwFree] at h
          · simp [sumFree] at h; exact Or.inr h.1.2
        have hnsr : (noIdx r && pwFree r) = true ∨ sumFree r = true := by
          rcases hns with h | h
          · simp [noIdx, pwFree] at h
          · simp [sumFree] at h; exact Or.inr h.2
        have e1 := ihv.1 h1 hnsv
        have e2 := ihc.1 h2 hnsc
        have e3 := ihr.2.1 h5 hnsr
        rw [doit]
        simp only [doitC, e1, e2, e3]
        rw [normChain]
        simp only [if_neg h4, if_neg h3]
        rw [normChain_canonC h5, finPW_pw_ne_true h3]
      · intro hcc hns
        obtain ⟨h1, h2, h3, h4⟩ := canonC_pw.mp hcc
        have hnsv : (noIdx v && pwFree v) = true ∨ sumFree v = true := by
          rcases hns with h | h
          · simp [noIdx, pwFree] at h
          · simp [sumFree] at h; exact Or.inr h.1.1
        have hnsc : (noIdx c && pwFree c) = true ∨ sumFree c = true := by
          rcases hns with h | h
          · simp [noIdx, pwFree] at h
          · simp [sumFree] at h; exact Or.inr h.1.2
        have hnsr : (noIdx r && pwFree r) = true ∨ sumFree r = true := by
          rcases hns with h | h
          · simp [noIdx, pwFree] at h
          · simp [sumFree] at h; exact Or.inr h.2
        by_cases hct : c = Ex.ctrue
        · subst hct
          simp only [if_pos rfl] at h4
          subst h4
          simp [doitC, doit, ihv.1 h1 hnsv]
        · simp only [if_neg hct] at h4
          simp [doitC, ihv.1 h1 hnsv, ihc.1 h2 hnsc, ihr.2.1 h4 hnsr]

theorem charListLt_asymm : ∀ a b : List Char, charListLt a b = true → charListLt b a = false := by
  intro a
  induction a with
  | nil => intro b h; cases b <;> simp_all [charListLt]
  | cons c cs ih =>
      intro b h
      cases b with
      | nil => simp_all [charListLt]
      | cons d ds =>
          rw [charListLt] at h
          rw [charListLt]
          by_cases h1 : c.toNat < d.toNat
          · have h2 : ¬ d.toNat < c.toNat := by omega
            simp [h1, h2]
          · by_cases h2 : d.toNat < c.toNat
            · simp [h1, h2] at h
            · simp [h1, h2] at h
              simp [h1, h2]
              exact ih ds h

theorem strLt_asymm {a b : String} (h : strLt a b = true) : strLt b a = false :=
  charListLt_asymm a.data b.data h

theorem canonV_mkAdd {a b : Ex} (ha : canonV a = true) (hb : canonV b = true) :
    canonV (mkAdd a b) = true := by
  unfold mkAdd
  split
  · simp [canonV]
  · exact hb
  · exact ha
  · rename_i h1 h2 h3
    rw [canonV_add]
    refine ⟨ha, hb, ?_, ?_, ?_⟩
    · cases a <;> cases b <;> simp_all [Ex.isNum]
    · intro hc; subst hc; simp_all
    · intro hc; subst hc; simp_all

theorem canonV_mkMul {a b : Ex} (ha : canonV a = true) (hb : canonV b = true) :
    canonV (mkMul a b) = true := by
  unfold mkMul
  split
  · simp [canonV]
  · simp [canonV]
  · simp [canonV]
  · exact hb
  · exact ha
  · rename_i h1 h2 h3 h4 h5
    rw [canonV_mul]
    refine ⟨ha, hb, ?_, ?_, ?_, ?_, ?_⟩
    · cases a <;> cases b <;> simp_all [Ex.isNum]
    · intro hc; subst hc; simp_all
    · intro hc; subst hc; simp_all
    · intro hc; subst hc; simp_all
    · intro hc; subst hc; simp_all

theorem canonV_mkPow {a b : Ex} (ha : canonV a = true) (hb : canonV b = true) :
    canonV (mkPow a b) = true := by
  unfold mkPow
  split
  · exact ha
  · simp [canonV]
  · simp [canonV]
  · split
    · simp [canonV]
    · rename_i x e h1 h2 h3 h0
      rw [canonV_pow]
      refine ⟨by simp [canonV], by simp [canonV], ?_, ?_, ?_, ?_⟩
      · simp_all
      · simp_all
      · simp_all
      · intro p q hp hq
        simp at hp hq
        omega
  · rename_i h1 h2 h3 h4
    rw [canonV_pow]
    refine ⟨ha, hb, ?_, ?_, ?_, ?_⟩
    · intro hc; subst hc; simp_all
    · intro hc; subst hc; simp_all
    · intro hc; subst hc; simp_all
    · intro p q hp hq
      exact absurd (h4 p q hp hq) (by simp)

theorem canonV_mkDelta {a b : Ex} (ha : canonV a = true) (hb : canonV b = true) :
    canonV (mkDelta a b) = true := by
  unfold mkDelta
  by_cases hab : a = b
  · simp [hab, canonV]
  · rw [if_neg hab]
    split
    · simp [canonV]
    · rename_i x y
      by_cases hlt : strLt y x = true
      · simp only [hlt, if_true]
        rw [canonV_delta]
        refine ⟨by simp [canonV], by simp [canonV], ?_, ?_, ?_⟩
        · intro hc
          simp at hc
          subst hc
          simp [strLt] at hlt
          have := charListLt_asymm _ _ hlt
          simp_all
        · simp [Ex.isNum]
        · intro p q hp hq
          simp at hp hq
          subst hp; subst hq
          exact charListLt_asymm _ _ hlt
      · simp only [Bool.not_eq_true] at hlt
        rw [hlt]
        simp only [Bool.false_eq_true, if_false]
        rw [canonV_delta]
        refine ⟨by simp [canonV], by simp [canonV], by simp_all, by simp [Ex.isNum], ?_⟩
        intro p q hp hq
        simp at hp hq
        subst hp; subst hq
        exact hlt
    · rename_i h1 h2
      rw [canonV_delta]
      refine ⟨ha, hb, hab, ?_, ?_⟩
      · cases a <;> cases b <;> simp_all [Ex.isNum]
      · intro p q hp hq
        rename_i h1 h2
        exact absurd (h2 p q hp hq) (by simp)

theorem canonV_mkEq {a b : Ex} (ha : canonV a = true) (hb : canonV b = true) :
    canonV (mkEq a b) = true := by
  unfold mkEq
  by_cases hab : a = b
  · simp [hab, canonV]
  · rw [if_neg hab]
    split
    · simp [canonV]
    · rw [canonV_ceq]
      refine ⟨ha, hb, hab, ?_⟩
      rename_i h1
      cases a <;> cases b <;> simp_all [Ex.isNum]

theorem canonV_mkNe {a b : Ex} (ha : canonV a = true) (hb : canonV b = true) :
    canonV (mkNe a b) = true := by
  unfold mkNe
  by_cases hab : a = b
  · simp [hab, canonV]
  · rw [if_neg hab]
    split
    · simp [canonV]
    · rw [canonV_cne]
      refine ⟨ha, hb, hab, ?_⟩
      rename_i h1
      cases a <;> cases b <;> simp_all [Ex.isNum]

theorem canonV_mkGe {a b : Ex} (ha : canonV a = true) (hb : canonV b = true) :
    canonV (mkGe a b) = true := by
  unfold mkGe
  by_cases hab : a = b
  · simp [hab, canonV]
  · rw [if_neg hab]
    split
    · split <;> simp [canonV]
    · rw [canonV_cge]
      refine ⟨ha, hb, hab, ?_⟩
      rename_i h1
      cases a <;> cases b <;> simp_all [Ex.isNum]

theorem canonV_mkAnd {a b : Ex} (ha : canonV a = true) (hb : canonV b = true) :
    canonV (mkAnd a b) = true := by
  unfold mkAnd
  split
  · exact hb
  · simp [canonV]
  · exact ha
  · simp [canonV]
  · rename_i h1 h2 h3 h4
    rw [canonV_cand]
    refine ⟨ha, hb, ?_, ?_, ?_, ?_⟩ <;> (intro hc; subst hc; simp_all)

theorem mkAdd_cases (a b : Ex) :
    mkAdd a b = .add a b ∨ (∃ n, mkAdd a b = .num n) ∨ mkAdd a b = a ∨ mkAdd a b = b := by
  unfold mkAdd
  split <;> simp

theorem mkMul_cases (a b : Ex) :
    mkMul a b = .mul a b ∨ (∃ n, mkMul a b = .num n) ∨ mkMul a b = a ∨ mkMul a b = b := by
  unfold mkMul
  split <;> simp

theorem mkPow_cases (a b : Ex) :
    mkPow a b = .pow a b ∨ (∃ n, mkPow a b = .num n) ∨ mkPow a b = a ∨ mkPow a b = b := by
  unfold mkPow
  split
  · simp
  · simp
  · simp
  · split <;> simp
  · simp

theorem mkAnd_cases (a b : Ex) :
    mkAnd a b = .cand a b ∨ mkAnd a b = .cfalse ∨ mkAnd a b = a ∨ mkAnd a b = b := by
  unfold mkAnd
  split <;> simp

theorem mkEq_cases (a b : Ex) :
    mkEq a b = .ceq a b ∨ mkEq a b = .ctrue ∨ mkEq a b = .cfalse := by
  unfold mkEq
  split
  · simp
  · split <;> simp

theorem mkNe_cases (a b : Ex) :
    mkNe a b = .cne a b ∨ mkNe a b = .ctrue ∨ mkNe a b = .cfalse := by
  unfold mkNe
  split
  · simp
  · split <;> simp

theorem mkGe_cases (a b : Ex) :
    mkGe a b = .cge a b ∨ mkGe a b = .ctrue ∨ mkGe a b = .cfalse := by
  unfold mkGe
  split
  · simp
  · split
    · split <;> simp
    · simp

theorem mkDelta_cases (a b : Ex) :
    mkDelta a b = .delta a b ∨ mkDelta a b = .delta b a ∨ (∃ n, mkDelta a b = .num n) := by
  unfold mkDelta
  split
  · simp
  · split
    · simp
    · split <;> simp
    · simp

theorem isBadKey_cases {p : Ex} (hp : isBadKey p = true) :
    (∃ x y, p = .delta (.idx x) (.idx y)) ∨ (∃ x, p = .cge (.idx x) (.num 1)) ∨
    (∃ x, p = .cge ncE (.idx x)) := by
  unfold isBadKey at hp
  split at hp
  · rename_i x y
    exact Or.inl ⟨x, y, rfl⟩
  · rename_i x
    exact Or.inr (Or.inl ⟨x, rfl⟩)
  · rename_i a x
    simp at hp
    subst hp
    exact Or.inr (Or.inr ⟨x, rfl⟩)
  · simp at hp

theorem noIdx_isBadKey {p : Ex} (hp : isBadKey p = true) : noIdx p = false := by
  rcases isBadKey_cases hp with ⟨x, y, h⟩ | ⟨x, h⟩ | ⟨x, h⟩ <;> subst h <;> simp [noIdx]

theorem hasV_false_of_noIdx : ∀ e : Ex, ∀ p : Ex, noIdx e = true → noIdx p = false →
    hasV p e = false ∧ hasC p e = false := by
  intro e
  induction e with
  | num v =>
      intro p h hp
      refine ⟨?_, by simp [hasC]⟩
      simp only [hasV, hasC, Bool.or_false, decide_eq_false_iff_not]
      intro hc
      rw [← hc] at hp
      simp [noIdx] at hp
  | sym s =>
      intro p h hp
      refine ⟨?_, by simp [hasC]⟩
      simp only [hasV, hasC, Bool.or_false, decide_eq_false_iff_not]
      intro hc
      rw [← hc] at hp
      simp [noIdx] at hp
  | nbase =>
      intro p h hp
      refine ⟨?_, by simp [hasC]⟩
      simp only [hasV, hasC, Bool.or_false, decide_eq_false_iff_not]
      intro hc
      rw [← hc] at hp
      simp [noIdx] at hp
  | ctrue =>
      intro p h hp
      refine ⟨?_, by simp [hasC]⟩
      simp only [hasV, hasC, Bool.or_false, decide_eq_false_iff_not]
      intro hc
      rw [← hc] at hp
      simp [noIdx] at hp
  | cfalse =>
      intro p h hp
      refine ⟨?_, by simp [hasC]⟩
      simp only [hasV, hasC, Bool.or_false, decide_eq_false_iff_not]
      intro hc
      rw [← hc] at hp
      simp [noIdx] at hp
  | argsNil =>
      intro p h hp
      refine ⟨?_, by simp [hasC]⟩
      simp only [hasV, hasC, Bool.or_false, decide_eq_false_iff_not]
      intro hc
      rw [← hc] at hp
      simp [noIdx] at hp
  | pwNil =>
      intro p h hp
      refine ⟨?_, by simp [hasC]⟩
      simp only [hasV, hasC, Bool.or_false, decide_eq_false_iff_not]
      intro hc
      rw [← hc] at hp
      simp [noIdx] at hp
  | idx s =>
      intro p h hp
      simp [noIdx] at h
  | nOf a iha =>
      intro p h hp
      simp [noIdx] at h
      refine ⟨?_, by simp [hasC]⟩
      rw [hasV_nOf]
      refine ⟨?_, (iha p h hp).1⟩
      intro hc
      rw [← hc] at hp
      simp [noIdx, h] at hp
  | add a b iha ihb =>
      intro p h hp
      simp [noIdx] at h
      refine ⟨?_, by simp [hasC]⟩
      rw [hasV_add]
      refine ⟨?_, (iha p h.1 hp).1, (ihb p h.2 hp).1⟩
      intro hc
      rw [← hc] at hp
      simp [noIdx, h.1, h.2] at hp
  | mul a b iha ihb =>
      intro p h hp
      simp [noIdx] at h
      refine ⟨?_, by simp [hasC]⟩
      rw [hasV_mul]
      refine ⟨?_, (iha p h.1 hp).1, (ihb p h.2 hp).1⟩
      intro hc
      rw [← hc] at hp
      simp [noIdx, h.1, h.2] at hp
  | pow a b iha ihb =>
      intro p h hp
      simp [noIdx] at h
      refine ⟨?_, by simp [hasC]⟩
      rw [hasV_pow]
      refine ⟨?_, (iha p h.1 hp).1, (ihb p h.2 hp).1⟩
      intro hc
      rw [← hc] at hp
      simp [noIdx, h.1, h.2] at hp
  | deriv a v2 iha ihv2 =>
      intro p h hp
      simp [noIdx] at h
      refine ⟨?_, by simp [hasC]⟩
      rw [hasV_deriv]
      refine ⟨?_, (iha p h.1 hp).1, (ihv2 p h.2 hp).1⟩
      intro hc
      rw [← hc] at hp
      simp [noIdx, h.1, h.2] at hp
  | delta a b iha ihb =>
      intro p h hp
      simp [noIdx] at h
      refine ⟨?_, by simp [hasC]⟩
      rw [hasV_delta]
      refine ⟨?_, (iha p h.1 hp).1, (ihb p h.2 hp).1⟩
      intro hc
      rw [← hc] at hp
      simp [noIdx, h.1, h.2] at hp
  | ceq a b iha ihb =>
      intro p h hp
      simp [noIdx] at h
      refine ⟨?_, by simp [hasC]⟩
      rw [hasV_ceq]
      refine ⟨?_, (iha p h.1 hp).1, (ihb p h.2 hp).1⟩
      intro hc
      rw [← hc] at hp
      simp [noIdx, h.1, h.2] at hp
  | cne a b iha ihb =>
      intro p h hp
      simp [noIdx] at h
      refine ⟨?_, by simp [hasC]⟩
      rw [hasV_cne]
      refine ⟨?_, (iha p h.1 hp).1, (ihb p h.2 hp).1⟩
      intro hc
      rw [← hc] at hp
      simp [noIdx, h.1, h.2] at hp
  | cge a b iha ihb =>
      intro p h hp
      simp [noIdx] at h
      refine ⟨?_, by simp [hasC]⟩
      rw [hasV_cge]
      refine ⟨?_, (iha p h.1 hp).1, (ihb p h.2 hp).1⟩
      intro hc
      rw [← hc] at hp
      simp [noIdx, h.1, h.2] at hp
  | cand a b iha ihb =>
      intro p h hp
      simp [noIdx] at h
      refine ⟨?_, by simp [hasC]⟩
      rw [hasV_cand]
      refine ⟨?_, (iha p h.1 hp).1, (ihb p h.2 hp).1⟩
      intro hc
      rw [← hc] at hp
      simp [noIdx, h.1, h.2] at hp
  | func nm args ihargs =>
      intro p h hp
      simp [noIdx] at h
      refine ⟨?_, by simp [hasC]⟩
      rw [hasV_func]
      refine ⟨?_, (ihargs p h hp).2⟩
      intro hc
      rw [← hc] at hp
      simp [noIdx, h] at hp
  | argsCons a r iha ihr =>
      intro p h hp
      simp [noIdx] at h
      refine ⟨?_, ?_⟩
      · simp only [hasV, hasC, Bool.or_false, decide_eq_false_iff_not]
        intro hc
        rw [← hc] at hp
        simp [noIdx, h.1, h.2] at hp
      · rw [hasC_argsCons]
        exact ⟨(iha p h.1 hp).1, (ihr p h.2 hp).2⟩
  | sum body ix lo hi ihb ihl ihh =>
      intro p h hp
      simp [noIdx] at h
      refine ⟨?_, by simp [hasC]⟩
      rw [hasV_sum]
      refine ⟨?_, (ihb p h.1.1 hp).1, (ihl p h.1.2 hp).1, (ihh p h.2 hp).1⟩
      intro hc
      rw [← hc] at hp
      simp [noIdx, h.1.1, h.1.2, h.2] at hp
  | pw v c r ihv ihc ihr =>
      intro p h hp
      simp [noIdx] at h
      refine ⟨?_, ?_⟩
      · rw [hasV_pw]
        refine ⟨?_, (ihv p h.1.1 hp).1, (ihc p h.1.2 hp).1, (ihr p h.2 hp).2⟩
        intro hc
        rw [← hc] at hp
        simp [noIdx, h.1.1, h.1.2, h.2] at hp
      · rw [hasC_pw]
        exact ⟨(ihv p h.1.1 hp).1, (ihc p h.1.2 hp).1, (ihr p h.2 hp).2⟩

theorem doit_mkAdd_stable {u w : Ex} (hu : doit u = u) (hw : doit w = w) :
    doit (mkAdd u w) = mkAdd u w := by
  rcases mkAdd_cases u w with h | ⟨n, h⟩ | h | h
  · rw [h]
    have h2 : doit (Ex.add u w) = mkAdd (doit u) (doit w) := by simp [doit]
    rw [h2, hu, hw, h]
  · rw [h]; simp [doit]
  · rw [h]; exact hu
  · rw [h]; exact hw

theorem doit_mkMul_stable {u w : Ex} (hu : doit u = u) (hw : doit w = w) :
    doit (mkMul u w) = mkMul u w := by
  rcases mkMul_cases u w with h | ⟨n, h⟩ | h | h
  · rw [h]
    have h2 : doit (Ex.mul u w) = mkMul (doit u) (doit w) := by simp [doit]
    rw [h2, hu, hw, h]
  · rw [h]; simp [doit]
  · rw [h]; exact hu
  · rw [h]; exact hw

theorem doit_mkPow_stable {u w : Ex} (hu : doit u = u) (hw : doit w = w) :
    doit (mkPow u w) = mkPow u w := by
  rcases mkPow_cases u w with h | ⟨n, h⟩ | h | h
  · rw [h]
    have h2 : doit (Ex.pow u w) = mkPow (doit u) (doit w) := by simp [doit]
    rw [h2, hu, hw, h]
  · rw [h]; simp [doit]
  · rw [h]; exact hu
  · rw [h]; exact hw

theorem pwFree_mkAdd {u w : Ex} (hu : pwFree u = true) (hw : pwFree w = true) :
    pwFree (mkAdd u w) = true := by
  rcases mkAdd_cases u w with h | ⟨n, h⟩ | h | h <;> rw [h] <;> simp_all [pwFree]

theorem pwFree_mkMul {u w : Ex} (hu : pwFree u = true) (hw : pwFree w = true) :
    pwFree (mkMul u w) = true := by
  rcases mkMul_cases u w with h | ⟨n, h⟩ | h | h <;> rw [h] <;> simp_all [pwFree]

theorem pwFree_mkPow {u w : Ex} (hu : pwFree u = true) (hw : pwFree w = true) :
    pwFree (mkPow u w) = true := by
  rcases mkPow_cases u w with h | ⟨n, h⟩ | h | h <;> rw [h] <;> simp_all [pwFree]

theorem pwFree_mkDelta {u w : Ex} (hu : pwFree u = true) (hw : pwFree w = true) :
    pwFree (mkDelta u w) = true := by
  rcases mkDelta_cases u w with h | h | ⟨n, h⟩ <;> rw [h] <;> simp_all [pwFree]

theorem badKey_ne_simple {p : Ex} (hp : isBadKey p = true) :
    (∀ n : Int, p ≠ .num n) ∧ (∀ a b, p ≠ .add a b) ∧ (∀ a b, p ≠ .mul a b) ∧
    (∀ a b, p ≠ .pow a b) ∧ (∀ s, p ≠ .idx s) ∧ (∀ s, p ≠ .sym s) ∧
    (∀ nm args, p ≠ .func nm args) ∧ (∀ a v2, p ≠ .deriv a v2) ∧
    (∀ v2 c r, p ≠ .pw v2 c r) ∧ (∀ b ix lo hi, p ≠ .sum b ix lo hi) ∧
    p ≠ .nbase ∧ (∀ a, p ≠ .nOf a) := by
  rcases isBadKey_cases hp with ⟨x, y, rfl⟩ | ⟨x, rfl⟩ | ⟨x, rfl⟩ <;> refine ⟨?_, ?_, ?_, ?_, ?_, ?_, ?_, ?_, ?_, ?_, ?_, ?_⟩ <;> simp

theorem hasV_badkey_mkAdd {p u w : Ex} (hp : isBadKey p = true)
    (hu : hasV p u = false) (hw : hasV p w = false) : hasV p (mkAdd u w) = false := by
  obtain ⟨hn, hadd, -⟩ := badKey_ne_simple hp
  rcases mkAdd_cases u w with h | ⟨n, h⟩ | h | h <;> rw [h]
  · rw [hasV_add]
    exact ⟨fun hc => hadd u w hc.symm, hu, hw⟩
  · simp [hasV]
    intro hc
    exact hn n hc.symm
  · exact hu
  · exact hw

theorem hasV_badkey_mkMul {p u w : Ex} (hp : isBadKey p = true)
    (hu : hasV p u = false) (hw : hasV p w = false) : hasV p (mkMul u w) = false := by
  obtain ⟨hn, -, hmul, -⟩ := badKey_ne_simple hp
  rcases mkMul_cases u w with h | ⟨n, h⟩ | h | h <;> rw [h]
  · rw [hasV_mul]
    exact ⟨fun hc => hmul u w hc.symm, hu, hw⟩
  · simp [hasV]
    intro hc
    exact hn n hc.symm
  · exact hu
  · exact hw

theorem hasV_badkey_mkPow {p u w : Ex} (hp : isBadKey p = true)
    (hu : hasV p u = false) (hw : hasV p w = false) : hasV p (mkPow u w) = false := by
  obtain ⟨hn, -, -, hpow, -⟩ := badKey_ne_simple hp
  rcases mkPow_cases u w with h | ⟨n, h⟩ | h | h <;> rw [h]
  · rw [hasV_pow]
    exact ⟨fun hc => hpow u w hc.symm, hu, hw⟩
  · simp [hasV]
    intro hc
    exact hn n hc.symm
  · exact hu
  · exact hw

theorem mkDelta_idx_nonidx {s : String} {a : Ex} (ha : ∀ t, a ≠ .idx t) :
    mkDelta (.idx s) a = .delta (.idx s) a := by
  have hne : Ex.idx s ≠ a := by
    intro hc
    exact ha s hc.symm
  cases a
  case idx t => exact absurd rfl (ha t)
  all_goals (unfold mkDelta; rw [if_neg hne])

theorem ne_deltaIdx_of_noIdx {b : Ex} (hb : noIdx b = true) :
    ∀ x y, b ≠ .delta (.idx x) (.idx y) := by
  intro x y hc
  subst hc
  simp [noIdx] at hb

theorem orig_pkg {x : Ex} (hc : canonV x = true) (hn : noIdx x = true)
    (hpf : pwFree x = true) :
    doit x = x ∧ (∀ p, isBadKey p = true → hasV p x = false) ∧
    (∀ a b, x ≠ .delta (.idx a) (.idx b)) :=
  ⟨(doit_id_all x).1 hc (Or.inl (by simp [hn, hpf])),
   fun p hp => (hasV_false_of_noIdx x p hn (noIdx_isBadKey hp)).1,
   ne_deltaIdx_of_noIdx hn⟩

theorem mkAdd_ne_deltaIdx {u w : Ex} (hu : ∀ x y, u ≠ .delta (.idx x) (.idx y))
    (hw : ∀ x y, w ≠ .delta (.idx x) (.idx y)) :
    ∀ x y, mkAdd u w ≠ .delta (.idx x) (.idx y) := by
  intro x y
  rcases mkAdd_cases u w with h | ⟨n, h⟩ | h | h <;> rw [h]
  · simp
  · simp
  · exact hu x y
  · exact hw x y

theorem mkMul_ne_deltaIdx {u w : Ex} (hu : ∀ x y, u ≠ .delta (.idx x) (.idx y))
    (hw : ∀ x y, w ≠ .delta (.idx x) (.idx y)) :
    ∀ x y, mkMul u w ≠ .delta (.idx x) (.idx y) := by
  intro x y
  rcases mkMul_cases u w with h | ⟨n, h⟩ | h | h <;> rw [h]
  · simp
  · simp
  · exact hu x y
  · exact hw x y

theorem nOfIdx_pack (s : String) : canonV (Ex.nOf (.idx s)) = true ∧
    doit (Ex.nOf (.idx s)) = Ex.nOf (.idx s) ∧ pwFree (Ex.nOf (.idx s)) = true := by
  refine ⟨by simp [canonV], ?_, by simp [pwFree]⟩
  simp [doit]

theorem hasV_badkey_nOfIdx {p : Ex} (hp : isBadKey p = true) (s : String) :
    hasV p (Ex.nOf (.idx s)) = false := by
  obtain ⟨-, -, -, -, hidx, -, -, -, -, -, -, hnof⟩ := badKey_ne_simple hp
  rw [hasV_nOf]
  constructor
  · intro hc
    exact hnof (Ex.idx s) hc.symm
  · simp [hasV]
    intro hc
    exact hidx s hc.symm

theorem hasV_badkey_num {p : Ex} (hp : isBadKey p = true) (n : Int) :
    hasV p (Ex.num n) = false := by
  obtain ⟨hn, -⟩ := badKey_ne_simple hp
  simp [hasV]
  intro hc
  exact hn n hc.symm

theorem GR_num (n : Int) : GR (.num n) := by
  refine ⟨by simp [canonV], by simp [doit], fun p hp => hasV_badkey_num hp n, by simp⟩

theorem GR_orig {x : Ex} (hc : canonV x = true) (hn : noIdx x = true)
    (hpf : pwFree x = true) : GR x :=
  ⟨hc, (doit_id_all x).1 hc (Or.inl (by simp [hn, hpf])),
   fun p hp => (hasV_false_of_noIdx x p hn (noIdx_isBadKey hp)).1,
   ne_deltaIdx_of_noIdx hn⟩

theorem GR_mkAdd {u w : Ex} (hu : GR u) (hw : GR w) : GR (mkAdd u w) :=
  ⟨canonV_mkAdd hu.1 hw.1, doit_mkAdd_stable hu.2.1 hw.2.1,
   fun p hp => hasV_badkey_mkAdd hp (hu.2.2.1 p hp) (hw.2.2.1 p hp),
   mkAdd_ne_deltaIdx hu.2.2.2 hw.2.2.2⟩

theorem GR_mkMul {u w : Ex} (hu : GR u) (hw : GR w) : GR (mkMul u w) :=
  ⟨canonV_mkMul hu.1 hw.1, doit_mkMul_stable hu.2.1 hw.2.1,
   fun p hp => hasV_badkey_mkMul hp (hu.2.2.1 p hp) (hw.2.2.1 p hp),
   by
    intro x y
    rcases mkMul_cases u w with h | ⟨n, h⟩ | h | h <;> rw [h]
    · simp
    · simp
    · exact hu.2.2.2 x y
    · exact hw.2.2.2 x y⟩

theorem GR_mkPow {u w : Ex} (hu : GR u) (hw : GR w) : GR (mkPow u w) :=
  ⟨canonV_mkPow hu.1 hw.1, doit_mkPow_stable hu.2.1 hw.2.1,
   fun p hp => hasV_badkey_mkPow hp (hu.2.2.1 p hp) (hw.2.2.1 p hp),
   by
    intro x y
    rcases mkPow_cases u w with h | ⟨n, h⟩ | h | h <;> rw [h]
    · simp
    · simp
    · exact hu.2.2.2 x y
    · exact hw.2.2.2 x y⟩

theorem GR_log {a : Ex} (hc : canonV a = true) (hn : noIdx a = true)
    (hpf : pwFree a = true) :
    GR (.func "log" (.argsCons a .argsNil)) := by
  obtain ⟨hda, hka, -⟩ := orig_pkg hc hn hpf
  refine ⟨?_, ?_, ?_, by simp⟩
  · rw [canonV_func, canonA_argsCons]
    exact ⟨hc, by simp [canonA]⟩
  · have h2 : doit (Ex.func "log" (.argsCons a .argsNil)) =
        .func "log" (doitC (.argsCons a .argsNil)) := by simp [doit]
    rw [h2]
    simp [doitC, hda]
  · intro p hp
    obtain ⟨-, -, -, -, -, -, hfn, -⟩ := badKey_ne_simple hp
    rw [hasV_func]
    refine ⟨fun hc2 => hfn _ _ hc2.symm, ?_⟩
    rw [hasC_argsCons]
    exact ⟨hka p hp, by simp [hasC]⟩

theorem GR_derivNode {e0 : Ex} (hc : canonV e0 = true) (hn : noIdx e0 = true)
    (hpf : pwFree e0 = true) (s : String) :
    GR (.deriv e0 (.nOf (.idx s))) := by
  obtain ⟨hd, hk, -⟩ := orig_pkg hc hn hpf
  obtain ⟨hcv, hdv, -⟩ := nOfIdx_pack s
  refine ⟨?_, ?_, ?_, by simp⟩
  · rw [canonV_deriv]
    exact ⟨hc, hcv⟩
  · have h2 : doit (Ex.deriv e0 (.nOf (.idx s))) =
        .deriv (doit e0) (doit (Ex.nOf (.idx s))) := by simp [doit]
    rw [h2, hd, hdv]
  · intro p hp
    obtain ⟨-, -, -, -, -, -, -, hdr, -⟩ := badKey_ne_simple hp
    rw [hasV_deriv]
    exact ⟨fun hc2 => hdr _ _ hc2.symm, hk p hp, hasV_badkey_nOfIdx hp s⟩

theorem diffBy_pkg (s : String) : ∀ e : Ex,
    canonV e = true → noIdx e = true → pwFree e = true →
    GR (diffBy e (.nOf (.idx s))) ∧ pwFree (diffBy e (.nOf (.idx s))) = true := by
  intro e
  induction e with
  | num v =>
      intro _ _ _
      have hz : diffBy (Ex.num v) (.nOf (.idx s)) = .num 0 := by simp [diffBy]
      rw [hz]
      exact ⟨GR_num 0, by simp [pwFree]⟩
  | sym t =>
      intro _ _ _
      have hz : diffBy (Ex.sym t) (.nOf (.idx s)) = .num 0 := by simp [diffBy]
      rw [hz]
      exact ⟨GR_num 0, by simp [pwFree]⟩
  | idx t =>
      intro _ h2 _
      simp [noIdx] at h2
  | nbase =>
      intro _ _ _
      have hz : diffBy Ex.nbase (.nOf (.idx s)) = .num 0 := by simp [diffBy]
      rw [hz]
      exact ⟨GR_num 0, by simp [pwFree]⟩
  | ctrue =>
      intro _ _ _
      have hz : diffBy Ex.ctrue (.nOf (.idx s)) = .num 0 := by simp [diffBy]
      rw [hz]
      exact ⟨GR_num 0, by simp [pwFree]⟩
  | cfalse =>
      intro _ _ _
      have hz : diffBy Ex.cfalse (.nOf (.idx s)) = .num 0 := by simp [diffBy]
      rw [hz]
      exact ⟨GR_num 0, by simp [pwFree]⟩
  | ceq a b iha ihb =>
      intro _ _ _
      have hz : diffBy (Ex.ceq a b) (.nOf (.idx s)) = .num 0 := by simp [diffBy]
      rw [hz]
      exact ⟨GR_num 0, by simp [pwFree]⟩
  | cne a b iha ihb =>
      intro _ _ _
      have hz : diffBy (Ex.cne a b) (.nOf (.idx s)) = .num 0 := by simp [diffBy]
      rw [hz]
      exact ⟨GR_num 0, by simp [pwFree]⟩
  | cge a b iha ihb =>
      intro _ _ _
      have hz : diffBy (Ex.cge a b) (.nOf (.idx s)) = .num 0 := by simp [diffBy]
      rw [hz]
      exact ⟨GR_num 0, by simp [pwFree]⟩
  | cand a b iha ihb =>
      intro _ _ _
      have hz : diffBy (Ex.cand a b) (.nOf (.idx s)) = .num 0 := by simp [diffBy]
      rw [hz]
      exact ⟨GR_num 0, by simp [pwFree]⟩
  | delta a b iha ihb =>
      intro _ _ _
      have hz : diffBy (Ex.delta a b) (.nOf (.idx s)) = .num 0 := by simp [diffBy]
      rw [hz]
      exact ⟨GR_num 0, by simp [pwFree]⟩
  | pwNil =>
      intro h1 _ _
      simp [canonV] at h1
  | argsNil =>
      intro h1 _ _
      simp [canonV] at h1
  | argsCons a r iha ihr =>
      intro h1 _ _
      simp [canonV] at h1
  | pw v c r ihv ihc ihr =>
      intro _ _ h3
      simp [pwFree] at h3
  | nOf a iha =>
      intro h1 h2 h3
      have hca := canonV_nOf.mp h1
      have hna : noIdx a = true := by simpa [noIdx] using h2
      have hpa : pwFree a = true := by simpa [pwFree] using h3
      have hai : ∀ t, a ≠ Ex.idx t := by
        intro t hcx
        subst hcx
        simp [noIdx] at hna
      have hz : diffBy (Ex.nOf a) (.nOf (.idx s)) = mkDelta (.idx s) a := by simp [diffBy]
      obtain ⟨hda, hka, hnd⟩ := orig_pkg hca hna hpa
      rw [hz, mkDelta_idx_nonidx hai]
      constructor
      · refine ⟨?_, ?_, ?_, ?_⟩
        · rw [canonV_delta]
          refine ⟨by simp [canonV], hca, fun hcx => hai s hcx.symm,
            Or.inl (by simp [Ex.isNum]), ?_⟩
          intro x y hx hy
          exact absurd hy (hai y)
        · have hq3 : doit (Ex.delta (.idx s) a) = mkDelta (doit (Ex.idx s)) (doit a) := by
            simp [doit]
          rw [hq3, hda]
          have hq4 : doit (Ex.idx s) = Ex.idx s := by simp [doit]
          rw [hq4, mkDelta_idx_nonidx hai]
        · intro p hp
          rw [hasV_delta]
          obtain ⟨-, -, -, -, hidx, -⟩ := badKey_ne_simple hp
          refine ⟨?_, ?_, hka p hp⟩
          · intro hcx
            rcases isBadKey_cases hp with ⟨x, y, hpe⟩ | ⟨x, hpe⟩ | ⟨x, hpe⟩
            · rw [hpe] at hcx
              simp at hcx
              exact hai y hcx.2
            · rw [hpe] at hcx
              simp at hcx
            · rw [hpe] at hcx
              simp at hcx
          · simp [hasV]
            intro hcx
            exact hidx s hcx.symm
        · intro x y hcx
          simp at hcx
          exact hai y hcx.2
      · simp [pwFree, hpa]
  | add a b iha ihb =>
      intro h1 h2 h3
      obtain ⟨hca, hcb, -⟩ := canonV_add.mp h1
      simp [noIdx] at h2
      simp [pwFree] at h3
      obtain ⟨g1, f1⟩ := iha hca h2.1 h3.1
      obtain ⟨g2, f2⟩ := ihb hcb h2.2 h3.2
      have hz : diffBy (Ex.add a b) (.nOf (.idx s)) =
          mkAdd (diffBy a (.nOf (.idx s))) (diffBy b (.nOf (.idx s))) := by simp [diffBy]
      rw [hz]
      exact ⟨GR_mkAdd g1 g2, pwFree_mkAdd f1 f2⟩
  | mul a b iha ihb =>
      intro h1 h2 h3
      obtain ⟨hca, hcb, -⟩ := canonV_mul.mp h1
      simp [noIdx] at h2
      simp [pwFree] at h3
      obtain ⟨g1, f1⟩ := iha hca h2.1 h3.1
      obtain ⟨g2, f2⟩ := ihb hcb h2.2 h3.2
      have gra := GR_orig hca h2.1 h3.1
      have grb := GR_orig hcb h2.2 h3.2
      have hz : diffBy (Ex.mul a b) (.nOf (.idx s)) =
          mkAdd (mkMul (diffBy a (.nOf (.idx s))) b) (mkMul a (diffBy b (.nOf (.idx s)))) := by
        simp [diffBy]
      rw [hz]
      exact ⟨GR_mkAdd (GR_mkMul g1 grb) (GR_mkMul gra g2),
        pwFree_mkAdd (pwFree_mkMul f1 h3.2) (pwFree_mkMul h3.1 f2)⟩
  | pow a b iha ihb =>
      intro h1 h2 h3
      obtain ⟨hca, hcb, -⟩ := canonV_pow.mp h1
      simp [noIdx] at h2
      simp [pwFree] at h3
      obtain ⟨g1, f1⟩ := iha hca h2.1 h3.1
      obtain ⟨g2, f2⟩ := ihb hcb h2.2 h3.2
      have gra := GR_orig hca h2.1 h3.1
      have grb := GR_orig hcb h2.2 h3.2
      have hz : diffBy (Ex.pow a b) (.nOf (.idx s)) =
          mkAdd (mkMul (mkMul b (mkPow a (mkAdd b (.num (-1))))) (diffBy a (.nOf (.idx s))))
            (mkMul (mkMul (.func "log" (.argsCons a .argsNil)) (mkPow a b))
              (diffBy b (.nOf (.idx s)))) := by
        simp [diffBy]
      rw [hz]
      have fL : pwFree (Ex.func "log" (.argsCons a .argsNil)) = true := by
        simp [pwFree, h3.1]
      exact ⟨GR_mkAdd (GR_mkMul (GR_mkMul grb (GR_mkPow gra (GR_mkAdd grb (GR_num (-1))))) g1)
          (GR_mkMul (GR_mkMul (GR_log hca h2.1 h3.1) (GR_mkPow gra grb)) g2),
        pwFree_mkAdd
          (pwFree_mkMul (pwFree_mkMul h3.2 (pwFree_mkPow h3.1
            (pwFree_mkAdd h3.2 (by simp [pwFree])))) f1)
          (pwFree_mkMul (pwFree_mkMul fL (pwFree_mkPow h3.1 h3.2)) f2)⟩
  | func nm args ihargs =>
      intro h1 h2 h3
      have hz : diffBy (Ex.func nm args) (.nOf (.idx s)) =
          if hasV (.nOf (.idx s)) (Ex.func nm args) then
            .deriv (Ex.func nm args) (.nOf (.idx s)) else .num 0 := by simp [diffBy]
      rw [hz]
      split
      · refine ⟨GR_derivNode h1 h2 h3 s, ?_⟩
        simp [pwFree] at h3 ⊢
        exact h3
      · exact ⟨GR_num 0, by simp [pwFree]⟩
  | deriv a v iha ihv =>
      intro h1 h2 h3
      have hz : diffBy (Ex.deriv a v) (.nOf (.idx s)) =
          if hasV (.nOf (.idx s)) a then
            .deriv (Ex.deriv a v) (.nOf (.idx s)) else .num 0 := by simp [diffBy]
      rw [hz]
      split
      · refine ⟨GR_derivNode h1 h2 h3 s, ?_⟩
        simp [pwFree] at h3 ⊢
        exact h3
      · exact ⟨GR_num 0, by simp [pwFree]⟩
  | sum body ix lo hi ihb ihl ihh =>
      intro h1 h2 h3
      obtain ⟨hcb, hclo, hchi⟩ := canonV_sum.mp h1
      simp [noIdx] at h2
      obtain ⟨⟨hnb, hnlo⟩, hnhi⟩ := h2
      simp [pwFree] at h3
      obtain ⟨⟨hpb, hplo⟩, hphi⟩ := h3
      obtain ⟨gb, fb⟩ := ihb hcb hnb hpb
      have hz : diffBy (Ex.sum body ix lo hi) (.nOf (.idx s)) =
          .sum (diffBy body (.nOf (.idx s))) ix lo hi := by simp [diffBy]
      rw [hz]
      constructor
      · refine ⟨?_, ?_, ?_, by simp⟩
        · rw [canonV_sum]
          exact ⟨gb.1, hclo, hchi⟩
        · rw [doit]
          simp only [gb.2.1]
          split
          · rename_i v0 c0 r0 heq
            rw [heq] at fb
            simp [pwFree] at fb
          · unfold sumOne
            split
            · split
              · rename_i a0 x0 heq
                exact absurd heq (gb.2.2.2 _ _)
              · rfl
            · rfl
        · intro p hp
          rw [hasV_sum]
          obtain ⟨-, -, -, -, -, -, -, -, -, hsum, -⟩ := badKey_ne_simple hp
          exact ⟨fun hcx => hsum _ _ _ _ hcx.symm, gb.2.2.1 p hp,
            (hasV_false_of_noIdx lo p hnlo (noIdx_isBadKey hp)).1,
            (hasV_false_of_noIdx hi p hnhi (noIdx_isBadKey hp)).1⟩
      · simp [pwFree, fb, hplo, hphi]

theorem mkDelta_idx_idx (a b : String) :
    mkDelta (.idx a) (.idx b) = .num 1 ∨
    ∃ x y, x ≠ y ∧ mkDelta (.idx a) (.idx b) = .delta (.idx x) (.idx y) := by
  by_cases h : (Ex.idx a) = (Ex.idx b)
  · left
    simp only [mkDelta, if_pos h]
  · have hab : a ≠ b := fun hx => h (by rw [hx])
    simp only [mkDelta, if_neg h]
    by_cases h2 : strLt b a = true
    · rw [if_pos h2]
      exact Or.inr ⟨b, a, fun hx => hab hx.symm, rfl⟩
    · rw [if_neg h2]
      exact Or.inr ⟨a, b, hab, rfl⟩

theorem hfk_id {e : Ex} (hk : ∀ p, isBadKey p = true → hasV p e = false)
    (kdx s : String) : handle_free_kronecker e kdx s = e := by
  rcases mkDelta_idx_idx s kdx with h1 | ⟨x, y, -, h2⟩
  · simp [handle_free_kronecker, h1, Ex.isDelta]
  · have hb : isBadKey (Ex.delta (.idx x) (.idx y)) = true := by simp [isBadKey]
    simp [handle_free_kronecker, h2, hk _ hb]

theorem foldl_hfk_id (s : String) : ∀ (l : List String) (e : Ex),
    (∀ p, isBadKey p = true → hasV p e = false) →
    l.foldl (fun acc kdx => handle_free_kronecker acc kdx s) e = e := by
  intro l
  induction l with
  | nil => intro e _; rfl
  | cons a t ih =>
      intro e hk
      have h1 : handle_free_kronecker e a s = e := hfk_id hk a s
      simp only [List.foldl_cons, h1]
      exact ih e hk

theorem hsk_id {e : Ex} (s : String) (hc : canonV e = true) (hd : doit e = e)
    (hl : hasV (bcLow s) e = false) (hh : hasV (bcHigh s) e = false) :
    handle_sum_kronecker e s = e := by
  unfold handle_sum_kronecker
  rw [hd, (subsK_id_all (bcLow s) .ctrue e).1 hc hl,
    (subsK_id_all (bcHigh s) .ctrue e).1 hc hh]

theorem isBadKey_bcLow (s : String) : isBadKey (bcLow s) = true := by
  simp [isBadKey, bcLow]

theorem isBadKey_bcHigh (s : String) : isBadKey (bcHigh s) = true := by
  simp [isBadKey, bcHigh, ncE]

theorem isPiecewise_false_of_pwFree {e : Ex} (h : pwFree e = true) :
    e.isPiecewise = false := by
  cases e <;> simp_all [Ex.isPiecewise, pwFree]

theorem diff_ni_plain {f : Ex} (idxs : List String) (s : String)
    (hc : canonV f = true) (hn : noIdx f = true) (hp : pwFree f = true) :
    diff_ni idxs f s = diffBy f (.nOf (.idx s)) ∧
    (diff_ni idxs f s).isPiecewise = false := by
  obtain ⟨⟨gc, gd, gk, -⟩, hD⟩ := diffBy_pkg s f hc hn hp
  have hkl : hasV (bcLow s) (diffBy f (.nOf (.idx s))) = false :=
    gk _ (isBadKey_bcLow s)
  have hkh : hasV (bcHigh s) (diffBy f (.nOf (.idx s))) = false :=
    gk _ (isBadKey_bcHigh s)
  have hsk : handle_sum_kronecker (diffBy f (.nOf (.idx s))) s =
      diffBy f (.nOf (.idx s)) := hsk_id s gc gd hkl hkh
  have hmain : diff_ni idxs f s = diffBy f (.nOf (.idx s)) := by
    show idxs.foldl (fun acc kdx => handle_free_kronecker acc kdx s)
      (handle_sum_kronecker (diffBy f (.nOf (.idx s))) s) = _
    rw [hsk]
    exact foldl_hfk_id s idxs _ gk
  exact ⟨hmain, by rw [hmain]; exact isPiecewise_false_of_pwFree hD⟩

theorem pwOK_mkAdd {a b : Ex} (ha : pwOK a = true) (hb : pwOK b = true) :
    pwOK (mkAdd a b) = true := by
  rcases mkAdd_cases a b with h | ⟨n, h⟩ | h | h <;> rw [h] <;> simp [pwOK, ha, hb]

theorem pwOK_mkMul {a b : Ex} (ha : pwOK a = true) (hb : pwOK b = true) :
    pwOK (mkMul a b) = true := by
  rcases mkMul_cases a b with h | ⟨n, h⟩ | h | h <;> rw [h] <;> simp [pwOK, ha, hb]

theorem pwOK_mkPow {a b : Ex} (ha : pwOK a = true) (hb : pwOK b = true) :
    pwOK (mkPow a b) = true := by
  rcases mkPow_cases a b with h | ⟨n, h⟩ | h | h <;> rw [h] <;> simp [pwOK, ha, hb]

theorem pwOK_mkAnd {a b : Ex} (ha : pwOK a = true) (hb : pwOK b = true) :
    pwOK (mkAnd a b) = true := by
  rcases mkAnd_cases a b with h | h | h | h <;> rw [h] <;> simp [pwOK, ha, hb]

theorem pwOK_mkEq {a b : Ex} (ha : pwOK a = true) (hb : pwOK b = true) :
    pwOK (mkEq a b) = true := by
  rcases mkEq_cases a b with h | h | h <;> rw [h] <;> simp [pwOK, ha, hb]

theorem pwOK_mkNe {a b : Ex} (ha : pwOK a = true) (hb : pwOK b = true) :
    pwOK (mkNe a b) = true := by
  rcases mkNe_cases a b with h | h | h <;> rw [h] <;> simp [pwOK, ha, hb]

theorem pwOK_mkGe {a b : Ex} (ha : pwOK a = true) (hb : pwOK b = true) :
    pwOK (mkGe a b) = true := by
  rcases mkGe_cases a b with h | h | h <;> rw [h] <;> simp [pwOK, ha, hb]

theorem pwOK_mkDelta {a b : Ex} (ha : pwOK a = true) (hb : pwOK b = true) :
    pwOK (mkDelta a b) = true := by
  rcases mkDelta_cases a b with h | h | ⟨n, h⟩ <;> rw [h] <;> simp [pwOK, ha, hb]

theorem canonV_deltaSumRes (a : String) : canonV (deltaSumRes a) = true := by
  simp [deltaSumRes, canonV, canonC, ncE, Ex.isNum]

theorem pwOK_deltaSumRes (a : String) : pwOK (deltaSumRes a) = true := by
  simp [deltaSumRes, pwOK, pwOKC, cellOK]

theorem normChain_struct : ∀ ch : Ex, cellsGood ch = true → hasTrueCell ch = true →
    (∃ v2 c2 r2, normChain ch = .pw v2 c2 r2) ∧ canonC (normChain ch) = true ∧
    pwOKC (normChain ch) = true ∧ canonV (finPW (normChain ch)) = true ∧
    pwOK (finPW (normChain ch)) = true := by
  intro ch
  induction ch with
  | pw v c r ihv ihc ihr =>
      intro hg ht
      simp [cellsGood] at hg
      obtain ⟨⟨⟨⟨hcv, hpv⟩, hcc⟩, hpc⟩, hgr⟩ := hg
      by_cases hcf : c = Ex.cfalse
      · subst hcf
        have hnc : normChain (Ex.pw v Ex.cfalse r) = normChain r := by
          rw [normChain]
          simp
        rw [hnc]
        apply ihr hgr
        simpa [hasTrueCell] using ht
      · by_cases hct : c = Ex.ctrue
        · subst hct
          have hnc : normChain (Ex.pw v Ex.ctrue r) = .pw v .ctrue .pwNil := by
            rw [normChain]
            simp
          rw [hnc]
          refine ⟨⟨v, _, _, rfl⟩, ?_, ?_, ?_, ?_⟩
          · simp [canonC, canonV, hcv]
          · simp [pwOKC, pwOK, cellOK, hpv]
          · simpa [finPW] using hcv
          · simpa [finPW] using hpv
        · have hnc : normChain (Ex.pw v c r) = .pw v c (normChain r) := by
            rw [normChain, if_neg hcf, if_neg hct]
          have htr : hasTrueCell r = true := by
            simp [hasTrueCell] at ht
            rcases ht with h1 | h1
            · exact absurd h1 hct
            · exact h1
          obtain ⟨⟨v2, c2, r2, hshape⟩, hcanc, hpwc, -, -⟩ := ihr hgr htr
          rw [hnc]
          refine ⟨⟨v, c, normChain r, rfl⟩, ?_, ?_, ?_, ?_⟩
          · simp [canonC, hcv, hcc, hcf, hct, hcanc]
          · rw [hshape] at hpwc ⊢
            simp [pwOKC, cellOK, hpv, hpc, hct, hcf] at hpwc ⊢
            exact hpwc
          · rw [finPW_pw_ne_true hct]
            simp [canonV, hcv, hcc, hct, hcf, hcanc]
          · rw [finPW_pw_ne_true hct]
            rw [hshape] at hpwc ⊢
            simp [pwOK, pwOKC, cellOK, hpv, hpc, hct, hcf] at hpwc ⊢
            exact hpwc
  | pwNil =>
      intro _ ht
      simp [hasTrueCell] at ht
  | num v => intro hg _; simp [cellsGood] at hg
  | sym t => intro hg _; simp [cellsGood] at hg
  | idx t => intro hg _; simp [cellsGood] at hg
  | nbase => intro hg _; simp [cellsGood] at hg
  | nOf a iha => intro hg _; simp [cellsGood] at hg
  | add a b iha ihb => intro hg _; simp [cellsGood] at hg
  | mul a b iha ihb => intro hg _; simp [cellsGood] at hg
  | pow a b iha ihb => intro hg _; simp [cellsGood] at hg
  | func nm args ih => intro hg _; simp [cellsGood] at hg
  | argsCons a r iha ihr => intro hg _; simp [cellsGood] at hg
  | argsNil => intro hg _; simp [cellsGood] at hg
  | deriv a v iha ihv => intro hg _; simp [cellsGood] at hg
  | delta a b iha ihb => intro hg _; simp [cellsGood] at hg
  | sum body ix lo hi ihb ihl ihh => intro hg _; simp [cellsGood] at hg
  | ctrue => intro hg _; simp [cellsGood] at hg
  | cfalse => intro hg _; simp [cellsGood] at hg
  | ceq a b iha ihb => intro hg _; simp [cellsGood] at hg
  | cne a b iha ihb => intro hg _; simp [cellsGood] at hg
  | cge a b iha ihb => intro hg _; simp [cellsGood] at hg
  | cand a b iha ihb => intro hg _; simp [cellsGood] at hg

theorem subsK_pres (key val : Ex) (hkt : key ≠ Ex.ctrue)
    (hvc : canonV val = true) (hvp : pwOK val = true) : ∀ e : Ex,
    (canonV e = true → pwOK e = true →
      canonV (subsK key val e) = true ∧ pwOK (subsK key val e) = true) ∧
    (canonC e = true → pwOKC e = true → e ≠ Ex.pwNil →
      cellsGood (subsC key val e) = true ∧ hasTrueCell (subsC key val e) = true) ∧
    (canonA e = true → pwOKC e = true →
      canonA (subsC key val e) = true ∧ pwOKC (subsC key val e) = true) := by
  intro e
  induction e with
  | num v =>
      refine ⟨?_, fun hc _ _ => by simp [canonC] at hc, fun hc _ => by simp [canonA] at hc⟩
      intro h1 h2
      by_cases hk : Ex.num v = key
      · simp only [subsK, if_pos hk]
        exact ⟨hvc, hvp⟩
      · simp only [subsK, if_neg hk]
        exact ⟨h1, h2⟩
  | sym t =>
      refine ⟨?_, fun hc _ _ => by simp [canonC] at hc, fun hc _ => by simp [canonA] at hc⟩
      intro h1 h2
      by_cases hk : Ex.sym t = key
      · simp only [subsK, if_pos hk]
        exact ⟨hvc, hvp⟩
      · simp only [subsK, if_neg hk]
        exact ⟨h1, h2⟩
  | idx t =>
      refine ⟨?_, fun hc _ _ => by simp [canonC] at hc, fun hc _ => by simp [canonA] at hc⟩
      intro h1 h2
      by_cases hk : Ex.idx t = key
      · simp only [subsK, if_pos hk]
        exact ⟨hvc, hvp⟩
      · simp only [subsK, if_neg hk]
        exact ⟨h1, h2⟩
  | nbase =>
      refine ⟨?_, fun hc _ _ => by simp [canonC] at hc, fun hc _ => by simp [canonA] at hc⟩
      intro h1 h2
      by_cases hk : Ex.nbase = key
      · simp only [subsK, if_pos hk]
        exact ⟨hvc, hvp⟩
      · simp only [subsK, if_neg hk]
        exact ⟨h1, h2⟩
  | ctrue =>
      refine ⟨?_, fun hc _ _ => by simp [canonC] at hc, fun hc _ => by simp [canonA] at hc⟩
      intro h1 h2
      by_cases hk : Ex.ctrue = key
      · simp only [subsK, if_pos hk]
        exact ⟨hvc, hvp⟩
      · simp only [subsK, if_neg hk]
        exact ⟨h1, h2⟩
  | cfalse =>
      refine ⟨?_, fun hc _ _ => by simp [canonC] at hc, fun hc _ => by simp [canonA] at hc⟩
      intro h1 h2
      by_cases hk : Ex.cfalse = key
      · simp only [subsK, if_pos hk]
        exact ⟨hvc, hvp⟩
      · simp only [subsK, if_neg hk]
        exact ⟨h1, h2⟩
  | pwNil =>
      exact ⟨fun hc _ => by simp [canonV] at hc, fun _ _ hne => absurd rfl hne,
        fun hc _ => by simp [canonA] at hc⟩
  | argsNil =>
      refine ⟨fun hc _ => by simp [canonV] at hc, fun hc _ _ => by simp [canonC] at hc, ?_⟩
      intro h1 h2
      exact ⟨h1, h2⟩
  | argsCons a r iha ihr =>
      refine ⟨fun hc _ => by simp [canonV] at hc, fun hc _ _ => by simp [canonC] at hc, ?_⟩
      intro h1 h2
      simp [canonA] at h1
      simp [pwOKC] at h2
      obtain ⟨ha1, ha2⟩ := iha.1 h1.1 h2.1
      obtain ⟨hr1, hr2⟩ := ihr.2.2 h1.2 h2.2
      simp only [subsC]
      simp [canonA, pwOKC, ha1, ha2, hr1, hr2]
  | nOf a iha =>
      refine ⟨?_, fun hc _ _ => by simp [canonC] at hc, fun hc _ => by simp [canonA] at hc⟩
      intro h1 h2
      by_cases hk : Ex.nOf a = key
      · simp only [subsK, if_pos hk]
        exact ⟨hvc, hvp⟩
      · obtain ⟨ha1, ha2⟩ := iha.1 (by simpa [canonV] using h1) (by simpa [pwOK] using h2)
        simp only [subsK, if_neg hk]
        exact ⟨by simpa [canonV] using ha1, by simpa [pwOK] using ha2⟩
  | add a b iha ihb =>
      refine ⟨?_, fun hc _ _ => by simp [canonC] at hc, fun hc _ => by simp [canonA] at hc⟩
      intro h1 h2
      by_cases hk : Ex.add a b = key
      · simp only [subsK, if_pos hk]
        exact ⟨hvc, hvp⟩
      · obtain ⟨hca, hcb, -⟩ := canonV_add.mp h1
        simp [pwOK] at h2
        obtain ⟨ha1, ha2⟩ := iha.1 hca h2.1
        obtain ⟨hb1, hb2⟩ := ihb.1 hcb h2.2
        simp only [subsK, if_neg hk]
        exact ⟨canonV_mkAdd ha1 hb1, pwOK_mkAdd ha2 hb2⟩
  | mul a b iha ihb =>
      refine ⟨?_, fun hc _ _ => by simp [canonC] at hc, fun hc _ => by simp [canonA] at hc⟩
      intro h1 h2
      by_cases hk : Ex.mul a b = key
      · simp only [subsK, if_pos hk]
        exact ⟨hvc, hvp⟩
      · obtain ⟨hca, hcb, -⟩ := canonV_mul.mp h1
        simp [pwOK] at h2
        obtain ⟨ha1, ha2⟩ := iha.1 hca h2.1
        obtain ⟨hb1, hb2⟩ := ihb.1 hcb h2.2
        simp only [subsK, if_neg hk]
        exact ⟨canonV_mkMul ha1 hb1, pwOK_mkMul ha2 hb2⟩
  | pow a b iha ihb =>
      refine ⟨?_, fun hc _ _ => by simp [canonC] at hc, fun hc _ => by simp [canonA] at hc⟩
      intro h1 h2
      by_cases hk : Ex.pow a b = key
      · simp only [subsK, if_pos hk]
        exact ⟨hvc, hvp⟩
      · obtain ⟨hca, hcb, -⟩ := canonV_pow.mp h1
        simp [pwOK] at h2
        obtain ⟨ha1, ha2⟩ := iha.1 hca h2.1
        obtain ⟨hb1, hb2⟩ := ihb.1 hcb h2.2
        simp only [subsK, if_neg hk]
        exact ⟨canonV_mkPow ha1 hb1, pwOK_mkPow ha2 hb2⟩
  | func nm args ihargs =>
      refine ⟨?_, fun hc _ _ => by simp [canonC] at hc, fun hc _ => by simp [canonA] at hc⟩
      intro h1 h2
      by_cases hk : Ex.func nm args = key
      · simp only [subsK, if_pos hk]
        exact ⟨hvc, hvp⟩
      · obtain ⟨ha1, ha2⟩ := ihargs.2.2 (by simpa [canonV] using h1) (by simpa [pwOK] using h2)
        simp only [subsK, if_neg hk]
        exact ⟨by simpa [canonV] using ha1, by simpa [pwOK] using ha2⟩
  | deriv a v iha ihv =>
      refine ⟨?_, fun hc _ _ => by simp [canonC] at hc, fun hc _ => by simp [canonA] at hc⟩
      intro h1 h2
      by_cases hk : Ex.deriv a v = key
      · simp only [subsK, if_pos hk]
        exact ⟨hvc, hvp⟩
      · simp [canonV] at h1
        simp [pwOK] at h2
        obtain ⟨ha1, ha2⟩ := iha.1 h1.1 h2.1
        obtain ⟨hb1, hb2⟩ := ihv.1 h1.2 h2.2
        simp only [subsK, if_neg hk]
        exact ⟨by simp [canonV, ha1, hb1], by simp [pwOK, ha2, hb2]⟩
  | delta a b iha ihb =>
      refine ⟨?_, fun hc _ _ => by simp [canonC] at hc, fun hc _ => by simp [canonA] at hc⟩
      intro h1 h2
      by_cases hk : Ex.delta a b = key
      · simp only [subsK, if_pos hk]
        exact ⟨hvc, hvp⟩
      · obtain ⟨hca, hcb, -, -, -⟩ := canonV_delta.mp h1
        simp [pwOK] at h2
        obtain ⟨ha1, ha2⟩ := iha.1 hca h2.1
        obtain ⟨hb1, hb2⟩ := ihb.1 hcb h2.2
        simp only [subsK, if_neg hk]
        exact ⟨canonV_mkDelta ha1 hb1, pwOK_mkDelta ha2 hb2⟩
  | sum body ix lo hi ihb ihl ihh =>
      refine ⟨?_, fun hc _ _ => by simp [canonC] at hc, fun hc _ => by simp [canonA] at hc⟩
      intro h1 h2
      by_cases hk : Ex.sum body ix lo hi = key
      · simp only [subsK, if_pos hk]
        exact ⟨hvc, hvp⟩
      · obtain ⟨hcb, hclo, hchi⟩ := canonV_sum.mp h1
        simp [pwOK] at h2
        obtain ⟨⟨hpb, hplo⟩, hphi⟩ := h2
        obtain ⟨ha1, ha2⟩ := ihb.1 hcb hpb
        obtain ⟨hl1, hl2⟩ := ihl.1 hclo hplo
        obtain ⟨hh1, hh2⟩ := ihh.1 hchi hphi
        simp only [subsK, if_neg hk]
        exact ⟨by simp [canonV, ha1, hl1, hh1], by simp [pwOK, ha2, hl2, hh2]⟩
  | ceq a b iha ihb =>
      refine ⟨?_, fun hc _ _ => by simp [canonC] at hc, fun hc _ => by simp [canonA] at hc⟩
      intro h1 h2
      by_cases hk : Ex.ceq a b = key
      · simp only [subsK, if_pos hk]
        exact ⟨hvc, hvp⟩
      · obtain ⟨hca, hcb, -, -⟩ := canonV_ceq.mp h1
        simp [pwOK] at h2
        obtain ⟨ha1, ha2⟩ := iha.1 hca h2.1
        obtain ⟨hb1, hb2⟩ := ihb.1 hcb h2.2
        simp only [subsK, if_neg hk]
        exact ⟨canonV_mkEq ha1 hb1, pwOK_mkEq ha2 hb2⟩
  | cne a b iha ihb =>
      refine ⟨?_, fun hc _ _ => by simp [canonC] at hc, fun hc _ => by simp [canonA] at hc⟩
      intro h1 h2
      by_cases hk : Ex.cne a b = key
      · simp only [subsK, if_pos hk]
        exact ⟨hvc, hvp⟩
      · obtain ⟨hca, hcb, -, -⟩ := canonV_cne.mp h1
        simp [pwOK] at h2
        obtain ⟨ha1, ha2⟩ := iha.1 hca h2.1
        obtain ⟨hb1, hb2⟩ := ihb.1 hcb h2.2
        simp only [subsK, if_neg hk]
        exact ⟨canonV_mkNe ha1 hb1, pwOK_mkNe ha2 hb2⟩
  | cge a b iha ihb =>
      refine ⟨?_, fun hc _ _ => by simp [canonC] at hc, fun hc _ => by simp [canonA] at hc⟩
      intro h1 h2
      by_cases hk : Ex.cge a b = key
      · simp only [subsK, if_pos hk]
        exact ⟨hvc, hvp⟩
      · obtain ⟨hca, hcb, -, -⟩ := canonV_cge.mp h1
        simp [pwOK] at h2
        obtain ⟨ha1, ha2⟩ := iha.1 hca h2.1
        obtain ⟨hb1, hb2⟩ := ihb.1 hcb h2.2
        simp only [subsK, if_neg hk]
        exact ⟨canonV_mkGe ha1 hb1, pwOK_mkGe ha2 hb2⟩
  | cand a b iha ihb =>
      refine ⟨?_, fun hc _ _ => by simp [canonC] at hc, fun hc _ => by simp [canonA] at hc⟩
      intro h1 h2
      by_cases hk : Ex.cand a b = key
      · simp only [subsK, if_pos hk]
        exact ⟨hvc, hvp⟩
      · obtain ⟨hca, hcb, -, -, -, -⟩ := canonV_cand.mp h1
        simp [pwOK] at h2
        obtain ⟨ha1, ha2⟩ := iha.1 hca h2.1
        obtain ⟨hb1, hb2⟩ := ihb.1 hcb h2.2
        simp only [subsK, if_neg hk]
        exact ⟨canonV_mkAnd ha1 hb1, pwOK_mkAnd ha2 hb2⟩
  | pw v c r ihv ihc ihr =>
      constructor
      · intro h1 h2
        by_cases hk : Ex.pw v c r = key
        · simp only [subsK, if_pos hk]
          exact ⟨hvc, hvp⟩
        · obtain ⟨hcv, hcc, hct, hcf, hcr⟩ := canonV_pw.mp h1
          simp [pwOK] at h2
          obtain ⟨⟨⟨hpv, hpc⟩, hcell⟩, hpr⟩ := h2
          have hrne : r ≠ Ex.pwNil := by
            intro hre
            subst hre
            simp [cellOK] at hcell
            exact hct hcell
          obtain ⟨hg, htc⟩ := ihr.2.1 hcr hpr hrne
          obtain ⟨hv1, hv2⟩ := ihv.1 hcv hpv
          obtain ⟨hc1, hc2⟩ := ihc.1 hcc hpc
          simp only [subsK, if_neg hk]
          have hgood : cellsGood (Ex.pw (subsK key val v) (subsK key val c)
              (subsC key val r)) = true := by
            simp [cellsGood, hv1, hv2, hc1, hc2, hg]
          have htrue : hasTrueCell (Ex.pw (subsK key val v) (subsK key val c)
              (subsC key val r)) = true := by
            simp [hasTrueCell, htc]
          obtain ⟨-, -, -, h4, h5⟩ := normChain_struct _ hgood htrue
          exact ⟨h4, h5⟩
      · refine ⟨?_, fun hc2 _ => by simp [canonA] at hc2⟩
        intro hc1 hp1 _
        obtain ⟨hcv, hcc, hcf, hifr⟩ := canonC_pw.mp hc1
        simp [pwOKC] at hp1
        obtain ⟨⟨⟨hpv, hpc⟩, hcell⟩, hpr⟩ := hp1
        obtain ⟨hv1, hv2⟩ := ihv.1 hcv hpv
        simp only [subsC]
        by_cases hct : c = Ex.ctrue
        · subst hct
          simp only [if_pos rfl] at hifr
          subst hifr
          have hck : Ex.ctrue ≠ key := fun h => hkt h.symm
          have hsc : subsK key val Ex.ctrue = Ex.ctrue := by
            simp only [subsK, if_neg hck]
          rw [hsc]
          constructor
          · simp [cellsGood, canonV, pwOK, hv1, hv2]
          · simp [hasTrueCell]
        · have hcr : canonC r = true := by simpa [if_neg hct] using hifr
          have hrne : r ≠ Ex.pwNil := by
            intro hre
            subst hre
            simp [cellOK] at hcell
            exact hct hcell
          obtain ⟨hc1a, hc2a⟩ := ihc.1 hcc hpc
          obtain ⟨hg, htc⟩ := ihr.2.1 hcr hpr hrne
          constructor
          · simp [cellsGood, hv1, hv2, hc1a, hc2a, hg]
          · simp [hasTrueCell, htc]

theorem canonC_of_canonV_pw {v c r : Ex} (h : canonV (Ex.pw v c r) = true) :
    canonC (Ex.pw v c r) = true := by
  obtain ⟨h1, h2, h3, h4, h5⟩ := canonV_pw.mp h
  simp [canonC, h1, h2, h3, h4, h5]

theorem pwOKC_of_pwOK_pw {v c r : Ex} (h : pwOK (Ex.pw v c r) = true) :
    pwOKC (Ex.pw v c r) = true := by
  simp [pwOK] at h
  simp [pwOKC]
  exact h

theorem sumOne_pres (ix : String) {v lo hi : Ex} (h1 : canonV v = true)
    (h2 : pwOK v = true) (hlo1 : canonV lo = true) (hlo2 : pwOK lo = true)
    (hhi1 : canonV hi = true) (hhi2 : pwOK hi = true) :
    canonV (sumOne v ix lo hi) = true ∧ pwOK (sumOne v ix lo hi) = true := by
  unfold sumOne
  split
  · split
    · split
      · exact ⟨canonV_deltaSumRes _, pwOK_deltaSumRes _⟩
      · split
        · exact ⟨canonV_deltaSumRes _, pwOK_deltaSumRes _⟩
        · exact ⟨canonV_sum.mpr ⟨h1, hlo1, hhi1⟩, by simp [pwOK, h2, hlo2, hhi2]⟩
    · exact ⟨canonV_sum.mpr ⟨h1, hlo1, hhi1⟩, by simp [pwOK, h2, hlo2, hhi2]⟩
  · exact ⟨canonV_sum.mpr ⟨h1, hlo1, hhi1⟩, by simp [pwOK, h2, hlo2, hhi2]⟩

theorem sumOneOpt_pres {v lo hi : Ex} {ix : String} {v2 : Ex}
    (h : sumOneOpt v ix lo hi = some v2) : canonV v2 = true ∧ pwOK v2 = true := by
  unfold sumOneOpt at h
  split at h
  · simp at h
    subst h
    exact ⟨by simp [canonV], by simp [pwOK]⟩
  · split at h
    · split at h
      · simp at h
        subst h
        exact ⟨canonV_deltaSumRes _, pwOK_deltaSumRes _⟩
      · split at h
        · simp at h
          subst h
          exact ⟨canonV_deltaSumRes _, pwOK_deltaSumRes _⟩
        · simp at h
    · simp at h
  · simp at h

theorem sumBranchesOpt_good (ix : String) (lo hi : Ex) : ∀ ch0 ch : Ex,
    sumBranchesOpt ix lo hi ch0 = some ch → canonC ch0 = true → pwOKC ch0 = true →
    ch0 ≠ Ex.pwNil → cellsGood ch = true ∧ hasTrueCell ch = true := by
  intro ch0
  induction ch0 with
  | pw v c r ihv ihc ihr =>
      intro ch h hc hp _
      obtain ⟨hcv, hcc, hcf, hifr⟩ := canonC_pw.mp hc
      simp [pwOKC] at hp
      obtain ⟨⟨⟨hpv, hpc⟩, hcell⟩, hpr⟩ := hp
      simp only [sumBranchesOpt] at h
      cases hv : sumOneOpt v ix lo hi with
      | none =>
          rw [hv] at h
          simp at h
      | some v2 =>
          cases hr : sumBranchesOpt ix lo hi r with
          | none =>
              rw [hv, hr] at h
              simp at h
          | some r2 =>
              rw [hv, hr] at h
              simp at h
              subst h
              obtain ⟨s1, s2⟩ := sumOneOpt_pres hv
              by_cases hct : c = Ex.ctrue
              · subst hct
                simp only [if_pos rfl] at hifr
                subst hifr
                have hr2 : r2 = Ex.pwNil := by
                  simpa [sumBranchesOpt] using hr.symm
                subst hr2
                constructor
                · simp [cellsGood, canonV, pwOK, s1, s2]
                · simp [hasTrueCell]
              · have hcr : canonC r = true := by simpa [if_neg hct] using hifr
                have hrne : r ≠ Ex.pwNil := by
                  intro hre
                  subst hre
                  simp [cellOK] at hcell
                  exact hct hcell
                obtain ⟨hg, ht⟩ := ihr r2 hr hcr hpr hrne
                constructor
                · simp [cellsGood, s1, s2, hcc, hpc, hg]
                · simp [hasTrueCell, ht]
  | pwNil =>
      intro ch h _ _ hne
      exact absurd rfl hne
  | num v => intro ch h hc _ _; simp [canonC] at hc
  | sym t => intro ch h hc _ _; simp [canonC] at hc
  | idx t => intro ch h hc _ _; simp [canonC] at hc
  | nbase => intro ch h hc _ _; simp [canonC] at hc
  | nOf a iha => intro ch h hc _ _; simp [canonC] at hc
  | add a b iha ihb => intro ch h hc _ _; simp [canonC] at hc
  | mul a b iha ihb => intro ch h hc _ _; simp [canonC] at hc
  | pow a b iha ihb => intro ch h hc _ _; simp [canonC] at hc
  | func nm args ih => intro ch h hc _ _; simp [canonC] at hc
  | argsCons a r iha ihr => intro ch h hc _ _; simp [canonC] at hc
  | argsNil => intro ch h hc _ _; simp [canonC] at hc
  | deriv a v iha ihv => intro ch h hc _ _; simp [canonC] at hc
  | delta a b iha ihb => intro ch h hc _ _; simp [canonC] at hc
  | sum body ix2 lo2 hi2 ihb ihl ihh => intro ch h hc _ _; simp [canonC] at hc
  | ctrue => intro ch h hc _ _; simp [canonC] at hc
  | cfalse => intro ch h hc _ _; simp [canonC] at hc
  | ceq a b iha ihb => intro ch h hc _ _; simp [canonC] at hc
  | cne a b iha ihb => intro ch h hc _ _; simp [canonC] at hc
  | cge a b iha ihb => intro ch h hc _ _; simp [canonC] at hc
  | cand a b iha ihb => intro ch h hc _ _; simp [canonC] at hc

theorem doit_pres : ∀ e : Ex,
    (canonV e = true → pwOK e = true →
      canonV (doit e) = true ∧ pwOK (doit e) = true) ∧
    (canonC e = true → pwOKC e = true → e ≠ Ex.pwNil →
      cellsGood (doitC e) = true ∧ hasTrueCell (doitC e) = true) ∧
    (canonA e = true → pwOKC e = true →
      canonA (doitC e) = true ∧ pwOKC (doitC e) = true) := by
  intro e
  induction e with
  | num v =>
      exact ⟨fun h1 h2 => ⟨h1, h2⟩, fun hc _ _ => by simp [canonC] at hc,
        fun hc _ => by simp [canonA] at hc⟩
  | sym t =>
      exact ⟨fun h1 h2 => ⟨h1, h2⟩, fun hc _ _ => by simp [canonC] at hc,
        fun hc _ => by simp [canonA] at hc⟩
  | idx t =>
      exact ⟨fun h1 h2 => ⟨h1, h2⟩, fun hc _ _ => by simp [canonC] at hc,
        fun hc _ => by simp [canonA] at hc⟩
  | nbase =>
      exact ⟨fun h1 h2 => ⟨h1, h2⟩, fun hc _ _ => by simp [canonC] at hc,
        fun hc _ => by simp [canonA] at hc⟩
  | ctrue =>
      exact ⟨fun h1 h2 => ⟨h1, h2⟩, fun hc _ _ => by simp [canonC] at hc,
        fun hc _ => by simp [canonA] at hc⟩
  | cfalse =>
      exact ⟨fun h1 h2 => ⟨h1, h2⟩, fun hc _ _ => by simp [canonC] at hc,
        fun hc _ => by simp [canonA] at hc⟩
  | pwNil =>
      exact ⟨fun hc _ => by simp [canonV] at hc, fun _ _ hne => absurd rfl hne,
        fun hc _ => by simp [canonA] at hc⟩
  | argsNil =>
      exact ⟨fun hc _ => by simp [canonV] at hc, fun hc _ _ => by simp [canonC] at hc,
        fun h1 h2 => ⟨h1, h2⟩⟩
  | argsCons a r iha ihr =>
      refine ⟨fun hc _ => by simp [canonV] at hc, fun hc _ _ => by simp [canonC] at hc, ?_⟩
      intro h1 h2
      simp [canonA] at h1
      simp [pwOKC] at h2
      obtain ⟨ha1, ha2⟩ := iha.1 h1.1 h2.1
      obtain ⟨hr1, hr2⟩ := ihr.2.2 h1.2 h2.2
      simp only [doitC]
      simp [canonA, pwOKC, ha1, ha2, hr1, hr2]
  | nOf a iha =>
      refine ⟨?_, fun hc _ _ => by simp [canonC] at hc, fun hc _ => by simp [canonA] at hc⟩
      intro h1 h2
      obtain ⟨ha1, ha2⟩ := iha.1 (by simpa [canonV] using h1) (by simpa [pwOK] using h2)
      exact ⟨by simpa [canonV, doit] using ha1, by simpa [pwOK, doit] using ha2⟩
  | add a b iha ihb =>
      refine ⟨?_, fun hc _ _ => by simp [canonC] at hc, fun hc _ => by simp [canonA] at hc⟩
      intro h1 h2
      obtain ⟨hca, hcb, -⟩ := canonV_add.mp h1
      simp [pwOK] at h2
      obtain ⟨ha1, ha2⟩ := iha.1 hca h2.1
      obtain ⟨hb1, hb2⟩ := ihb.1 hcb h2.2
      rw [doit]
      exact ⟨canonV_mkAdd ha1 hb1, pwOK_mkAdd ha2 hb2⟩
  | mul a b iha ihb =>
      refine ⟨?_, fun hc _ _ => by simp [canonC] at hc, fun hc _ => by simp [canonA] at hc⟩
      intro h1 h2
      obtain ⟨hca, hcb, -⟩ := canonV_mul.mp h1
      simp [pwOK] at h2
      obtain ⟨ha1, ha2⟩ := iha.1 hca h2.1
      obtain ⟨hb1, hb2⟩ := ihb.1 hcb h2.2
      rw [doit]
      exact ⟨canonV_mkMul ha1 hb1, pwOK_mkMul ha2 hb2⟩
  | pow a b iha ihb =>
      refine ⟨?_, fun hc _ _ => by simp [canonC] at hc, fun hc _ => by simp [canonA] at hc⟩
      intro h1 h2
      obtain ⟨hca, hcb, -⟩ := canonV_pow.mp h1
      simp [pwOK] at h2
      obtain ⟨ha1, ha2⟩ := iha.1 hca h2.1
      obtain ⟨hb1, hb2⟩ := ihb.1 hcb h2.2
      rw [doit]
      exact ⟨canonV_mkPow ha1 hb1, pwOK_mkPow ha2 hb2⟩
  | func nm args ihargs =>
      refine ⟨?_, fun hc _ _ => by simp [canonC] at hc, fun hc _ => by simp [canonA] at hc⟩
      intro h1 h2
      obtain ⟨ha1, ha2⟩ := ihargs.2.2 (by simpa [canonV] using h1) (by simpa [pwOK] using h2)
      rw [doit]
      exact ⟨by simpa [canonV] using ha1, by simpa [pwOK] using ha2⟩
  | deriv a v iha ihv =>
      refine ⟨?_, fun hc _ _ => by simp [canonC] at hc, fun hc _ => by simp [canonA] at hc⟩
      intro h1 h2
      simp [canonV] at h1
      simp [pwOK] at h2
      obtain ⟨ha1, ha2⟩ := iha.1 h1.1 h2.1
      obtain ⟨hb1, hb2⟩ := ihv.1 h1.2 h2.2
      rw [doit]
      exact ⟨by simp [canonV, ha1, hb1], by simp [pwOK, ha2, hb2]⟩
  | delta a b iha ihb =>
      refine ⟨?_, fun hc _ _ => by simp [canonC] at hc, fun hc _ => by simp [canonA] at hc⟩
      intro h1 h2
      obtain ⟨hca, hcb, -, -, -⟩ := canonV_delta.mp h1
      simp [pwOK] at h2
      obtain ⟨ha1, ha2⟩ := iha.1 hca h2.1
      obtain ⟨hb1, hb2⟩ := ihb.1 hcb h2.2
      rw [doit]
      exact ⟨canonV_mkDelta ha1 hb1, pwOK_mkDelta ha2 hb2⟩
  | sum body ix lo hi ihb ihl ihh =>
      refine ⟨?_, fun hc _ _ => by simp [canonC] at hc, fun hc _ => by simp [canonA] at hc⟩
      intro h1 h2
      obtain ⟨hcb, hclo, hchi⟩ := canonV_sum.mp h1
      simp [pwOK] at h2
      obtain ⟨⟨hpb, hplo⟩, hphi⟩ := h2
      obtain ⟨hb1, hb2⟩ := ihb.1 hcb hpb
      rw [doit]
      split
      · rename_i v0 c0 r0 heq
        have hp1 : canonV (Ex.pw v0 c0 r0) = true := by
          rw [← heq]
          exact hb1
        have hp2 : pwOK (Ex.pw v0 c0 r0) = true := by
          rw [← heq]
          exact hb2
        split
        · split
          · rename_i ch heq2
            obtain ⟨hg, ht⟩ := sumBranchesOpt_good ix lo hi _ ch heq2
              (canonC_of_canonV_pw hp1) (pwOKC_of_pwOK_pw hp2) (by simp)
            obtain ⟨-, -, -, h4, h5⟩ := normChain_struct _ hg ht
            exact ⟨h4, h5⟩
          · exact ⟨by simp [canonV, hb1, hclo, hchi], by simp [pwOK, hb2, hplo, hphi]⟩
        · exact ⟨by simp [canonV, hb1, hclo, hchi], by simp [pwOK, hb2, hplo, hphi]⟩
      · exact sumOne_pres ix hb1 hb2 hclo hplo hchi hphi
  | ceq a b iha ihb =>
      refine ⟨?_, fun hc _ _ => by simp [canonC] at hc, fun hc _ => by simp [canonA] at hc⟩
      intro h1 h2
      obtain ⟨hca, hcb, -, -⟩ := canonV_ceq.mp h1
      simp [pwOK] at h2
      obtain ⟨ha1, ha2⟩ := iha.1 hca h2.1
      obtain ⟨hb1, hb2⟩ := ihb.1 hcb h2.2
      rw [doit]
      exact ⟨canonV_mkEq ha1 hb1, pwOK_mkEq ha2 hb2⟩
  | cne a b iha ihb =>
      refine ⟨?_, fun hc _ _ => by simp [canonC] at hc, fun hc _ => by simp [canonA] at hc⟩
      intro h1 h2
      obtain ⟨hca, hcb, -, -⟩ := canonV_cne.mp h1
      simp [pwOK] at h2
      obtain ⟨ha1, ha2⟩ := iha.1 hca h2.1
      obtain ⟨hb1, hb2⟩ := ihb.1 hcb h2.2
      rw [doit]
      exact ⟨canonV_mkNe ha1 hb1, pwOK_mkNe ha2 hb2⟩
  | cge a b iha ihb =>
      refine ⟨?_, fun hc _ _ => by simp [canonC] at hc, fun hc _ => by simp [canonA] at hc⟩
      intro h1 h2
      obtain ⟨hca, hcb, -, -⟩ := canonV_cge.mp h1
      simp [pwOK] at h2
      obtain ⟨ha1, ha2⟩ := iha.1 hca h2.1
      obtain ⟨hb1, hb2⟩ := ihb.1 hcb h2.2
      rw [doit]
      exact ⟨canonV_mkGe ha1 hb1, pwOK_mkGe ha2 hb2⟩
  | cand a b iha ihb =>
      refine ⟨?_, fun hc _ _ => by simp [canonC] at hc, fun hc _ => by simp [canonA] at hc⟩
      intro h1 h2
      obtain ⟨hca, hcb, -, -, -, -⟩ := canonV_cand.mp h1
      simp [pwOK] at h2
      obtain ⟨ha1, ha2⟩ := iha.1 hca h2.1
      obtain ⟨hb1, hb2⟩ := ihb.1 hcb h2.2
      rw [doit]
      exact ⟨canonV_mkAnd ha1 hb1, pwOK_mkAnd ha2 hb2⟩
  | pw v c r ihv ihc ihr =>
      constructor
      · intro h1 h2
        obtain ⟨hcv, hcc, hct, hcf, hcr⟩ := canonV_pw.mp h1
        simp [pwOK] at h2
        obtain ⟨⟨⟨hpv, hpc⟩, hcell⟩, hpr⟩ := h2
        have hrne : r ≠ Ex.pwNil := by
          intro hre
          subst hre
          simp [cellOK] at hcell
          exact hct hcell
        obtain ⟨hg, htc⟩ := ihr.2.1 hcr hpr hrne
        obtain ⟨hv1, hv2⟩ := ihv.1 hcv hpv
        obtain ⟨hc1, hc2⟩ := ihc.1 hcc hpc
        rw [doit]
        have hgood : cellsGood (Ex.pw (doit v) (doit c) (doitC r)) = true := by
          simp [cellsGood, hv1, hv2, hc1, hc2, hg]
        have htrue : hasTrueCell (Ex.pw (doit v) (doit c) (doitC r)) = true := by
          simp [hasTrueCell, htc]
        obtain ⟨-, -, -, h4, h5⟩ := normChain_struct _ hgood htrue
        exact ⟨h4, h5⟩
      · refine ⟨?_, fun hc2 _ => by simp [canonA] at hc2⟩
        intro hc1 hp1 _
        obtain ⟨hcv, hcc, hcf, hifr⟩ := canonC_pw.mp hc1
        simp [pwOKC] at hp1
        obtain ⟨⟨⟨hpv, hpc⟩, hcell⟩, hpr⟩ := hp1
        obtain ⟨hv1, hv2⟩ := ihv.1 hcv hpv
        simp only [doitC]
        by_cases hct : c = Ex.ctrue
        · subst hct
          simp only [if_pos rfl] at hifr
          subst hifr
          have hsc : doit Ex.ctrue = Ex.ctrue := rfl
          rw [hsc]
          constructor
          · simp [cellsGood, canonV, pwOK, doitC, hv1, hv2]
          · simp [hasTrueCell]
        · have hcr : canonC r = true := by simpa [if_neg hct] using hifr
          have hrne : r ≠ Ex.pwNil := by
            intro hre
            subst hre
            simp [cellOK] at hcell
            exact hct hcell
          obtain ⟨hc1a, hc2a⟩ := ihc.1 hcc hpc
          obtain ⟨hg, htc⟩ := ihr.2.1 hcr hpr hrne
          constructor
          · simp [cellsGood, hv1, hv2, hc1a, hc2a, hg]
          · simp [hasTrueCell, htc]

theorem diffBy_pres (s : String) : ∀ e : Ex,
    (canonV e = true → pwOK e = true →
      canonV (diffBy e (.nOf (.idx s))) = true ∧ pwOK (diffBy e (.nOf (.idx s))) = true) ∧
    (canonC e = true → pwOKC e = true → e ≠ Ex.pwNil →
      cellsGood (diffC e (.nOf (.idx s))) = true ∧
      hasTrueCell (diffC e (.nOf (.idx s))) = true) := by
  intro e
  induction e with
  | num v =>
      exact ⟨fun _ _ => ⟨by simp [diffBy, canonV], by simp [diffBy, pwOK]⟩,
        fun hc _ _ => by simp [canonC] at hc⟩
  | sym t =>
      refine ⟨?_, fun hc _ _ => by simp [canonC] at hc⟩
      intro _ _
      constructor
      · simp [diffBy, canonV]
      · simp [diffBy, pwOK]
  | idx t =>
      refine ⟨?_, fun hc _ _ => by simp [canonC] at hc⟩
      intro _ _
      constructor
      · simp [diffBy, canonV]
      · simp [diffBy, pwOK]
  | nbase =>
      exact ⟨fun _ _ => ⟨by simp [diffBy, canonV], by simp [diffBy, pwOK]⟩,
        fun hc _ _ => by simp [canonC] at hc⟩
  | ctrue =>
      exact ⟨fun _ _ => ⟨by simp [diffBy, canonV], by simp [diffBy, pwOK]⟩,
        fun hc _ _ => by simp [canonC] at hc⟩
  | cfalse =>
      exact ⟨fun _ _ => ⟨by simp [diffBy, canonV], by simp [diffBy, pwOK]⟩,
        fun hc _ _ => by simp [canonC] at hc⟩
  | pwNil =>
      exact ⟨fun hc _ => by simp [canonV] at hc, fun _ _ hne => absurd rfl hne⟩
  | argsNil =>
      exact ⟨fun hc _ => by simp [canonV] at hc, fun hc _ _ => by simp [canonC] at hc⟩
  | argsCons a r iha ihr =>
      exact ⟨fun hc _ => by simp [canonV] at hc, fun hc _ _ => by simp [canonC] at hc⟩
  | nOf a iha =>
      refine ⟨?_, fun hc _ _ => by simp [canonC] at hc⟩
      intro h1 h2
      have hz : diffBy (Ex.nOf a) (.nOf (.idx s)) = mkDelta (.idx s) a := by simp [diffBy]
      rw [hz]
      have hca : canonV a = true := by simpa [canonV] using h1
      have hpa : pwOK a = true := by simpa [pwOK] using h2
      exact ⟨canonV_mkDelta (by simp [canonV]) hca, pwOK_mkDelta (by simp [pwOK]) hpa⟩
  | add a b iha ihb =>
      refine ⟨?_, fun hc _ _ => by simp [canonC] at hc⟩
      intro h1 h2
      obtain ⟨hca, hcb, -⟩ := canonV_add.mp h1
      simp [pwOK] at h2
      obtain ⟨ha1, ha2⟩ := iha.1 hca h2.1
      obtain ⟨hb1, hb2⟩ := ihb.1 hcb h2.2
      have hz : diffBy (Ex.add a b) (.nOf (.idx s)) =
          mkAdd (diffBy a (.nOf (.idx s))) (diffBy b (.nOf (.idx s))) := by simp [diffBy]
      rw [hz]
      exact ⟨canonV_mkAdd ha1 hb1, pwOK_mkAdd ha2 hb2⟩
  | mul a b iha ihb =>
      refine ⟨?_, fun hc _ _ => by simp [canonC] at hc⟩
      intro h1 h2
      obtain ⟨hca, hcb, -⟩ := canonV_mul.mp h1
      simp [pwOK] at h2
      obtain ⟨ha1, ha2⟩ := iha.1 hca h2.1
      obtain ⟨hb1, hb2⟩ := ihb.1 hcb h2.2
      have hz : diffBy (Ex.mul a b) (.nOf (.idx s)) =
          mkAdd (mkMul (diffBy a (.nOf (.idx s))) b) (mkMul a (diffBy b (.nOf (.idx s)))) := by
        simp [diffBy]
      rw [hz]
      exact ⟨canonV_mkAdd (canonV_mkMul ha1 hcb) (canonV_mkMul hca hb1),
        pwOK_mkAdd (pwOK_mkMul ha2 h2.2) (pwOK_mkMul h2.1 hb2)⟩
  | pow a b iha ihb =>
      refine ⟨?_, fun hc _ _ => by simp [canonC] at hc⟩
      intro h1 h2
      obtain ⟨hca, hcb, -⟩ := canonV_pow.mp h1
      simp [pwOK] at h2
      obtain ⟨ha1, ha2⟩ := iha.1 hca h2.1
      obtain ⟨hb1, hb2⟩ := ihb.1 hcb h2.2
      have hz : diffBy (Ex.pow a b) (.nOf (.idx s)) =
          mkAdd (mkMul (mkMul b (mkPow a (mkAdd b (.num (-1))))) (diffBy a (.nOf (.idx s))))
            (mkMul (mkMul (.func "log" (.argsCons a .argsNil)) (mkPow a b))
              (diffBy b (.nOf (.idx s)))) := by
        simp [diffBy]
      rw [hz]
      have hlogc : canonV (Ex.func "log" (.argsCons a .argsNil)) = true := by
        simp [canonV, canonA, hca]
      have hlogp : pwOK (Ex.func "log" (.argsCons a .argsNil)) = true := by
        simp [pwOK, pwOKC, h2.1]
      exact ⟨canonV_mkAdd
          (canonV_mkMul (canonV_mkMul hcb (canonV_mkPow hca
            (canonV_mkAdd hcb (by simp [canonV])))) ha1)
          (canonV_mkMul (canonV_mkMul hlogc (canonV_mkPow hca hcb)) hb1),
        pwOK_mkAdd
          (pwOK_mkMul (pwOK_mkMul h2.2 (pwOK_mkPow h2.1
            (pwOK_mkAdd h2.2 (by simp [pwOK])))) ha2)
          (pwOK_mkMul (pwOK_mkMul hlogp (pwOK_mkPow h2.1 h2.2)) hb2)⟩
  | func nm args ihargs =>
      refine ⟨?_, fun hc _ _ => by simp [canonC] at hc⟩
      intro h1 h2
      have hz : diffBy (Ex.func nm args) (.nOf (.idx s)) =
          if hasV (.nOf (.idx s)) (Ex.func nm args) then
            .deriv (Ex.func nm args) (.nOf (.idx s)) else .num 0 := by simp [diffBy]
      rw [hz]
      split
      · exact ⟨by simp [canonV]; simpa [canonV] using h1, by simp [pwOK]; simpa [pwOK] using h2⟩
      · exact ⟨by simp [canonV], by simp [pwOK]⟩
  | deriv a v iha ihv =>
      refine ⟨?_, fun hc _ _ => by simp [canonC] at hc⟩
      intro h1 h2
      have hz : diffBy (Ex.deriv a v) (.nOf (.idx s)) =
          if hasV (.nOf (.idx s)) a then
            .deriv (Ex.deriv a v) (.nOf (.idx s)) else .num 0 := by simp [diffBy]
      rw [hz]
      split
      · simp [canonV] at h1
        simp [pwOK] at h2
        exact ⟨by simp [canonV, h1.1, h1.2], by simp [pwOK, h2.1, h2.2]⟩
      · exact ⟨by simp [canonV], by simp [pwOK]⟩
  | delta a b iha ihb =>
      exact ⟨fun _ _ => ⟨by simp [diffBy, canonV], by simp [diffBy, pwOK]⟩,
        fun hc _ _ => by simp [canonC] at hc⟩
  | sum body ix lo hi ihb ihl ihh =>
      refine ⟨?_, fun hc _ _ => by simp [canonC] at hc⟩
      intro h1 h2
      obtain ⟨hcb, hclo, hchi⟩ := canonV_sum.mp h1
      simp [pwOK] at h2
      obtain ⟨⟨hpb, hplo⟩, hphi⟩ := h2
      obtain ⟨hb1, hb2⟩ := ihb.1 hcb hpb
      have hz : diffBy (Ex.sum body ix lo hi) (.nOf (.idx s)) =
          .sum (diffBy body (.nOf (.idx s))) ix lo hi := by simp [diffBy]
      rw [hz]
      exact ⟨by simp [canonV, hb1, hclo, hchi], by simp [pwOK, hb2, hplo, hphi]⟩
  | ceq a b iha ihb =>
      exact ⟨fun _ _ => ⟨by simp [diffBy, canonV], by simp [diffBy, pwOK]⟩,
        fun hc _ _ => by simp [canonC] at hc⟩
  | cne a b iha ihb =>
      exact ⟨fun _ _ => ⟨by simp [diffBy, canonV], by simp [diffBy, pwOK]⟩,
        fun hc _ _ => by simp [canonC] at hc⟩
  | cge a b iha ihb =>
      exact ⟨fun _ _ => ⟨by simp [diffBy, canonV], by simp [diffBy, pwOK]⟩,
        fun hc _ _ => by simp [canonC] at hc⟩
  | cand a b iha ihb =>
      exact ⟨fun _ _ => ⟨by simp [diffBy, canonV], by simp [diffBy, pwOK]⟩,
        fun hc _ _ => by simp [canonC] at hc⟩
  | pw v c r ihv ihc ihr =>
      constructor
      · intro h1 h2
        obtain ⟨hcv, hcc, hct, hcf, hcr⟩ := canonV_pw.mp h1
        simp [pwOK] at h2
        obtain ⟨⟨⟨hpv, hpc⟩, hcell⟩, hpr⟩ := h2
        have hrne : r ≠ Ex.pwNil := by
          intro hre
          subst hre
          simp [cellOK] at hcell
          exact hct hcell
        obtain ⟨hg, htc⟩ := ihr.2 hcr hpr hrne
        obtain ⟨hv1, hv2⟩ := ihv.1 hcv hpv
        have hz : diffBy (Ex.pw v c r) (.nOf (.idx s)) =
            finPW (normChain (.pw (diffBy v (.nOf (.idx s))) c
              (diffC r (.nOf (.idx s))))) := by simp [diffBy]
        rw [hz]
        have hgood : cellsGood (Ex.pw (diffBy v (.nOf (.idx s))) c
            (diffC r (.nOf (.idx s)))) = true := by
          simp [cellsGood, hv1, hv2, hcc, hpc, hg]
        have htrue : hasTrueCell (Ex.pw (diffBy v (.nOf (.idx s))) c
            (diffC r (.nOf (.idx s)))) = true := by
          simp [hasTrueCell, htc]
        obtain ⟨-, -, -, h4, h5⟩ := normChain_struct _ hgood htrue
        exact ⟨h4, h5⟩
      · intro hc1 hp1 _
        obtain ⟨hcv, hcc, hcf, hifr⟩ := canonC_pw.mp hc1
        simp [pwOKC] at hp1
        obtain ⟨⟨⟨hpv, hpc⟩, hcell⟩, hpr⟩ := hp1
        obtain ⟨hv1, hv2⟩ := ihv.1 hcv hpv
        have hz : diffC (Ex.pw v c r) (.nOf (.idx s)) =
            .pw (diffBy v (.nOf (.idx s))) c (diffC r (.nOf (.idx s))) := by simp [diffC]
        rw [hz]
        by_cases hct : c = Ex.ctrue
        · subst hct
          simp only [if_pos rfl] at hifr
          subst hifr
          have hzn : diffC Ex.pwNil (.nOf (.idx s)) = Ex.pwNil := by simp [diffC]
          rw [hzn]
          constructor
          · simp [cellsGood, canonV, pwOK, hv1, hv2]
          · simp [hasTrueCell]
        · have hcr : canonC r = true := by simpa [if_neg hct] using hifr
          have hrne : r ≠ Ex.pwNil := by
            intro hre
            subst hre
            simp [cellOK] at hcell
            exact hct hcell
          obtain ⟨hg, htc⟩ := ihr.2 hcr hpr hrne
          constructor
          · simp [cellsGood, hv1, hv2, hcc, hpc, hg]
          · simp [hasTrueCell, htc]

theorem hsk_pres {e : Ex} (s : String) (h1 : canonV e = true) (h2 : pwOK e = true) :
    canonV (handle_sum_kronecker e s) = true ∧ pwOK (handle_sum_kronecker e s) = true := by
  obtain ⟨d1, d2⟩ := (doit_pres e).1 h1 h2
  obtain ⟨s1, s2⟩ := (subsK_pres (bcLow s) Ex.ctrue (by simp [bcLow])
    (by simp [canonV]) (by simp [pwOK]) (doit e)).1 d1 d2
  obtain ⟨t1, t2⟩ := (subsK_pres (bcHigh s) Ex.ctrue (by simp [bcHigh])
    (by simp [canonV]) (by simp [pwOK]) _).1 s1 s2
  exact ⟨t1, t2⟩

theorem hfk_pres {e : Ex} (kdxN idxN : String) (h1 : canonV e = true) (h2 : pwOK e = true) :
    canonV (handle_free_kronecker e kdxN idxN) = true ∧
    pwOK (handle_free_kronecker e kdxN idxN) = true := by
  rcases mkDelta_idx_idx idxN kdxN with hd | ⟨x, y, hxy, hd⟩
  · simp only [handle_free_kronecker, hd]
    simp [Ex.isDelta]
    exact ⟨h1, h2⟩
  · simp only [handle_free_kronecker, hd]
    split
    · obtain ⟨a1, a2⟩ := (subsK_pres (Ex.idx kdxN) (Ex.idx idxN) (by simp)
        (by simp [canonV]) (by simp [pwOK]) e).1 h1 h2
      obtain ⟨b1, b2⟩ := (subsK_pres (Ex.delta (.idx x) (.idx y)) (Ex.num 0) (by simp)
        (by simp [canonV]) (by simp [pwOK]) e).1 h1 h2
      have hcd : condOf (Ex.delta (.idx x) (.idx y)) = .ceq (.idx x) (.idx y) := by
        simp [condOf]
      rw [hcd]
      have hgood : cellsGood (chainOfList
          [(subsK (Ex.idx kdxN) (Ex.idx idxN) e, Ex.ceq (.idx x) (.idx y)),
           (subsK (Ex.delta (.idx x) (.idx y)) (Ex.num 0) e, Ex.ctrue)]) = true := by
        simp [chainOfList, cellsGood, a1, a2, b1, b2, canonV, pwOK, Ex.isNum, hxy]
      have htrue : hasTrueCell (chainOfList
          [(subsK (Ex.idx kdxN) (Ex.idx idxN) e, Ex.ceq (.idx x) (.idx y)),
           (subsK (Ex.delta (.idx x) (.idx y)) (Ex.num 0) e, Ex.ctrue)]) = true := by
        simp [chainOfList, hasTrueCell]
      obtain ⟨-, -, -, h4, h5⟩ := normChain_struct _ hgood htrue
      exact ⟨h4, h5⟩
    · exact ⟨h1, h2⟩

theorem foldl_hfk_pres (s : String) : ∀ (l : List String) (e : Ex),
    canonV e = true → pwOK e = true →
    canonV (l.foldl (fun acc kdx => handle_free_kronecker acc kdx s) e) = true ∧
    pwOK (l.foldl (fun acc kdx => handle_free_kronecker acc kdx s) e) = true := by
  intro l
  induction l with
  | nil => exact fun e h1 h2 => ⟨h1, h2⟩
  | cons a t ih =>
      intro e h1 h2
      obtain ⟨g1, g2⟩ := hfk_pres a s h1 h2
      simp only [List.foldl_cons]
      exact ih _ g1 g2

theorem diff_ni_pres {e : Ex} (idxs : List String) (s : String)
    (h1 : canonV e = true) (h2 : pwOK e = true) :
    canonV (diff_ni idxs e s) = true ∧ pwOK (diff_ni idxs e s) = true := by
  obtain ⟨d1, d2⟩ := (diffBy_pres s e).1 h1 h2
  obtain ⟨k1, k2⟩ := hsk_pres s d1 d2
  show canonV (idxs.foldl (fun acc kdx => handle_free_kronecker acc kdx s)
      (handle_sum_kronecker (diffBy e (.nOf (.idx s))) s)) = true ∧
    pwOK (idxs.foldl (fun acc kdx => handle_free_kronecker acc kdx s)
      (handle_sum_kronecker (diffBy e (.nOf (.idx s))) s)) = true
  exact foldl_hfk_pres s idxs _ k1 k2

theorem rediff_pres {e : Ex} (idxs : List String) (s : String)
    (h1 : canonV e = true) (h2 : pwOK e = true) :
    canonV (rediff idxs e s) = true ∧ pwOK (rediff idxs e s) = true := by
  obtain ⟨g1, g2⟩ := diff_ni_pres idxs s h1 h2
  show canonV (handle_free_kronecker (diff_ni idxs e s) s "i") = true ∧
    pwOK (handle_free_kronecker (diff_ni idxs e s) s "i") = true
  exact hfk_pres s "i" g1 g2

theorem canonC_shape : ∀ {r : Ex}, canonC r = true →
    r = Ex.pwNil ∨ ∃ v c t, r = Ex.pw v c t := by
  intro r h
  cases r
  case pwNil => exact Or.inl rfl
  case pw v c t => exact Or.inr ⟨v, c, t, rfl⟩
  all_goals simp [canonC] at h

theorem combine_plz_eq (c dc : Ex) (s : String) : combine_plz c dc s = mkAnd c dc := by
  simp [combine_plz, pyIsTrue]

theorem toBranches_chain_facts : ∀ r : Ex, canonC r = true → pwOKC r = true →
    ∀ vc ∈ toBranches r, canonV vc.1 = true ∧ pwOK vc.1 = true ∧
      canonV vc.2 = true ∧ pwOK vc.2 = true := by
  intro r
  induction r with
  | pw v c rest ihv ihc ihr =>
      intro hc hp vc hm
      obtain ⟨hcv, hcc, hcf, hifr⟩ := canonC_pw.mp hc
      simp [pwOKC] at hp
      obtain ⟨⟨⟨hpv, hpc⟩, hcell⟩, hpr⟩ := hp
      simp [toBranches] at hm
      rcases hm with hm | hm
      · rw [hm]
        exact ⟨hcv, hpv, hcc, hpc⟩
      · by_cases hct : c = Ex.ctrue
        · subst hct
          simp only [if_pos rfl] at hifr
          subst hifr
          simp [toBranches] at hm
        · have hcr : canonC rest = true := by simpa [if_neg hct] using hifr
          exact ihr hcr hpr vc hm
  | pwNil => intro _ _ vc hm; simp [toBranches] at hm
  | num v => intro hc _; simp [canonC] at hc
  | sym t => intro hc _; simp [canonC] at hc
  | idx t => intro hc _; simp [canonC] at hc
  | nbase => intro hc _; simp [canonC] at hc
  | nOf a iha => intro hc _; simp [canonC] at hc
  | add a b iha ihb => intro hc _; simp [canonC] at hc
  | mul a b iha ihb => intro hc _; simp [canonC] at hc
  | pow a b iha ihb => intro hc _; simp [canonC] at hc
  | func nm args ih => intro hc _; simp [canonC] at hc
  | argsCons a r iha ihr => intro hc _; simp [canonC] at hc
  | argsNil => intro hc _; simp [canonC] at hc
  | deriv a v iha ihv => intro hc _; simp [canonC] at hc
  | delta a b iha ihb => intro hc _; simp [canonC] at hc
  | sum body ix lo hi ihb ihl ihh => intro hc _; simp [canonC] at hc
  | ctrue => intro hc _; simp [canonC] at hc
  | cfalse => intro hc _; simp [canonC] at hc
  | ceq a b iha ihb => intro hc _; simp [canonC] at hc
  | cne a b iha ihb => intro hc _; simp [canonC] at hc
  | cge a b iha ihb => intro hc _; simp [canonC] at hc
  | cand a b iha ihb => intro hc _; simp [canonC] at hc

theorem toBranches_top_facts {v c r : Ex} (h1 : canonV (Ex.pw v c r) = true)
    (h2 : pwOK (Ex.pw v c r) = true) :
    ∀ vc ∈ toBranches (Ex.pw v c r), canonV vc.1 = true ∧ pwOK vc.1 = true ∧
      canonV vc.2 = true ∧ pwOK vc.2 = true := by
  obtain ⟨hcv, hcc, hct, hcf, hcr⟩ := canonV_pw.mp h1
  simp [pwOK] at h2
  obtain ⟨⟨⟨hpv, hpc⟩, hcell⟩, hpr⟩ := h2
  intro vc hm
  simp [toBranches] at hm
  rcases hm with hm | hm
  · rw [hm]
    exact ⟨hcv, hpv, hcc, hpc⟩
  · exact toBranches_chain_facts r hcr hpr vc hm

theorem toBranches_chain_hasTrue : ∀ r v c t, r = Ex.pw v c t → canonC r = true →
    pwOKC r = true → ∃ vc ∈ toBranches r, vc.2 = Ex.ctrue := by
  intro r
  induction r with
  | pw v c rest ihv ihc ihr =>
      intro v0 c0 t0 _ hc hp
      obtain ⟨hcv, hcc, hcf, hifr⟩ := canonC_pw.mp hc
      simp [pwOKC] at hp
      obtain ⟨⟨⟨hpv, hpc⟩, hcell⟩, hpr⟩ := hp
      by_cases hct : c = Ex.ctrue
      · refine ⟨(v, c), ?_, hct⟩
        simp [toBranches]
      · have hcr : canonC rest = true := by simpa [if_neg hct] using hifr
        have hrne : rest ≠ Ex.pwNil := by
          intro hre
          subst hre
          simp [cellOK] at hcell
          exact hct hcell
        rcases canonC_shape hcr with hre0 | ⟨v2, c2, r2, hre⟩
        · exact absurd hre0 hrne
        obtain ⟨vc, hmem, hval⟩ := ihr v2 c2 r2 hre hcr hpr
        refine ⟨vc, ?_, hval⟩
        simp [toBranches]
        right
        exact hmem
  | pwNil => intro v0 c0 t0 hsh; simp at hsh
  | num v => intro v0 c0 t0 hsh; simp at hsh
  | sym t => intro v0 c0 t0 hsh; simp at hsh
  | idx t => intro v0 c0 t0 hsh; simp at hsh
  | nbase => intro v0 c0 t0 hsh; simp at hsh
  | nOf a iha => intro v0 c0 t0 hsh; simp at hsh
  | add a b iha ihb => intro v0 c0 t0 hsh; simp at hsh
  | mul a b iha ihb => intro v0 c0 t0 hsh; simp at hsh
  | pow a b iha ihb => intro v0 c0 t0 hsh; simp at hsh
  | func nm args ih => intro v0 c0 t0 hsh; simp at hsh
  | argsCons a r iha ihr => intro v0 c0 t0 hsh; simp at hsh
  | argsNil => intro v0 c0 t0 hsh; simp at hsh
  | deriv a v iha ihv => intro v0 c0 t0 hsh; simp at hsh
  | delta a b iha ihb => intro v0 c0 t0 hsh; simp at hsh
  | sum body ix lo hi ihb ihl ihh => intro v0 c0 t0 hsh; simp at hsh
  | ctrue => intro v0 c0 t0 hsh; simp at hsh
  | cfalse => intro v0 c0 t0 hsh; simp at hsh
  | ceq a b iha ihb => intro v0 c0 t0 hsh; simp at hsh
  | cne a b iha ihb => intro v0 c0 t0 hsh; simp at hsh
  | cge a b iha ihb => intro v0 c0 t0 hsh; simp at hsh
  | cand a b iha ihb => intro v0 c0 t0 hsh; simp at hsh

theorem toBranches_top_hasTrue {v c r : Ex} (h1 : canonV (Ex.pw v c r) = true)
    (h2 : pwOK (Ex.pw v c r) = true) :
    ∃ vc ∈ toBranches (Ex.pw v c r), vc.2 = Ex.ctrue := by
  obtain ⟨hcv, hcc, hct, hcf, hcr⟩ := canonV_pw.mp h1
  simp [pwOK] at h2
  obtain ⟨⟨⟨hpv, hpc⟩, hcell⟩, hpr⟩ := h2
  have hrne : r ≠ Ex.pwNil := by
    intro hre
    subst hre
    simp [cellOK] at hcell
    exact hct hcell
  rcases canonC_shape hcr with hre0 | ⟨v2, c2, r2, hre⟩
  · exact absurd hre0 hrne
  obtain ⟨vc, hmem, hval⟩ := toBranches_chain_hasTrue r v2 c2 r2 hre hcr hpr
  refine ⟨vc, ?_, hval⟩
  simp [toBranches]
  right
  exact hmem

theorem cellsGood_chainOfList : ∀ l : List (Ex × Ex),
    (∀ vc ∈ l, canonV vc.1 = true ∧ pwOK vc.1 = true ∧
      canonV vc.2 = true ∧ pwOK vc.2 = true) →
    cellsGood (chainOfList l) = true := by
  intro l
  induction l with
  | nil => intro _; simp [chainOfList, cellsGood]
  | cons a t ih =>
      intro h
      obtain ⟨h1, h2, h3, h4⟩ := h a (by simp)
      have ht := ih (fun vc hm => h vc (by simp [hm]))
      obtain ⟨av, ac⟩ := a
      simp [chainOfList, cellsGood, h1, h2, h3, h4, ht]

theorem hasTrueCell_chainOfList : ∀ l : List (Ex × Ex),
    (∃ vc ∈ l, vc.2 = Ex.ctrue) →
    hasTrueCell (chainOfList l) = true := by
  intro l
  induction l with
  | nil => intro h; simp at h
  | cons a t ih =>
      intro h
      obtain ⟨vc, hm, hv⟩ := h
      simp at hm
      obtain ⟨av, ac⟩ := a
      rcases hm with hm | hm
      · rw [hm] at hv
        simp at hv
        simp [chainOfList, hasTrueCell, hv]
      · have := ih ⟨vc, hm, hv⟩
        simp [chainOfList, hasTrueCell, this]

theorem isPiecewise_shape {x : Ex} (hp : x.isPiecewise = true) (hc : canonV x = true) :
    ∃ v c r, x = Ex.pw v c r := by
  cases x
  case pw v c r => exact ⟨v, c, r, rfl⟩
  case pwNil => simp [canonV] at hc
  all_goals simp [Ex.isPiecewise] at hp

theorem pieces_plz_facts (idxs : List String) (s : String) : ∀ bs : List (Ex × Ex),
    (∀ vc ∈ bs, canonV vc.1 = true ∧ pwOK vc.1 = true ∧
      canonV vc.2 = true ∧ pwOK vc.2 = true) →
    ∀ vc ∈ pieces_plz idxs s bs, canonV vc.1 = true ∧ pwOK vc.1 = true ∧
      canonV vc.2 = true ∧ pwOK vc.2 = true := by
  intro bs
  induction bs with
  | nil =>
      intro _ vc hm
      simp [pieces_plz] at hm
  | cons hd t ih =>
      intro h vc hm
      obtain ⟨ev, c⟩ := hd
      obtain ⟨he1, he2, he3, he4⟩ := h (ev, c) (by simp)
      have hts := ih (fun vc2 hm2 => h vc2 (by simp [hm2]))
      obtain ⟨r1, r2⟩ := rediff_pres idxs s he1 he2
      simp only [pieces_plz] at hm
      rw [List.mem_append] at hm
      rcases hm with hm | hm
      · split at hm
        · rename_i hpw2
          simp only [List.mem_map] at hm
          obtain ⟨dc, hdc, hvc⟩ := hm
          obtain ⟨v2, c2, t2, hre⟩ := isPiecewise_shape hpw2 r1
          rw [hre] at hdc r1 r2
          obtain ⟨f1, f2, f3, f4⟩ := toBranches_top_facts r1 r2 dc hdc
          rw [← hvc, combine_plz_eq]
          exact ⟨f1, f2, canonV_mkAnd he3 f3, pwOK_mkAnd he4 f4⟩
        · simp at hm
          rw [hm]
          exact ⟨r1, r2, he3, he4⟩
      · exact hts vc hm

theorem pieces_plz_hasTrue (idxs : List String) (s : String) : ∀ bs : List (Ex × Ex),
    (∀ vc ∈ bs, canonV vc.1 = true ∧ pwOK vc.1 = true) →
    (∃ vc ∈ bs, vc.2 = Ex.ctrue) →
    ∃ vc ∈ pieces_plz idxs s bs, vc.2 = Ex.ctrue := by
  intro bs
  induction bs with
  | nil =>
      intro _ hex
      simp at hex
  | cons hd t ih =>
      intro h hex
      obtain ⟨ev, c⟩ := hd
      obtain ⟨he1, he2⟩ := h (ev, c) (by simp)
      obtain ⟨r1, r2⟩ := rediff_pres idxs s he1 he2
      obtain ⟨vc0, hm0, hv0⟩ := hex
      simp at hm0
      rcases hm0 with hm0 | hm0
      · rw [hm0] at hv0
        simp at hv0
        subst hv0
        simp only [pieces_plz]
        split
        · rename_i hpw2
          obtain ⟨v2, c2, t2, hre⟩ := isPiecewise_shape hpw2 r1
          rw [hre] at r1 r2
          obtain ⟨dc, hdc, hdct⟩ := toBranches_top_hasTrue r1 r2
          refine ⟨(dc.1, combine_plz Ex.ctrue dc.2 s), ?_, ?_⟩
          · rw [List.mem_append]
            left
            rw [List.mem_map]
            refine ⟨dc, ?_, rfl⟩
            rw [hre]
            exact hdc
          · rw [combine_plz_eq, hdct]
            rfl
        · refine ⟨(rediff idxs ev s, Ex.ctrue), ?_, rfl⟩
          rw [List.mem_append]
          left
          simp
      · obtain ⟨vc1, hm1, hv1⟩ := ih (fun vc2 hm2 => h vc2 (by simp [hm2])) ⟨vc0, hm0, hv0⟩
        refine ⟨vc1, ?_, hv1⟩
        simp only [pieces_plz]
        rw [List.mem_append]
        right
        exact hm1

/-- C7: every piecewise expression produced by `diff_ni` or `diff_dnidnj` on a
canonical input that itself satisfies the piecewise invariant again satisfies
the piecewise invariant: every piecewise subexpression of either result is an
ordered branch sequence in which exactly one branch, the terminal one, carries
the literally true condition acting as the default branch (`pwOK`). -/
theorem C7_piecewise_invariant (idxs : List String) (s : String) (e : Ex)
    (h1 : canonV e = true) (h2 : pwOK e = true) :
    pwOK (diff_ni idxs e s) = true ∧ pwOK (diff_dnidnj idxs e s) = true := by
  have hni := diff_ni_pres idxs s h1 h2
  refine ⟨hni.2, ?_⟩
  unfold diff_dnidnj
  split
  · exact hni.2
  · rename_i hpw
    have hpw2 : e.isPiecewise = true := by simpa using hpw
    obtain ⟨v, c, r, hre⟩ := isPiecewise_shape hpw2 h1
    subst hre
    have hfacts := toBranches_top_facts h1 h2
    have hlist := pieces_plz_facts idxs s (toBranches (Ex.pw v c r)) hfacts
    have htrue := pieces_plz_hasTrue idxs s (toBranches (Ex.pw v c r))
      (fun vc hm => ⟨(hfacts vc hm).1, (hfacts vc hm).2.1⟩)
      (toBranches_top_hasTrue h1 h2)
    have hgood := cellsGood_chainOfList _ hlist
    have htc := hasTrueCell_chainOfList _ htrue
    obtain ⟨-, -, -, -, h5⟩ := normChain_struct _ hgood htc
    exact h5

/-- Closed instance of the C7 theorem at a concrete canonical piecewise input. -/
theorem C7_piecewise_invariant_witness :
    pwOK (diff_ni ["k"] (Ex.pw symT (.cge symT (.num 0))
      (.pw symV .ctrue .pwNil)) "i") = true ∧
    pwOK (diff_dnidnj ["k"] (Ex.pw symT (.cge symT (.num 0))
      (.pw symV .ctrue .pwNil)) "i") = true :=
  C7_piecewise_invariant ["k"] "i" _ (by decide) (by decide)

theorem mkDelta_idx_ne_one {a b : String} (hne : a ≠ b) :
    ∃ x y, x ≠ y ∧ mkDelta (.idx a) (.idx b) = .delta (.idx x) (.idx y) ∧
      ((x = a ∧ y = b) ∨ (x = b ∧ y = a)) ∧ strLt y x = false := by
  have hni : Ex.idx a ≠ Ex.idx b := fun hx => hne (by injection hx)
  by_cases hlt : strLt b a = true
  · refine ⟨b, a, fun hx => hne hx.symm, ?_, Or.inr ⟨rfl, rfl⟩, strLt_asymm hlt⟩
    simp only [mkDelta, if_neg hni]
    rw [if_pos hlt]
  · refine ⟨a, b, hne, ?_, Or.inl ⟨rfl, rfl⟩, by simpa using hlt⟩
    simp only [mkDelta, if_neg hni]
    rw [if_neg hlt]

/-- C2: for distinct index symbols `kdx` and `idx`, if the expression contains
the Kronecker delta built from `idx` and `kdx` then `handle_free_kronecker`
returns a two-branch piecewise whose first branch is the expression with `kdx`
substituted by `idx`, guarded by equality of the two delta arguments, and
whose second, unconditional default branch is the expression with the delta
substituted by zero; if the expression does not contain that delta it is
returned unchanged. -/
theorem C2_free_delta_split (e : Ex) (kdxN idxN : String) (hne : idxN ≠ kdxN) :
    ∃ x y, mkDelta (.idx idxN) (.idx kdxN) = .delta (.idx x) (.idx y) ∧
    (hasV (.delta (.idx x) (.idx y)) e = true →
      handle_free_kronecker e kdxN idxN =
        .pw (subsK (.idx kdxN) (.idx idxN) e) (.ceq (.idx x) (.idx y))
          (.pw (subsK (.delta (.idx x) (.idx y)) (.num 0) e) .ctrue .pwNil)) ∧
    (hasV (.delta (.idx x) (.idx y)) e = false →
      handle_free_kronecker e kdxN idxN = e) := by
  obtain ⟨x, y, hxy, hd, hmem, hsort⟩ := mkDelta_idx_ne_one hne
  refine ⟨x, y, hd, ?_, ?_⟩
  · intro hhas
    simp only [handle_free_kronecker, hd]
    rw [if_pos ⟨by simp [Ex.isDelta], hhas⟩]
    simp [mkPiecewise, chainOfList, normChain, finPW, condOf]
  · intro hhas
    simp only [handle_free_kronecker, hd]
    rw [if_neg (fun hcon => by rw [hcon.2] at hhas; exact Bool.true_eq_false.mp hhas)]

/-- Closed instance of the C2 theorem: the expression `n[k] * delta(i, k)`
contains the delta and is split into the two branches; the expression `n[k]`
does not and is returned unchanged. -/
theorem C2_free_delta_split_witness :
    ∃ x y, mkDelta (.idx "i") (.idx "k") = .delta (.idx x) (.idx y) ∧
    (hasV (.delta (.idx x) (.idx y))
        (Ex.mul (.nOf (.idx "k")) (.delta (.idx "i") (.idx "k"))) = true →
      handle_free_kronecker (Ex.mul (.nOf (.idx "k")) (.delta (.idx "i") (.idx "k"))) "k" "i" =
        .pw (subsK (.idx "k") (.idx "i")
            (Ex.mul (.nOf (.idx "k")) (.delta (.idx "i") (.idx "k"))))
          (.ceq (.idx x) (.idx y))
          (.pw (subsK (.delta (.idx x) (.idx y)) (.num 0)
            (Ex.mul (.nOf (.idx "k")) (.delta (.idx "i") (.idx "k")))) .ctrue .pwNil)) ∧
    (hasV (.delta (.idx x) (.idx y))
        (Ex.mul (.nOf (.idx "k")) (.delta (.idx "i") (.idx "k"))) = false →
      handle_free_kronecker (Ex.mul (.nOf (.idx "k")) (.delta (.idx "i") (.idx "k"))) "k" "i" =
        Ex.mul (.nOf (.idx "k")) (.delta (.idx "i") (.idx "k"))) :=
  C2_free_delta_split (Ex.mul (.nOf (.idx "k")) (.delta (.idx "i") (.idx "k"))) "k" "i"
    (by decide)

/-- C3: for the summation over the component index `k` from `1` to the number
of components of the mole-number entry `n[k]`, the first mole-number
derivative computed by `diff_ni` with respect to the reserved index `i` is
exactly the constant `1`. -/
theorem C3_sum_collapse :
    diff_ni ["k", "l", "m"] (sum_components (.nOf (.idx "k")) "k") "i" = .num 1 := by
  decide

theorem mkDelta_i_shape {a x y : String}
    (h2 : mkDelta (.idx "i") (.idx a) = .delta (.idx x) (.idx y)) :
    a ≠ "i" ∧ ((x = "i" ∧ y = a) ∨ (x = a ∧ y = "i")) := by
  by_cases hai : a = "i"
  · subst hai
    simp only [mkDelta, if_pos rfl] at h2
    simp at h2
  · refine ⟨hai, ?_⟩
    have hni : Ex.idx "i" ≠ Ex.idx a := fun hx => hai (by injection hx with hh; exact hh.symm)
    simp only [mkDelta, if_neg hni] at h2
    by_cases hlt : strLt a "i" = true
    · rw [if_pos hlt] at h2
      injection h2 with e1 e2
      injection e1 with e1
      injection e2 with e2
      exact Or.inr ⟨e1.symm, e2.symm⟩
    · rw [if_neg hlt] at h2
      injection h2 with e1 e2
      injection e1 with e1
      injection e2 with e2
      exact Or.inl ⟨e1.symm, e2.symm⟩

theorem hfk_keep_delta {x y u w : String} (kdx : String)
    (h2 : mkDelta (.idx "i") (.idx kdx) = .delta (.idx u) (.idx w))
    (hne3 : Ex.delta (.idx x) (.idx y) ≠ Ex.delta (.idx u) (.idx w)) :
    handle_free_kronecker (Ex.delta (.idx x) (.idx y)) kdx "i" =
      Ex.delta (.idx x) (.idx y) := by
  have hnv : hasV (Ex.delta (.idx u) (.idx w)) (Ex.delta (.idx x) (.idx y)) = false := by
    rw [hasV_delta]
    exact ⟨hne3, by simp [hasV], by simp [hasV]⟩
  simp [handle_free_kronecker, h2, hnv]

theorem hfk_trigger {x y : String} (kdx : String) (hxy : x ≠ y) (hki : kdx ≠ "i")
    (hmem : (x = "i" ∧ y = kdx) ∨ (x = kdx ∧ y = "i"))
    (h2 : mkDelta (.idx "i") (.idx kdx) = .delta (.idx x) (.idx y)) :
    handle_free_kronecker (Ex.delta (.idx x) (.idx y)) kdx "i" =
      .pw (.num 1) (.ceq (.idx x) (.idx y)) (.pw (.num 0) .ctrue .pwNil) := by
  have hself : hasV (Ex.delta (.idx x) (.idx y)) (Ex.delta (.idx x) (.idx y)) = true := by
    rw [hasV]
    simp
  simp only [handle_free_kronecker, h2]
  rw [if_pos ⟨by simp [Ex.isDelta], hself⟩]
  have hsub1 : subsK (Ex.idx kdx) (Ex.idx "i") (Ex.delta (.idx x) (.idx y)) = Ex.num 1 := by
    rcases hmem with ⟨hx, hy⟩ | ⟨hx, hy⟩ <;> subst hx <;> subst hy
    · simp [subsK, mkDelta, hki, Ne.symm hki]
    · simp [subsK, mkDelta, hki, Ne.symm hki]
  have hsub2 : subsK (Ex.delta (.idx x) (.idx y)) (Ex.num 0)
      (Ex.delta (.idx x) (.idx y)) = Ex.num 0 := by
    simp [subsK]
  rw [hsub1, hsub2]
  simp [mkPiecewise, chainOfList, normChain, finPW, condOf]

/-- C4: for the expression `n[p]` with `p` an index of the caller-supplied
index list distinct from the reserved index `i`, `diff_ni` with respect to
`i` produces a two-branch piecewise with value `1` guarded by the condition
equating `p` with `i` (written with the engine's canonical argument order)
and value `0` as the unconditional default. -/
theorem C4_entry_derivative (idxs : List String) (p : String)
    (hp : p ∈ idxs) (hne : p ≠ "i") :
    ∃ x y, ((x = "i" ∧ y = p) ∨ (x = p ∧ y = "i")) ∧
      diff_ni idxs (.nOf (.idx p)) "i" =
        .pw (.num 1) (.ceq (.idx x) (.idx y)) (.pw (.num 0) .ctrue .pwNil) := by
  have hnei : "i" ≠ p := fun h => hne h.symm
  obtain ⟨x, y, hxy, hd, hmem, hsort⟩ := mkDelta_idx_ne_one hnei
  refine ⟨x, y, hmem, ?_⟩
  have hdiff : diffBy (Ex.nOf (.idx p)) (.nOf (.idx "i")) = Ex.delta (.idx x) (.idx y) := by
    have h0 : diffBy (Ex.nOf (.idx p)) (.nOf (.idx "i")) =
        mkDelta (.idx "i") (.idx p) := by simp [diffBy]
    rw [h0, hd]
  have hcD : canonV (Ex.delta (.idx x) (.idx y)) = true := by
    simp [canonV, Ex.isNum, hxy, hsort]
  have hdoit : doit (Ex.delta (.idx x) (.idx y)) = Ex.delta (.idx x) (.idx y) := by
    have hm0 : mkDelta (Ex.idx x) (Ex.idx y) = Ex.delta (.idx x) (.idx y) := by
      have hniE : Ex.idx x ≠ Ex.idx y := fun hx2 => hxy (by injection hx2)
      simp only [mkDelta, if_neg hniE]
      rw [if_neg (by simp [hsort])]
    have hq1 : doit (Ex.delta (.idx x) (.idx y)) =
        mkDelta (doit (.idx x)) (doit (.idx y)) := by simp [doit]
    have hq2 : doit (Ex.idx x) = Ex.idx x := by simp [doit]
    have hq3 : doit (Ex.idx y) = Ex.idx y := by simp [doit]
    rw [hq1, hq2, hq3, hm0]
  have hl : hasV (bcLow "i") (Ex.delta (.idx x) (.idx y)) = false := by
    rw [hasV_delta]
    exact ⟨by simp [bcLow], by simp [hasV, bcLow], by simp [hasV, bcLow]⟩
  have hh : hasV (bcHigh "i") (Ex.delta (.idx x) (.idx y)) = false := by
    rw [hasV_delta]
    exact ⟨by simp [bcHigh], by simp [hasV, bcHigh], by simp [hasV, bcHigh]⟩
  have hsk2 : handle_sum_kronecker (Ex.delta (.idx x) (.idx y)) "i" =
      Ex.delta (.idx x) (.idx y) := hsk_id "i" hcD hdoit hl hh
  have hWkeep : ∀ kdx, handle_free_kronecker
      (Ex.pw (.num 1) (.ceq (.idx x) (.idx y)) (.pw (.num 0) .ctrue .pwNil)) kdx "i" =
      Ex.pw (.num 1) (.ceq (.idx x) (.idx y)) (.pw (.num 0) .ctrue .pwNil) := by
    intro kdx
    rcases mkDelta_idx_idx "i" kdx with h1 | ⟨u, w, huw, h2⟩
    · simp [handle_free_kronecker, h1, Ex.isDelta]
    · have hnv : hasV (Ex.delta (.idx u) (.idx w))
          (Ex.pw (.num 1) (.ceq (.idx x) (.idx y)) (.pw (.num 0) .ctrue .pwNil)) = false := by
        simp [hasV, hasC]
      simp [handle_free_kronecker, h2, hnv]
  have hWfold : ∀ l : List String,
      l.foldl (fun acc kdx => handle_free_kronecker acc kdx "i")
        (Ex.pw (.num 1) (.ceq (.idx x) (.idx y)) (.pw (.num 0) .ctrue .pwNil)) =
      Ex.pw (.num 1) (.ceq (.idx x) (.idx y)) (.pw (.num 0) .ctrue .pwNil) := by
    intro l
    induction l with
    | nil => rfl
    | cons b t ih =>
        simp only [List.foldl_cons, hWkeep b]
        exact ih
  have hfold : ∀ l : List String, p ∈ l →
      l.foldl (fun acc kdx => handle_free_kronecker acc kdx "i")
        (Ex.delta (.idx x) (.idx y)) =
      Ex.pw (.num 1) (.ceq (.idx x) (.idx y)) (.pw (.num 0) .ctrue .pwNil) := by
    intro l
    induction l with
    | nil =>
        intro hmm
        simp at hmm
    | cons b t ih =>
        intro hmm
        simp only [List.foldl_cons]
        by_cases htrig : mkDelta (Ex.idx "i") (Ex.idx b) = Ex.delta (.idx x) (.idx y)
        · obtain ⟨hbi, hbmem⟩ := mkDelta_i_shape htrig
          rw [hfk_trigger b hxy hbi hbmem htrig]
          exact hWfold t
        · have hkeep : handle_free_kronecker (Ex.delta (.idx x) (.idx y)) b "i" =
              Ex.delta (.idx x) (.idx y) := by
            rcases mkDelta_idx_idx "i" b with h1 | ⟨u, w, huw, h2⟩
            · simp [handle_free_kronecker, h1, Ex.isDelta]
            · exact hfk_keep_delta b h2 (fun hcc => htrig (h2.trans hcc.symm))
          rw [hkeep]
          apply ih
          rcases List.mem_cons.mp hmm with hpb | hmm2
          · exfalso
            apply htrig
            rw [← hpb]
            exact hd
          · exact hmm2
  show idxs.foldl (fun acc kdx => handle_free_kronecker acc kdx "i")
      (handle_sum_kronecker (diffBy (Ex.nOf (.idx p)) (.nOf (.idx "i"))) "i") = _
  rw [hdiff, hsk2]
  exact hfold idxs hp

/-- Closed instance of the C4 theorem at the caller index `k` from the
default index list. -/
theorem C4_entry_derivative_witness :
    ∃ x y, ((x = "i" ∧ y = "k") ∨ (x = "k" ∧ y = "i")) ∧
      diff_ni ["k", "l", "m"] (.nOf (.idx "k")) "i" =
        .pw (.num 1) (.ceq (.idx x) (.idx y)) (.pw (.num 0) .ctrue .pwNil) :=
  C4_entry_derivative ["k", "l", "m"] "k" (by decide) (by decide)

/-- C5 counterexample: `handle_sum_kronecker` is not idempotent.  On the
expression `Piecewise((i, i >= 1), (1, True)) >= 1`, the first application
substitutes the boundary condition `i >= 1` inside the piecewise, which
collapses to its now-unconditional first branch `i`, and the rebuilt
comparison node is the literal boundary condition `i >= 1` again; the second
application then substitutes that recreated condition to `True`, so applying
the function twice differs from applying it once. -/
theorem C5_hsk_counterexample :
    handle_sum_kronecker (handle_sum_kronecker
      (Ex.cge (.pw (.idx "i") (.cge (.idx "i") (.num 1)) (.pw (.num 1) .ctrue .pwNil))
        (.num 1)) "i") "i" ≠
    handle_sum_kronecker
      (Ex.cge (.pw (.idx "i") (.cge (.idx "i") (.num 1)) (.pw (.num 1) .ctrue .pwNil))
        (.num 1)) "i" := by
  decide

/-- C5 amended: on canonical input with no pending summation and no occurrence
of the two boundary-condition keys, `handle_sum_kronecker` returns its input
unchanged, and in particular is idempotent there. -/
theorem C5_hsk_identity (e : Ex) (s : String) (h1 : canonV e = true)
    (h2 : sumFree e = true) (hl : hasV (bcLow s) e = false)
    (hh : hasV (bcHigh s) e = false) :
    handle_sum_kronecker e s = e ∧
    handle_sum_kronecker (handle_sum_kronecker e s) s = handle_sum_kronecker e s := by
  have hid : handle_sum_kronecker e s = e :=
    hsk_id s h1 ((doit_id_all e).1 h1 (Or.inr h2)) hl hh
  refine ⟨hid, ?_⟩
  rw [hid, hid]

/-- Closed instance of the amended C5 theorem at the summation-free input
`n[k]`. -/
theorem C5_hsk_identity_witness :
    handle_sum_kronecker (Ex.nOf (.idx "k")) "i" = Ex.nOf (.idx "k") ∧
    handle_sum_kronecker (handle_sum_kronecker (Ex.nOf (.idx "k")) "i") "i" =
      handle_sum_kronecker (Ex.nOf (.idx "k")) "i" :=
  C5_hsk_identity (Ex.nOf (.idx "k")) "i" (by decide) (by decide) (by decide) (by decide)

/-- C6 counterexample: a piecewise expression with no index symbol at all is
index-independent, yet `diff_ni` returns a piecewise result for it, so the
claim's "the result is not piecewise" fails without a piecewise-free
hypothesis on the input. -/
theorem C6_counterexample :
    noIdx (Ex.pw symT (.cge symT (.num 0)) (.pw symV .ctrue .pwNil)) = true ∧
    (diff_ni ["k", "l", "m"] (Ex.pw symT (.cge symT (.num 0))
      (.pw symV .ctrue .pwNil)) "i").isPiecewise = true := by
  decide

/-- C6 amended: for canonical, piecewise-free input containing no index
symbol, `diff_ni` coincides with the engine's plain derivative with respect
to the mole-number entry, and the result is not piecewise. -/
theorem C6_plain_derivative (f : Ex) (idxs : List String) (s : String)
    (hc : canonV f = true) (hn : noIdx f = true) (hp : pwFree f = true) :
    diff_ni idxs f s = diffBy f (.nOf (.idx s)) ∧
    (diff_ni idxs f s).isPiecewise = false :=
  diff_ni_plain idxs s hc hn hp

/-- Closed instance of the amended C6 theorem at the index-free input `T*V`. -/
theorem C6_plain_derivative_witness :
    diff_ni ["k"] (Ex.mul symT symV) "i" = diffBy (Ex.mul symT symV) (.nOf (.idx "i")) ∧
    (diff_ni ["k"] (Ex.mul symT symV) "i").isPiecewise = false :=
  C6_plain_derivative (Ex.mul symT symV) ["k"] "i" (by decide) (by decide) (by decide)

/-- C1: the `is True` comparisons in `DiffPlz.diff_dnidnj` never hold for the
engine's Boolean-true condition object, so every branch pair is combined with
the third, plain-conjunction case; on a piecewise first derivative whose
default branch must be guarded by `i ≠ j` under the specified rule (as the
`==`-based `DiffClass.diff_dnidnj` does), `DiffPlz.diff_dnidnj` produces a
different piecewise. -/
theorem C1_is_true_never_taken :
    (∀ cond dcond s, combine_plz cond dcond s = mkAnd cond dcond) ∧
    some (diff_dnidnj ["k", "l", "m"]
      (Ex.pw (.nOf (.idx "k")) (.ceq (.idx "i") (.idx "k"))
        (.pw (.num 0) .ctrue .pwNil)) "j") ≠
    diffclass_diff_dnidnj ["k", "l", "m"]
      (Ex.pw (.nOf (.idx "k")) (.ceq (.idx "i") (.idx "k"))
        (.pw (.num 0) .ctrue .pwNil)) "j" := by
  constructor
  · intro cond dcond s
    simp [combine_plz, pyIsTrue]
  · decide

/-- C8: `clean_plz` is not idempotent.  For the bundle built from the bare
expression `T`, the display substitution replaces `T` inside the
already-substituted derivative names again on the second pass, so the stored
`dt` attribute changes between the first and the second invocation. -/
theorem C8_clean_not_idempotent :
    (clean_plz (clean_plz (mk_diffplz symT ["k", "l", "m"] "f"))).dt ≠
    (clean_plz (mk_diffplz symT ["k", "l", "m"] "f")).dt := by
  decide

/-- C9: importing the top-level thermodiff package fails: the package
initializer's first `from ... import` line requests the name `SumComponents`
from `thermodiff.core.easy_sums`, which only defines `sum_components`, so
the initializer raises ImportError and no later name is reachable. -/
theorem C9_import_error :
    import_thermodiff = .error ("thermodiff.core.easy_sums", "SumComponents") := rfl

/-- C10: `DiffClass.diff_ni` returns no value on every piecewise input: its
body is guarded by `if not expression.is_Piecewise:` with no else branch. -/
theorem C10_piecewise_none (idxs : List String) (e : Ex) (s : String)
    (h : e.isPiecewise = true) : diffclass_diff_ni idxs e s = none := by
  unfold diffclass_diff_ni
  rw [h]
  simp

/-- Closed instance of the C10 theorem at a concrete piecewise input. -/
theorem C10_piecewise_none_witness :
    diffclass_diff_ni ["k"] (Ex.pw (.num 1) (.ceq (.idx "i") (.idx "k"))
      (.pw (.num 0) .ctrue .pwNil)) "i" = none :=
  C10_piecewise_none ["k"] (Ex.pw (.num 1) (.ceq (.idx "i") (.idx "k"))
    (.pw (.num 0) .ctrue .pwNil)) "i" (by decide)
